import Mathlib

/-!
# fcd: condition simplification pass and parameter-location records

A shallow embedding of `pass_conditions.cpp` (the `simplifyconditions` function pass)
and of the `ValueInformation` record of `callconv/params_registry.h`.

The IR is modelled as a graph: an instruction has an identity (`id`, standing for its
address), an opcode, a result type and a list of operands; operands are references
(`Value`) to instructions, function arguments or constants.  A function is a list of
basic blocks, a basic block a list of instructions.  The pass is a state transformer on
the function.  `getOriginalValue` is a `while` loop in the source; it is modelled with
`Option`, where `none` stands for a loop that never leaves a cycle of cast instructions.

The last part of the definitions gives the operations the pass reads and creates their
values (integers modulo `2^n`), to compare what a replaced instruction and its
replacement compute.
-/

namespace Fcd

/-! ## IR data model (the part of LLVM IR the pass inspects) -/

/-- Result types: integer types of a given bit width, everything else by a tag. -/
inductive Ty where
  | int (bits : Nat)
  | other (tag : Nat)
  deriving DecidableEq, Repr

/-- The thirteen opcodes that `llvm::CastInst` covers. -/
inductive CastOp where
  | Trunc | ZExt | SExt | FPToUI | FPToSI | UIToFP | SIToFP | FPTrunc | FPExt
  | PtrToInt | IntToPtr | BitCast | AddrSpaceCast
  deriving DecidableEq, Repr

/-- Binary operator opcodes. -/
inductive BinOp where
  | Add | FAdd | Sub | FSub | Mul | FMul | UDiv | SDiv | FDiv | URem | SRem | FRem
  | Shl | LShr | AShr | And | Or | Xor
  deriving DecidableEq, Repr

/-- Integer comparison predicates. -/
inductive Predicate where
  | ICMP_EQ | ICMP_NE | ICMP_UGT | ICMP_UGE | ICMP_ULT | ICMP_ULE
  | ICMP_SGT | ICMP_SGE | ICMP_SLT | ICMP_SLE
  deriving DecidableEq, Repr

/-- What a call instruction calls. -/
inductive Callee where
  | ssub_with_overflow
  | usub_with_overflow
  | otherIntrinsic (tag : Nat)
  | function (tag : Nat)
  | indirect
  deriving DecidableEq, Repr

/-- Instruction opcodes, with the data the pass reads from them. -/
inductive Opcode where
  | cast (op : CastOp)
  | binary (op : BinOp)
  | icmp (pred : Predicate)
  | extractvalue (indices : List Nat)
  | call (callee : Callee)
  | other (tag : Nat)
  deriving DecidableEq, Repr

/-- Constants are uniqued, so their identity is their structure.  `binary` is a
binary constant expression; every other constant is `other`. -/
inductive Constant where
  | int (bits : Nat) (value : Nat)
  | binary (op : BinOp) (lhs rhs : Constant)
  | other (tag : Nat) (ty : Ty)
  deriving DecidableEq, Repr

/-- A reference to a value (`llvm::Value*`). -/
inductive Value where
  | inst (id : Nat)
  | arg (idx : Nat) (ty : Ty)
  | const (c : Constant)
  deriving DecidableEq, Repr

structure Instruction where
  id : Nat
  opcode : Opcode
  type : Ty
  operands : List Value
  deriving DecidableEq, Repr

structure BasicBlock where
  insts : List Instruction
  deriving DecidableEq, Repr

structure Function where
  blocks : List BasicBlock
  deriving DecidableEq, Repr

/-- All instructions of the function in layout order. -/
def Function.insts (fn : Function) : List Instruction :=
  (fn.blocks.map BasicBlock.insts).flatten

/-- The instruction with a given identity. -/
def Function.find? (fn : Function) (id : Nat) : Option Instruction :=
  fn.insts.find? (fun i => i.id == id)

def Constant.type : Constant → Ty
  | .int bits _ => .int bits
  | .binary _ lhs _ => lhs.type
  | .other _ ty => ty

/-- The `getType()` of a value; `none` for a reference to no instruction of the function. -/
def Value.type (fn : Function) : Value → Option Ty
  | .inst id => (fn.find? id).map Instruction.type
  | .arg _ ty => some ty
  | .const c => some c.type

/-! ## pass_conditions.cpp: the matcher -/

/-- The step of the loop in `getOriginalValue`: `dyn_cast<CastInst>(from)` and, when it
succeeds, `asCast->getOperand(0)`. -/
def asCast (fn : Function) : Value → Option Value
  | .inst id =>
    match fn.find? id with
    | some i =>
      match i.opcode, i.operands with
      | .cast _, op0 :: _ => some op0
      | _, _ => none
    | none => none
  | _ => none

/-- The `while` loop of `getOriginalValue`, with a bound on the number of iterations;
`none` when the bound is exhausted with a cast instruction still in hand. -/
def getOriginalValueFrom (fn : Function) : Nat → Value → Option Value
  | 0, v =>
    match asCast fn v with
    | none => some v
    | some _ => none
  | n + 1, v =>
    match asCast fn v with
    | none => some v
    | some op0 => getOriginalValueFrom fn n op0

/-- Model of `getOriginalValue`.  A chain of casts that does not end within as many steps as
the function has instructions has come back to an instruction already visited, where
the source loops for ever: that is `none`. -/
def getOriginalValue (fn : Function) (value : Value) : Option Value :=
  getOriginalValueFrom fn fn.insts.length value

def isSameLowerBits (fn : Function) (a b : Value) : Option Bool := do
  let x ← getOriginalValue fn a
  let y ← getOriginalValue fn b
  pure (decide (x = y))

structure Subtraction where
  left : Value
  right : Value
  bitness : Nat
  deriving DecidableEq, Repr

/-- Conjunction with the short circuit of `&&`. -/
def andThen (x y : Option Bool) : Option Bool :=
  x.bind fun b => if b then y else some false

/-- Disjunction with the short circuit of `||`. -/
def orElse (x y : Option Bool) : Option Bool :=
  x.bind fun b => if b then some true else y

def Subtraction.isSame (fn : Function) (s : Subtraction) (l r : Value) (b : Nat) :
    Option Bool :=
  if b = s.bitness then
    orElse (andThen (isSameLowerBits fn l s.left) (isSameLowerBits fn r s.right))
      (andThen (isSameLowerBits fn r s.left) (isSameLowerBits fn l s.right))
  else some false

/-- Model of `isSameSub`: the `unique_ptr<Subtraction>&` is passed in and handed back. -/
def isSameSub (fn : Function) (sub : Option Subtraction) (a b : Value) (bitness : Nat) :
    Option (Bool × Option Subtraction) :=
  match sub with
  | some s => (s.isSame fn a b bitness).map fun r => (r, some s)
  | none => some (true, some ⟨a, b, bitness⟩)

/-- Pattern `m_BinOp(m_Value(l), m_Value(r))` for one opcode: a binary instruction or a
binary constant expression of that opcode; not commutative. -/
def matchBinOp (fn : Function) (op : BinOp) : Value → Option (Value × Value)
  | .inst id =>
    match fn.find? id with
    | some i =>
      match i.opcode, i.operands with
      | .binary op', l :: r :: _ => if op' = op then some (l, r) else none
      | _, _ => none
    | none => none
  | .const (.binary op' l r) => if op' = op then some (.const l, .const r) else none
  | _ => none

/-- Pattern `m_ConstantInt<1>()`. -/
def isConstantIntOne : Value → Bool
  | .const (.int _ v) => decide (v = 1)
  | _ => false

/-- Computes `static_cast<unsigned>(shiftAmount->getLimitedValue()) + 1` for a constant of
value `k`: saturation at `2^64 - 1`, truncation to 32 bits, then the 32-bit increment. -/
def shiftBitness (k : Nat) : Nat :=
  ((if k < 2 ^ 64 then k else 2 ^ 64 - 1) % 2 ^ 32 + 1) % 2 ^ 32

/-- The first part of `matchSignFlag`: the value of `original` when the second `match` is
reached.  The `m_And` pattern binds `original` to the AND's first operand as soon as the
instruction is an AND; the inner `if` then only decides whether casts are stripped. -/
def signFlagOriginal (fn : Function) (value : Value) : Option Value := do
  let original ← getOriginalValue fn value
  match matchBinOp fn .And original with
  | some (original', one) =>
    let o ← getOriginalValue fn one
    if isConstantIntOne o then getOriginalValue fn original' else pure original'
  | none => pure original

/-- The second part of `matchSignFlag`, from `Value* a = nullptr;` on. -/
def matchShiftedSub (fn : Function) (original : Value) (sub : Option Subtraction) :
    Option (Bool × Option Subtraction) :=
  match matchBinOp fn .LShr original with
  | some (operand, .const (.int _ k)) =>
    match matchBinOp fn .Sub operand with
    | some (a, b) => isSameSub fn sub a b (shiftBitness k)
    | none => some (false, sub)
  | _ => some (false, sub)

def matchSignFlag (fn : Function) (value : Value) (sub : Option Subtraction) :
    Option (Bool × Option Subtraction) :=
  (signFlagOriginal fn value).bind fun original => matchShiftedSub fn original sub

/-- Model of `Type::getIntegerBitWidth()`: the width of an integer type.  LLVM defines it
on integer types only, and nothing tests the type before the call; for a type that is no
integer type what the call returns is not fixed by the source, and is modelled by a
number that the type determines, its tag. -/
def Ty.getIntegerBitWidth : Ty → Nat
  | .int bits => bits
  | .other tag => tag

/-- Computes `v->getType()->getIntegerBitWidth()`.  A reference to no instruction of the
function, which the IR never holds, has no type in the model; it is given the width 0. -/
def Value.integerBitWidth (fn : Function) (v : Value) : Nat :=
  match v.type fn with
  | some ty => ty.getIntegerBitWidth
  | none => 0

/-- The guards of `matchOverflowFlag` down to the call of `isSameSub`: the two arguments of
the `ssub_with_overflow` call and `a->getType()->getIntegerBitWidth()` for the first one.
The type of the argument is not tested, so the candidate is bound whatever it is. -/
def overflowFlagParts (fn : Function) (original : Value) : Option (Value × Value × Nat) :=
  match original with
  | .inst id =>
    match fn.find? id with
    | some extract =>
      match extract.opcode, extract.operands with
      | .extractvalue indices, .inst cid :: _ =>
        match fn.find? cid with
        | some intrin =>
          match intrin.opcode, intrin.operands with
          | .call .ssub_with_overflow, a :: b :: _ =>
            if indices = [1] then some (a, b, a.integerBitWidth fn) else none
          | _, _ => none
        | none => none
      | _, _ => none
    | none => none
  | _ => none

def matchOverflowFlag (fn : Function) (value : Value) (sub : Option Subtraction) :
    Option (Bool × Option Subtraction) :=
  (getOriginalValue fn value).bind fun original =>
    match overflowFlagParts fn original with
    | some (a, b, bits) => isSameSub fn sub a b bits
    | none => some (false, sub)

/-- Model of `matchOverflowSignFlag`; the outer `Option` is termination, the inner one the
returned `unique_ptr` (`none` for `nullptr`). -/
def matchOverflowSignFlag (fn : Function) (xorLeft xorRight : Value) :
    Option (Option Subtraction) :=
  (matchOverflowFlag fn xorLeft none).bind fun r1 =>
    if r1.1 then
      (matchSignFlag fn xorRight r1.2).bind fun r2 =>
        if r2.1 then some r2.2 else some none
    else
      (matchOverflowFlag fn xorRight r1.2).bind fun r3 =>
        if r3.1 then
          (matchSignFlag fn xorLeft r3.2).bind fun r4 =>
            if r4.1 then some r4.2 else some none
        else some none

/-! ## pass_conditions.cpp: the rewriting pass -/

/-- One more than every instruction identity the value mentions. -/
def Value.bound : Value → Nat
  | .inst id => id + 1
  | _ => 0

/-- One more than every identity the instruction has or mentions. -/
def Instruction.bound (i : Instruction) : Nat :=
  (i.operands.map Value.bound).foldr max (i.id + 1)

/-- The identity given to a newly created instruction: one that no instruction of the
function has and no operand refers to (a new allocation). -/
def Function.freshId (fn : Function) : Nat :=
  (fn.insts.map Instruction.bound).foldr max 0

/-- Insertion of `new` before the instruction of identity `pos` in an instruction list. -/
def insertBeforeIn (pos : Nat) (new : Instruction) : List Instruction → List Instruction
  | [] => []
  | i :: rest =>
    if i.id = pos then new :: i :: rest else i :: insertBeforeIn pos new rest

/-- Creation of an instruction with the `InsertBefore` argument `&inst`. -/
def Function.insertBefore (fn : Function) (pos : Nat) (new : Instruction) : Function :=
  ⟨fn.blocks.map fun b => ⟨insertBeforeIn pos new b.insts⟩⟩

def Instruction.replaceUses (old new : Value) (i : Instruction) : Instruction :=
  { i with operands := i.operands.map fun v => if v = old then new else v }

/-- Model of `old->replaceAllUsesWith(new)`: every operand of every instruction of the function
that is `old` becomes `new`. -/
def Function.replaceAllUsesWith (fn : Function) (old new : Value) : Function :=
  ⟨fn.blocks.map fun b => ⟨b.insts.map (Instruction.replaceUses old new)⟩⟩

/-- Model of `value.users()`, the instructions that have the value as an operand.  The source
walks the use list, whose order is not fixed by the program text; here it is layout
order. -/
def Function.users (fn : Function) (v : Value) : List Instruction :=
  fn.insts.filter fun i => decide (v ∈ i.operands)

/-- Pattern `m_Intrinsic<Intrinsic::usub_with_overflow>(m_Value(arg0), m_Value(arg1))`. -/
def matchUSubWithOverflow (inst : Instruction) : Option (Value × Value) :=
  match inst.opcode, inst.operands with
  | .call .usub_with_overflow, arg0 :: arg1 :: _ => some (arg0, arg1)
  | _, _ => none

/-- Pattern `m_Xor(m_Value(arg0), m_Value(arg1))`, or `m_ICmp(pred, m_Value(arg0), m_Value(arg1))`
with `pred == ICmpInst::ICMP_NE`. -/
def matchXorOrICmpNE (inst : Instruction) : Option (Value × Value) :=
  match inst.opcode, inst.operands with
  | .binary .Xor, arg0 :: arg1 :: _ => some (arg0, arg1)
  | .icmp .ICMP_NE, arg0 :: arg1 :: _ => some (arg0, arg1)
  | _, _ => none

/-- The comparison created in the unsigned branch. -/
def newICmpULT (fn : Function) (arg0 arg1 : Value) : Instruction :=
  ⟨fn.freshId, .icmp .ICMP_ULT, .int 1, [arg0, arg1]⟩

/-- The comparison created in the signed branch. -/
def newICmpSLT (fn : Function) (sub : Subtraction) : Instruction :=
  ⟨fn.freshId, .icmp .ICMP_SLT, .int 1, [sub.left, sub.right]⟩

/-- The cast created in the signed branch, of the comparison to `inst.getType()`. -/
def newZExt (fn : Function) (ty : Ty) : Instruction :=
  ⟨fn.freshId + 1, .cast .ZExt, ty, [.inst fn.freshId]⟩

/-- Body of the loop over `inst.users()` in the unsigned branch; `inst` is the identity of
the `usub_with_overflow` call, `arg0` and `arg1` the values bound by the pattern. -/
def replaceBorrow (inst : Nat) (arg0 arg1 : Value) (fn : Function) (user : Instruction) :
    Function :=
  match user.opcode with
  | .extractvalue indices =>
    if indices = [1] then
      ((fn.insertBefore inst (newICmpULT fn arg0 arg1)).replaceAllUsesWith
        (.inst user.id) (.inst fn.freshId))
    else fn
  | _ => fn

/-- The rewrite of the signed branch once `matchOverflowSignFlag` has returned `sub`. -/
def fuse (fn : Function) (inst : Instruction) (sub : Subtraction) : Function :=
  (((fn.insertBefore inst.id (newICmpSLT fn sub)).insertBefore inst.id
    (newZExt fn inst.type)).replaceAllUsesWith (.inst inst.id) (.inst (fn.freshId + 1)))

/-- Body of the loop of `runOnBasicBlock` for one instruction. -/
def visit (fn : Function) (inst : Instruction) : Option Function :=
  match matchUSubWithOverflow inst with
  | some (arg0, arg1) =>
    some ((fn.users (.inst inst.id)).foldl (replaceBorrow inst.id arg0 arg1) fn)
  | none =>
    match matchXorOrICmpNE inst with
    | some (arg0, arg1) =>
      (matchOverflowSignFlag fn arg0 arg1).map fun r =>
        match r with
        | some sub => fuse fn inst sub
        | none => fn
    | none => some fn

/-- The loop `for (auto& inst : bb)`: the instructions of the block are visited by identity,
each read in the state the earlier iterations have left; instructions the loop inserts
land before the current one and are not visited. -/
def runOnInsts : Function → List Nat → Option Function
  | fn, [] => some fn
  | fn, id :: rest =>
    match fn.find? id with
    | some inst => (visit fn inst).bind fun fn' => runOnInsts fn' rest
    | none => runOnInsts fn rest

/-- Model of `runOnBasicBlock` on the block of index `bb`: the returned flag is the local `result`,
which is initialised to `false` and never assigned. -/
def runOnBasicBlock (fn : Function) (bb : Nat) : Option (Bool × Function) :=
  let result := false
  match fn.blocks[bb]? with
  | some b => (runOnInsts fn (b.insts.map Instruction.id)).map fun fn' => (result, fn')
  | none => some (result, fn)

/-- The loop `for (auto& bb : fn) result |= runOnBasicBlock(bb);`. -/
def runOnBlocks : Bool → Function → List Nat → Option (Bool × Function)
  | result, fn, [] => some (result, fn)
  | result, fn, bb :: rest =>
    (runOnBasicBlock fn bb).bind fun r => runOnBlocks (result || r.1) r.2 rest

def runOnFunction (fn : Function) : Option (Bool × Function) :=
  runOnBlocks false fn (List.range fn.blocks.length)

/-! ## Cast chains: the loop of `getOriginalValue` without the iteration bound -/

/-- A run of the loop of `getOriginalValue`: `CastPath fn v l r` says the loop started at `v`
steps through the cast instructions `l`, in this order, and stops at `r`, which is no cast
instruction. -/
inductive CastPath (fn : Function) : Value → List Value → Value → Prop where
  | done {v : Value} : asCast fn v = none → CastPath fn v [] v
  | step {v w r : Value} {l : List Value} :
      asCast fn v = some w → CastPath fn w l r → CastPath fn v (v :: l) r

/-! ## callconv/params_registry.h: `ValueInformation` -/

inductive StorageClass where
  | IntegerRegister
  | FloatingPointRegister
  | Stack
  deriving DecidableEq, Repr

/-- The anonymous union of `ValueInformation`: which member a constructor initialised. -/
inductive Payload where
  | registerName (name : String)
  | frameBaseOffset (offset : Nat)
  deriving DecidableEq, Repr

structure ValueInformation where
  type : StorageClass
  payload : Payload
  deriving DecidableEq, Repr

/-- The constructor `ValueInformation(StorageClass regType, uint64_t frameBaseOffset)`; `none` is a
failed `assert(type == Stack)`. -/
def ValueInformation.ofOffset (regType : StorageClass) (frameBaseOffset : Nat) :
    Option ValueInformation :=
  if regType = .Stack then some ⟨regType, .frameBaseOffset frameBaseOffset⟩ else none

/-- The constructor `ValueInformation(StorageClass regType, const char* registerName)`; `none` is a
failed `assert(type != Stack)`. -/
def ValueInformation.ofRegister (regType : StorageClass) (registerName : String) :
    Option ValueInformation :=
  if regType ≠ .Stack then some ⟨regType, .registerName registerName⟩ else none

def Payload.isOffset : Payload → Bool
  | .frameBaseOffset _ => true
  | .registerName _ => false

/-! ## Reading of the specification, to compare with the code -/

/-- The casts the specification calls value-preserving: zero-extension, sign-extension,
truncation and bit-cast. -/
def CastOp.isValuePreserving : CastOp → Bool
  | .Trunc | .ZExt | .SExt | .BitCast => true
  | _ => false

/-- The value is a cast instruction of the function, of one of the kinds the specification
lists. -/
def isValuePreservingCastInst (fn : Function) : Value → Bool
  | .inst id =>
    match fn.find? id with
    | some i =>
      match i.opcode with
      | .cast op => op.isValuePreserving
      | _ => false
    | none => false
  | _ => false

/-! ## Example functions -/

/-- A pointer-to-integer conversion of the first argument. -/
def ptrToIntFn : Function :=
  ⟨[⟨[⟨1, .cast .PtrToInt, .int 64, [.arg 0 (.other 0)]⟩,
      ⟨2, .other 0, .other 1, [.inst 1]⟩]⟩]⟩

/-- The signed fusion pattern on 32-bit arguments, with the sign bit masked by the constant 2
instead of 1:
`%1 = ssub.with.overflow(%a, %b)`, `%2 = extractvalue %1, 1`, `%3 = sub %a, %b`,
`%4 = lshr %3, 31`, `%5 = and %4, 2`, `%6 = trunc %5 to i1`, `%7 = xor %2, %6`, and a
user `%8` of `%7`. -/
def maskTwoFn : Function :=
  ⟨[⟨[⟨1, .call .ssub_with_overflow, .other 0, [.arg 0 (.int 32), .arg 1 (.int 32)]⟩,
      ⟨2, .extractvalue [1], .int 1, [.inst 1]⟩,
      ⟨3, .binary .Sub, .int 32, [.arg 0 (.int 32), .arg 1 (.int 32)]⟩,
      ⟨4, .binary .LShr, .int 32, [.inst 3, .const (.int 32 31)]⟩,
      ⟨5, .binary .And, .int 32, [.inst 4, .const (.int 32 2)]⟩,
      ⟨6, .cast .Trunc, .int 1, [.inst 5]⟩,
      ⟨7, .binary .Xor, .int 1, [.inst 2, .inst 6]⟩,
      ⟨8, .other 0, .other 1, [.inst 7]⟩]⟩]⟩

/-- The signed fusion pattern with a 32-bit `ssub.with.overflow` on truncated 64-bit
arguments and a sign flag taken from the 64-bit subtraction with the shift amount
`2^32 + 31`:
`%1 = trunc %a to i32`, `%2 = trunc %b to i32`, `%3 = ssub.with.overflow(%1, %2)`,
`%4 = extractvalue %3, 1`, `%5 = sub i64 %a, %b`, `%6 = lshr i64 %5, 4294967327`,
`%7 = trunc %6 to i1`, `%8 = xor %4, %7`, and a user `%9` of `%8`. -/
def wideShiftFn : Function :=
  ⟨[⟨[⟨1, .cast .Trunc, .int 32, [.arg 0 (.int 64)]⟩,
      ⟨2, .cast .Trunc, .int 32, [.arg 1 (.int 64)]⟩,
      ⟨3, .call .ssub_with_overflow, .other 0, [.inst 1, .inst 2]⟩,
      ⟨4, .extractvalue [1], .int 1, [.inst 3]⟩,
      ⟨5, .binary .Sub, .int 64, [.arg 0 (.int 64), .arg 1 (.int 64)]⟩,
      ⟨6, .binary .LShr, .int 64, [.inst 5, .const (.int 64 4294967327)]⟩,
      ⟨7, .cast .Trunc, .int 1, [.inst 6]⟩,
      ⟨8, .binary .Xor, .int 1, [.inst 4, .inst 7]⟩,
      ⟨9, .other 0, .other 1, [.inst 8]⟩]⟩]⟩

/-- The signed fusion pattern with a sign flag computed from another pair of operands:
`%1 = ssub.with.overflow(%a, %b)`, `%2 = extractvalue %1, 1`, `%3 = sub %a, %c`,
`%4 = lshr %3, 31`, `%5 = trunc %4 to i1`, `%6 = xor %2, %5`, and a user `%7` of `%6`. -/
def otherPairFn : Function :=
  ⟨[⟨[⟨1, .call .ssub_with_overflow, .other 0, [.arg 0 (.int 32), .arg 1 (.int 32)]⟩,
      ⟨2, .extractvalue [1], .int 1, [.inst 1]⟩,
      ⟨3, .binary .Sub, .int 32, [.arg 0 (.int 32), .arg 2 (.int 32)]⟩,
      ⟨4, .binary .LShr, .int 32, [.inst 3, .const (.int 32 31)]⟩,
      ⟨5, .cast .Trunc, .int 1, [.inst 4]⟩,
      ⟨6, .binary .Xor, .int 1, [.inst 2, .inst 5]⟩,
      ⟨7, .other 0, .other 1, [.inst 6]⟩]⟩]⟩

/-! ## Well-formed functions -/

/-- What the pass may assume of its input, in terms of the model: no two instructions share
an identity, and from no instruction does a chain of casts run in a circle (so that
`getOriginalValue` terminates). -/
def Function.WellFormed (fn : Function) : Prop :=
  (fn.insts.map Instruction.id).Nodup ∧
  ∀ i ∈ fn.insts, (getOriginalValue fn (.inst i.id)).isSome = true

instance (fn : Function) : Decidable fn.WellFormed := by
  unfold Function.WellFormed
  infer_instance

/-- The substitution on operands that `replaceAllUsesWith` performs. -/
def substValue (old new : Value) (v : Value) : Value :=
  if v = old then new else v

/-- The instruction with its operands mapped by `σ`. -/
def Instruction.mapOperands (σ : Value → Value) (i : Instruction) : Instruction :=
  { i with operands := i.operands.map σ }

/-- The block with the operands of its instructions mapped by `σ`. -/
def BasicBlock.mapOperands (σ : Value → Value) (b : BasicBlock) : BasicBlock :=
  ⟨b.insts.map (Instruction.mapOperands σ)⟩

/-- The function with the operands of its instructions mapped by `σ`. -/
def Function.mapOperands (σ : Value → Value) (fn : Function) : Function :=
  ⟨fn.blocks.map (BasicBlock.mapOperands σ)⟩

/-! ## The rewrites of one visit -/

/-- One rewrite performed while the loop of `runOnBasicBlock` visits the instruction of
identity `j`: the unsigned rewrite for one user of the call, with the values `arg0`, `arg1`
bound when the visit began, or the signed rewrite of the instruction itself. -/
inductive Step (j : Nat) (arg0 arg1 : Value) (fn : Function) : Function → Prop where
  | borrow (call user : Instruction) :
      call ∈ fn.insts → call.id = j → call.opcode = .call .usub_with_overflow →
      user ∈ fn.insts → user.opcode = .extractvalue [1] → .inst j ∈ user.operands →
      Step j arg0 arg1 fn (replaceBorrow j arg0 arg1 fn user)
  | fuse (inst : Instruction) (L R : Value) (sub : Subtraction) :
      inst ∈ fn.insts → inst.id = j → matchXorOrICmpNE inst = some (L, R) →
      matchOverflowSignFlag fn L R = some (some sub) →
      Step j arg0 arg1 fn (fuse fn inst sub)

/-- The signed fusion pattern on 32-bit arguments as the lifter emits it, with a separate
`sub`: `%1 = ssub.with.overflow(%a, %b)`, `%2 = extractvalue %1, 1`, `%3 = sub %a, %b`,
`%4 = lshr %3, 31`, `%5 = trunc %4 to i1`, `%6 = xor %2, %5`, and a user `%7` of `%6`. -/
def signedFn : Function :=
  ⟨[⟨[⟨1, .call .ssub_with_overflow, .other 0, [.arg 0 (.int 32), .arg 1 (.int 32)]⟩,
      ⟨2, .extractvalue [1], .int 1, [.inst 1]⟩,
      ⟨3, .binary .Sub, .int 32, [.arg 0 (.int 32), .arg 1 (.int 32)]⟩,
      ⟨4, .binary .LShr, .int 32, [.inst 3, .const (.int 32 31)]⟩,
      ⟨5, .cast .Trunc, .int 1, [.inst 4]⟩,
      ⟨6, .binary .Xor, .int 1, [.inst 2, .inst 5]⟩,
      ⟨7, .other 0, .other 1, [.inst 6]⟩]⟩]⟩

/-- What one rewrite of the visit of `j` creates: `X` is the instruction whose uses are
replaced, `y` the identity that replaces it, `n` a created instruction.  Either `X` is an
`extractvalue` of index 1 using the `usub_with_overflow` call `j` and `n` is the new
`icmp ult`, or `X` is the matched `xor` / `icmp ne` itself and `n` is the new `icmp slt`
or the new `zext`. -/
def IsNew (j : Nat) (arg0 arg1 : Value) (fn : Function) (X : Instruction) (y : Nat)
    (n : Instruction) : Prop :=
  (X.opcode = .extractvalue [1] ∧ .inst j ∈ X.operands ∧
    (∃ call ∈ fn.insts, call.id = j ∧ call.opcode = .call .usub_with_overflow) ∧
    y = fn.freshId ∧ n = newICmpULT fn arg0 arg1) ∨
  (X.id = j ∧ y = fn.freshId + 1 ∧ ∃ L R sub, matchXorOrICmpNE X = some (L, R) ∧
    matchOverflowSignFlag fn L R = some (some sub) ∧
    (n = newICmpSLT fn sub ∨ n = newZExt fn X.type))

/-- Operand number `k` of the instruction of identity `u` is `v`. -/
def Slot (fn : Function) (u k : Nat) (v : Value) : Prop :=
  ∃ i ∈ fn.insts, i.id = u ∧ i.operands[k]? = some v

/-- No instruction of the function has `v` as an operand. -/
def Unused (fn : Function) (v : Value) : Prop :=
  ∀ i ∈ fn.insts, v ∉ i.operands

/-- The function has an instruction of this identity and opcode. -/
def Has (fn : Function) (id : Nat) (opc : Opcode) : Prop :=
  ∃ i ∈ fn.insts, i.id = id ∧ i.opcode = opc

/-- The value is no `extractvalue` of index 1 that uses the instruction `c`. -/
def NotOwnBorrow (fn : Function) (c : Nat) (v : Value) : Prop :=
  ∀ e ∈ fn.insts, v = .inst e.id → e.opcode = .extractvalue [1] → .inst c ∉ e.operands

/-- The unsigned pattern in a function: `c` is a `usub_with_overflow` call, `b` is
`extractvalue(c, 1)`, and no operand of the call is an `extractvalue` of index 1 of the
call itself. -/
structure BorrowInv (fn : Function) (c b : Nat) : Prop where
  call : Has fn c (.call .usub_with_overflow)
  arity : ∀ C ∈ fn.insts, C.id = c → 2 ≤ C.operands.length
  borrow : ∃ E ∈ fn.insts, E.id = b ∧ E.opcode = .extractvalue [1] ∧ E.operands = [.inst c]
  acyclic : ∀ C ∈ fn.insts, C.id = c → ∀ v ∈ C.operands, NotOwnBorrow fn c v

/-- The state after the unsigned rewrite of the borrow `b` of the call `c`: `cmp` is an
`icmp ult` on the two arguments of the call, and nothing uses `b`. -/
structure BorrowDone (fn : Function) (c b cmp : Nat) : Prop where
  cmp : ∃ K ∈ fn.insts, K.id = cmp ∧ K.opcode = .icmp .ICMP_ULT ∧
    ∃ C ∈ fn.insts, C.id = c ∧ K.operands = C.operands.take 2
  unused : Unused fn (.inst b)

/-- The two values bound by the pattern at the start of the visit of the call `c` are
still the first two operands of the call. -/
def ArgsKept (fn : Function) (c : Nat) (arg0 arg1 : Value) : Prop :=
  ∀ C ∈ fn.insts, C.id = c → C.operands.take 2 = [arg0, arg1]

/-- The instructions of the block of index `bb`. -/
def Function.blockInsts (fn : Function) (bb : Nat) : List Instruction :=
  match fn.blocks[bb]? with
  | some b => b.insts
  | none => []

/-- Position of the new comparisons: the block `bb` is `l1 ++ cs ++ C :: l3`, where `C` is
the call `c` and `cs`, the instructions right before it, are `icmp ult` instructions that
were not in the function at the start (their identities are not in `ids0`); the identity
`cmp`, when given, is one of them. -/
def Before (fn : Function) (bb c : Nat) (cmp : Option Nat) (ids0 : List Nat) : Prop :=
  ∃ l1 cs l3 C, fn.blockInsts bb = l1 ++ cs ++ C :: l3 ∧ C.id = c ∧
    (∀ n ∈ cs, n.id ∉ ids0 ∧ n.opcode = .icmp .ICMP_ULT) ∧
    ∀ k ∈ cmp, k ∈ cs.map Instruction.id

/-- The unsigned pattern before the call `c` of block `bb` is visited: the uses of the
borrow `b` recorded in `slots` still refer to `b`. -/
structure BorrowPre (fn : Function) (bb c b : Nat) (ids0 : List Nat)
    (slots : Nat → Nat → Prop) : Prop where
  inv : BorrowInv fn c b
  ids : ∀ id ∈ ids0, id ∈ fn.insts.map Instruction.id
  before : Before fn bb c none ids0
  slots : ∀ u k, slots u k → Slot fn u k (.inst b)

/-- The unsigned pattern after the call `c` of block `bb` was visited: the uses recorded in
`slots` refer to the comparison `cmp`, which stands right before the call, and nothing
uses the borrow `b`. -/
structure BorrowPost (fn : Function) (bb c b cmp : Nat) (ids0 : List Nat)
    (slots : Nat → Nat → Prop) : Prop where
  inv : BorrowInv fn c b
  ids : ∀ id ∈ ids0, id ∈ fn.insts.map Instruction.id
  before : Before fn bb c (some cmp) ids0
  done : BorrowDone fn c b cmp
  slots : ∀ u k, slots u k → Slot fn u k (.inst cmp)

instance (fn : Function) (c : Nat) (v : Value) : Decidable (NotOwnBorrow fn c v) := by
  unfold NotOwnBorrow
  infer_instance

/-- The unsigned pattern on 32-bit arguments:
`%1 = usub.with.overflow(%a, %b)`, `%2 = extractvalue %1, 1`, `%3 = extractvalue %1, 0`,
and a user `%4` of `%2` and `%3`. -/
def unsignedFn : Function :=
  ⟨[⟨[⟨1, .call .usub_with_overflow, .other 0, [.arg 0 (.int 32), .arg 1 (.int 32)]⟩,
      ⟨2, .extractvalue [1], .int 1, [.inst 1]⟩,
      ⟨3, .extractvalue [0], .int 32, [.inst 1]⟩,
      ⟨4, .other 0, .other 1, [.inst 2, .inst 3]⟩]⟩]⟩

/-- Typing of borrow flags: an `extractvalue` of index 1 of a `usub_with_overflow` call has
type `i1`. -/
def BorrowTyped (fn : Function) : Prop :=
  ∀ e ∈ fn.insts, e.opcode = .extractvalue [1] →
    (∃ c ∈ fn.insts, c.opcode = .call .usub_with_overflow ∧ .inst c.id ∈ e.operands) →
    e.type = .int 1

instance (fn : Function) : Decidable (BorrowTyped fn) := by
  unfold BorrowTyped
  infer_instance

/-- The signed pattern in a function: `sid` is `ssub_with_overflow(a, b)` with `a` of
type `i<n>`, `oid` is `extractvalue(sid, 1)`, `rid` is `sub(a, b)` or `sub(b, a)`, `sbid`
is `lshr(rid, n - 1)`, and `xid` is an `xor` or `icmp ne` of type `ty` whose two operands
are `L` and `R`, in either order, where `L` reaches `oid` and `R` reaches `sbid` through
the cast instructions `lL` and `lR`. -/
structure SignedInv (fn : Function) (sid oid rid sbid xid : Nat) (L R : Value)
    (lL lR : List Value) (n w : Nat) (ty : Ty) : Prop where
  typed : BorrowTyped fn
  ssub : ∃ S ∈ fn.insts, S.id = sid ∧ S.opcode = .call .ssub_with_overflow ∧
    ∃ a b rest, S.operands = a :: b :: rest ∧ a.type fn = some (.int n) ∧
      ∃ D ∈ fn.insts, D.id = rid ∧ D.opcode = .binary .Sub ∧
        ∃ rest', (D.operands = a :: b :: rest' ∨ D.operands = b :: a :: rest')
  flag : ∃ O ∈ fn.insts, O.id = oid ∧ O.opcode = .extractvalue [1] ∧ O.operands = [.inst sid]
  shift : ∃ B ∈ fn.insts, B.id = sbid ∧ B.opcode = .binary .LShr ∧
    ∃ rest, B.operands = .inst rid :: .const (.int w (n - 1)) :: rest
  pathL : CastPath fn L lL (.inst oid)
  pathR : CastPath fn R lR (.inst sbid)
  xor : ∃ X ∈ fn.insts, X.id = xid ∧ X.type = ty ∧
    (X.opcode = .binary .Xor ∨ X.opcode = .icmp .ICMP_NE) ∧
    ∃ rest, (X.operands = L :: R :: rest ∨ X.operands = R :: L :: rest)

/-- The state after the signed rewrite of `xid`: `z` is a `zext`, to the type `ty`, of an
`icmp slt` on the two arguments of the `ssub_with_overflow` call `sid`, both created by the
pass, and nothing uses `xid`. -/
structure SignedDone (fn : Function) (sid xid z : Nat) (ty : Ty) (ids0 : List Nat) : Prop where
  zext : ∃ Z ∈ fn.insts, Z.id = z ∧ Z.opcode = .cast .ZExt ∧ Z.type = ty ∧ z ∉ ids0 ∧
    ∃ K ∈ fn.insts, Z.operands = [.inst K.id] ∧ K.id ∉ ids0 ∧ K.opcode = .icmp .ICMP_SLT ∧
      ∃ S ∈ fn.insts, S.id = sid ∧ K.operands = S.operands.take 2
  unused : Unused fn (.inst xid)

/-- The signed pattern before the `xor` is visited: the uses recorded in `slots` still
refer to it. -/
structure SignedPre (fn : Function) (sid oid rid sbid xid : Nat) (L R : Value)
    (lL lR : List Value) (n w : Nat) (ty : Ty) (ids0 : List Nat)
    (slots : Nat → Nat → Prop) : Prop where
  inv : SignedInv fn sid oid rid sbid xid L R lL lR n w ty
  ids : ∀ id ∈ ids0, id ∈ fn.insts.map Instruction.id
  slots : ∀ u k, slots u k → Slot fn u k (.inst xid)

/-- The signed pattern after the `xor` was visited: the uses recorded in `slots` refer to
the `zext` `z`. -/
structure SignedPost (fn : Function) (sid oid rid sbid xid z : Nat) (L R : Value)
    (lL lR : List Value) (n w : Nat) (ty : Ty) (ids0 : List Nat)
    (slots : Nat → Nat → Prop) : Prop where
  inv : SignedInv fn sid oid rid sbid xid L R lL lR n w ty
  ids : ∀ id ∈ ids0, id ∈ fn.insts.map Instruction.id
  done : SignedDone fn sid xid z ty ids0
  slots : ∀ u k, slots u k → Slot fn u k (.inst z)

/-- The signed pattern of width `n` with the sign bit taken from the arithmetic result of
the intrinsic, not from a separate `sub`:
`%1 = ssub.with.overflow(%a, %b)`, `%2 = extractvalue %1, 1`, `%3 = extractvalue %1, 0`,
`%4 = lshr %3, n-1`, `%5 = trunc %4 to i1`, `%6 = xor l, r`, and a user `%7` of `%6`.
The operands `l`, `r` of the `xor` are the overflow bit `%2` and the sign bit, `%5` or
`%4`, in either order. -/
def arithResultFn (n : Nat) (l r : Value) : Function :=
  ⟨[⟨[⟨1, .call .ssub_with_overflow, .other 0, [.arg 0 (.int n), .arg 1 (.int n)]⟩,
      ⟨2, .extractvalue [1], .int 1, [.inst 1]⟩,
      ⟨3, .extractvalue [0], .int n, [.inst 1]⟩,
      ⟨4, .binary .LShr, .int n, [.inst 3, .const (.int n (n - 1))]⟩,
      ⟨5, .cast .Trunc, .int 1, [.inst 4]⟩,
      ⟨6, .binary .Xor, .int 1, [l, r]⟩,
      ⟨7, .other 0, .other 1, [.inst 6]⟩]⟩]⟩

/-! ## Values of the operations the pass reads and creates

The pass is a rewriting of LLVM IR; what the instructions compute is fixed by the
LLVM language reference.  Integers of width `n` are given by their unsigned value, taken
modulo `2^n`. -/

/-- A run-time value: an integer of a bit width, or the result of a with-overflow
intrinsic, which is the wrapped difference and the overflow bit. -/
inductive Val where
  | int (bits : Nat) (value : Nat)
  | pair (bits : Nat) (result : Nat) (overflow : Bool)
  deriving DecidableEq, Repr

/-- The signed (two's complement) interpretation of the `n`-bit integer of unsigned
value `v`. -/
def toSigned (n v : Nat) : Int :=
  if v < 2 ^ (n - 1) then (v : Int) else (v : Int) - 2 ^ n

/-- The `n`-bit difference `a - b`, wrapped. -/
def wrappedSub (n a b : Nat) : Nat :=
  (a + 2 ^ n - b) % 2 ^ n

/-- Value of `llvm.usub.with.overflow`: the wrapped difference, and the overflow bit, set
when the difference of the unsigned values is no unsigned `n`-bit number. -/
def usubWithOverflow (n a b : Nat) : Val :=
  .pair n (wrappedSub n a b)
    (decide (¬ (0 ≤ (a : Int) - (b : Int) ∧ (a : Int) - (b : Int) < 2 ^ n)))

/-- Value of `llvm.ssub.with.overflow`: the wrapped difference, and the overflow bit, set
when the difference of the signed values lies outside `[-2^(n-1), 2^(n-1) - 1]`. -/
def ssubWithOverflow (n a b : Nat) : Val :=
  .pair n (wrappedSub n a b)
    (decide (¬ (-(2 ^ (n - 1) : Int) ≤ toSigned n a - toSigned n b ∧
      toSigned n a - toSigned n b ≤ 2 ^ (n - 1) - 1)))

/-- Value of `icmp` on two `n`-bit integers. -/
def evalICmp (pred : Predicate) (n a b : Nat) : Bool :=
  match pred with
  | .ICMP_EQ => decide (a = b)
  | .ICMP_NE => decide (a ≠ b)
  | .ICMP_UGT => decide (b < a)
  | .ICMP_UGE => decide (b ≤ a)
  | .ICMP_ULT => decide (a < b)
  | .ICMP_ULE => decide (a ≤ b)
  | .ICMP_SGT => decide (toSigned n b < toSigned n a)
  | .ICMP_SGE => decide (toSigned n b ≤ toSigned n a)
  | .ICMP_SLT => decide (toSigned n a < toSigned n b)
  | .ICMP_SLE => decide (toSigned n a ≤ toSigned n b)

/-- Value of an integer binary operator on two `n`-bit integers; `none` for a shift by
`n` or more (poison) and for the operators that are not evaluated here (division,
remainder, arithmetic shift, floating point). -/
def evalBinary (op : BinOp) (n a b : Nat) : Option Nat :=
  match op with
  | .Add => some ((a + b) % 2 ^ n)
  | .Sub => some (wrappedSub n a b)
  | .Mul => some ((a * b) % 2 ^ n)
  | .And => some (a &&& b)
  | .Or => some (a ||| b)
  | .Xor => some (a ^^^ b)
  | .Shl => if b < n then some ((a * 2 ^ b) % 2 ^ n) else none
  | .LShr => if b < n then some (a / 2 ^ b) else none
  | _ => none

/-- Value of an integer cast from width `n` to width `m`.  A cast between equal widths,
which the pass can create although LLVM's verifier admits `trunc`, `zext` and `sext`
between different widths only, is taken to keep the value. -/
def evalCast (op : CastOp) (n m v : Nat) : Option Val :=
  match op with
  | .Trunc => if m ≤ n then some (.int m (v % 2 ^ m)) else none
  | .ZExt => if n ≤ m then some (.int m v) else none
  | .SExt => if n ≤ m then some (.int m ((toSigned n v % 2 ^ m).toNat)) else none
  | .BitCast => if n = m then some (.int m v) else none
  | _ => none

def Constant.eval : Constant → Option Val
  | .int bits value => some (.int bits (value % 2 ^ bits))
  | .binary op lhs rhs =>
    match lhs.eval, rhs.eval with
    | some (.int n a), some (.int m b) =>
      if n = m then (evalBinary op n a b).map (.int n) else none
    | _, _ => none
  | .other _ _ => none

/-- A valuation: the values of the instructions, by identity, and of the arguments. -/
structure Env where
  inst : Nat → Option Val
  arg : Nat → Option Val

def Value.eval (env : Env) : Value → Option Val
  | .inst id => env.inst id
  | .arg idx _ => env.arg idx
  | .const c => c.eval

/-- The value an instruction computes from the values of its operands; `none` where an
operand has no value or the operation is not evaluated here. -/
def Instruction.eval (env : Env) (i : Instruction) : Option Val :=
  match i.opcode, i.operands.map (Value.eval env) with
  | .binary op, [some (.int n a), some (.int m b)] =>
    if n = m then (evalBinary op n a b).map (.int n) else none
  | .icmp pred, [some (.int n a), some (.int m b)] =>
    if n = m then some (.int 1 (if evalICmp pred n a b then 1 else 0)) else none
  | .cast op, [some (.int n v)] =>
    match i.type with
    | .int m => evalCast op n m v
    | .other _ => none
  | .call .usub_with_overflow, some (.int n a) :: some (.int m b) :: _ =>
    if n = m then some (usubWithOverflow n a b) else none
  | .call .ssub_with_overflow, some (.int n a) :: some (.int m b) :: _ =>
    if n = m then some (ssubWithOverflow n a b) else none
  | .extractvalue [0], some (.pair n r _) :: _ => some (.int n r)
  | .extractvalue [1], some (.pair _ _ o) :: _ => some (.int 1 (if o then 1 else 0))
  | _, _ => none

/-- The valuation after one more instruction was executed. -/
def Env.step (env : Env) (i : Instruction) : Env :=
  ⟨fun k => if k = i.id then i.eval env else env.inst k, env.arg⟩

/-- Execution of the instructions of the function in layout order, from the values of the
arguments. -/
def Function.run (fn : Function) (args : Nat → Option Val) : Env :=
  fn.insts.foldl Env.step ⟨fun _ => none, args⟩

/-- Typing of the scalar declaration of the intrinsic,
`{iN, i1} @llvm.ssub.with.overflow.iN(iN, iN)`: the two arguments of every
`ssub_with_overflow` call of the function have one integer type. -/
def SSubTyped (fn : Function) : Prop :=
  ∀ c ∈ fn.insts, c.opcode = .call .ssub_with_overflow →
    ∀ a b rest, c.operands = a :: b :: rest →
      ∃ n, a.type fn = some (.int n) ∧ b.type fn = some (.int n)

/-- The signed pattern on 8-bit arguments with the operands of the `sub` in the other
order than those of the intrinsic:
`%1 = ssub.with.overflow(%a, %b)`, `%2 = extractvalue %1, 1`, `%3 = sub %b, %a`,
`%4 = lshr %3, 7`, `%5 = trunc %4 to i1`, `%6 = xor %2, %5`, and a user `%7` of `%6`. -/
def swappedFn : Function :=
  ⟨[⟨[⟨1, .call .ssub_with_overflow, .other 0, [.arg 0 (.int 8), .arg 1 (.int 8)]⟩,
      ⟨2, .extractvalue [1], .int 1, [.inst 1]⟩,
      ⟨3, .binary .Sub, .int 8, [.arg 1 (.int 8), .arg 0 (.int 8)]⟩,
      ⟨4, .binary .LShr, .int 8, [.inst 3, .const (.int 8 7)]⟩,
      ⟨5, .cast .Trunc, .int 1, [.inst 4]⟩,
      ⟨6, .binary .Xor, .int 1, [.inst 2, .inst 5]⟩,
      ⟨7, .other 0, .other 1, [.inst 6]⟩]⟩]⟩

/-- Argument values for the example functions: argument 0 is the `n`-bit integer `a`,
every other argument the `n`-bit integer `b`. -/
def exampleArgs (n a b : Nat) : Nat → Option Val :=
  fun idx => if idx = 0 then some (.int n a) else some (.int n b)

/-! # Theorems -/

theorem CastPath.stop {fn : Function} {v r : Value} {l : List Value}
    (h : CastPath fn v l r) : asCast fn r = none := by
  induction h with
  | done h => exact h
  | step _ _ ih => exact ih

theorem CastPath.unique {fn : Function} {v r r' : Value} {l l' : List Value}
    (h : CastPath fn v l r) (h' : CastPath fn v l' r') : l = l' ∧ r = r' := by
  induction h generalizing l' r' with
  | done h =>
    cases h' with
    | done _ => exact ⟨rfl, rfl⟩
    | step h1 _ => rw [h] at h1; cases h1
  | step h1 _ ih =>
    cases h' with
    | done h2 => rw [h2] at h1; cases h1
    | step h2 p2 =>
      rw [h1] at h2
      cases h2
      obtain ⟨e1, e2⟩ := ih p2
      exact ⟨by rw [e1], e2⟩

/-- From every value on the path the loop runs on along a strictly shorter path. -/
theorem CastPath.suffix {fn : Function} {v r u : Value} {l : List Value}
    (h : CastPath fn v l r) (hu : u ∈ l) :
    ∃ l', CastPath fn u l' r ∧ l'.length ≤ l.length := by
  induction h with
  | done _ => cases hu
  | @step v w r l h1 p ih =>
    rcases List.mem_cons.mp hu with e | hm
    · subst e
      exact ⟨u :: l, CastPath.step h1 p, le_refl _⟩
    · obtain ⟨l', p', hl⟩ := ih hm
      exact ⟨l', p', by simp only [List.length_cons]; omega⟩

theorem CastPath.nodup {fn : Function} {v r : Value} {l : List Value}
    (h : CastPath fn v l r) : l.Nodup := by
  induction h with
  | done _ => exact List.nodup_nil
  | @step v w r l h1 p ih =>
    refine List.nodup_cons.mpr ⟨?_, ih⟩
    intro hm
    obtain ⟨l', p', hl⟩ := p.suffix hm
    have := (CastPath.unique p' (CastPath.step h1 p)).1
    rw [this] at hl
    simp only [List.length_cons] at hl
    omega

theorem asCast_mem {fn : Function} {v w : Value} (h : asCast fn v = some w) :
    v ∈ fn.insts.map fun i => Value.inst i.id := by
  cases v with
  | inst id =>
    simp only [asCast] at h
    cases hf : fn.find? id with
    | none => rw [hf] at h; cases h
    | some i =>
      have hm := List.mem_of_find?_eq_some hf
      have hid := List.find?_some hf
      simp only [beq_iff_eq] at hid
      exact List.mem_map.mpr ⟨i, hm, by rw [hid]⟩
  | arg _ _ => cases h
  | const _ => cases h

theorem CastPath.subset {fn : Function} {v r : Value} {l : List Value}
    (h : CastPath fn v l r) : l ⊆ fn.insts.map fun i => Value.inst i.id := by
  induction h with
  | done _ => exact List.nil_subset _
  | step h1 _ ih => exact List.cons_subset.mpr ⟨asCast_mem h1, ih⟩

/-- A terminating run visits no more cast instructions than the function has
instructions. -/
theorem CastPath.length_le {fn : Function} {v r : Value} {l : List Value}
    (h : CastPath fn v l r) : l.length ≤ fn.insts.length := by
  have := (List.subperm_of_subset h.nodup h.subset).length_le
  simpa using this

theorem getOriginalValueFrom_path {fn : Function} {k : Nat} {v r : Value}
    (h : getOriginalValueFrom fn k v = some r) :
    ∃ l, CastPath fn v l r ∧ l.length ≤ k := by
  induction k generalizing v with
  | zero =>
    simp only [getOriginalValueFrom] at h
    cases hc : asCast fn v with
    | none =>
      rw [hc] at h
      cases h
      exact ⟨[], CastPath.done hc, le_refl _⟩
    | some w => rw [hc] at h; cases h
  | succ n ih =>
    simp only [getOriginalValueFrom] at h
    cases hc : asCast fn v with
    | none =>
      rw [hc] at h
      cases h
      exact ⟨[], CastPath.done hc, Nat.zero_le _⟩
    | some w =>
      rw [hc] at h
      obtain ⟨l, p, hl⟩ := ih h
      exact ⟨v :: l, CastPath.step hc p, by simp only [List.length_cons]; omega⟩

theorem path_getOriginalValueFrom {fn : Function} {k : Nat} {v r : Value} {l : List Value}
    (p : CastPath fn v l r) (hl : l.length ≤ k) : getOriginalValueFrom fn k v = some r := by
  induction p generalizing k with
  | done h => cases k <;> simp [getOriginalValueFrom, h]
  | step h1 _ ih =>
    cases k with
    | zero => simp at hl
    | succ n =>
      simp only [getOriginalValueFrom, h1]
      exact ih (by simp only [List.length_cons] at hl; omega)

/-- The bound in `getOriginalValue` never cuts a terminating run short: the model returns `r`
exactly when the loop of the source, started at `v`, stops at `r`. -/
theorem getOriginalValue_eq_some {fn : Function} {v r : Value} :
    getOriginalValue fn v = some r ↔ ∃ l, CastPath fn v l r := by
  constructor
  · intro h
    obtain ⟨l, p, _⟩ := getOriginalValueFrom_path h
    exact ⟨l, p⟩
  · rintro ⟨l, p⟩
    exact path_getOriginalValueFrom p p.length_le

/-! ## Facts about the matcher -/

theorem getOriginalValue_of_asCast_none {fn : Function} {v : Value} (h : asCast fn v = none) :
    getOriginalValue fn v = some v :=
  getOriginalValue_eq_some.mpr ⟨[], CastPath.done h⟩

theorem getOriginalValue_of_asCast_some {fn : Function} {v w : Value}
    (h : asCast fn v = some w) : getOriginalValue fn v = getOriginalValue fn w := by
  apply Option.ext
  intro r
  simp only [Option.mem_def, getOriginalValue_eq_some]
  constructor
  · rintro ⟨l, p⟩
    cases p with
    | done h0 => rw [h0] at h; cases h
    | step h1 p' =>
      rw [h] at h1
      cases h1
      exact ⟨_, p'⟩
  · rintro ⟨l, p⟩
    exact ⟨v :: l, CastPath.step h p⟩

theorem getOriginalValue_stop {fn : Function} {v r : Value}
    (h : getOriginalValue fn v = some r) : asCast fn r = none := by
  obtain ⟨l, p⟩ := getOriginalValue_eq_some.mp h
  exact p.stop

theorem isSameLowerBits_of_resolved {fn : Function} {x y x' y' : Value}
    (hx : getOriginalValue fn x = some x') (hy : getOriginalValue fn y = some y') :
    isSameLowerBits fn x y = some (decide (x' = y')) := by
  simp [isSameLowerBits, hx, hy]

/-- An overflow flag is an `extractvalue` instruction, which no binary-operator pattern
matches. -/
theorem matchBinOp_of_overflowFlagParts {fn : Function} {o : Value} {p : Value × Value × Nat}
    (h : overflowFlagParts fn o = some p) (op : BinOp) : matchBinOp fn op o = none := by
  cases o with
  | inst id =>
    simp only [overflowFlagParts] at h
    simp only [matchBinOp]
    cases hf : fn.find? id with
    | none => rfl
    | some i =>
      rw [hf] at h
      rcases i with ⟨iid, opc, ty, ops⟩
      cases opc <;> first | rfl | (simp at h)
  | arg _ _ => simp [overflowFlagParts] at h
  | const _ => simp [overflowFlagParts] at h

/-- A value that is an overflow flag is no sign flag. -/
theorem matchSignFlag_of_overflowFlagParts {fn : Function} {v o : Value}
    {p : Value × Value × Nat} (hv : getOriginalValue fn v = some o)
    (h : overflowFlagParts fn o = some p) (sub : Option Subtraction) :
    matchSignFlag fn v sub = some (false, sub) := by
  simp [matchSignFlag, signFlagOriginal, hv, matchBinOp_of_overflowFlagParts h,
    matchShiftedSub]

/-! ## C7: what `getOriginalValue` strips -/

/-- C7, as stated, fails: `ptrToIntFn` has the instruction `%1 = ptrtoint %arg0`, which is
none of zero-extension, sign-extension, truncation and bit-cast, and `getOriginalValue`
does not return it unchanged: it returns the operand `%arg0`. -/
theorem getOriginalValue_strips_ptrtoint :
    isValuePreservingCastInst ptrToIntFn (.inst 1) = false ∧
    getOriginalValue ptrToIntFn (.inst 1) = some (.arg 0 (.other 0)) ∧
    getOriginalValue ptrToIntFn (.inst 1) ≠ some (.inst 1) := by
  decide

/-- C7, amended: `getOriginalValue` follows operand 0 through cast instructions of every
cast opcode, and returns every value that is no cast instruction (an instruction of another
opcode, an argument, a constant) unchanged; what it returns is never a cast instruction. -/
theorem getOriginalValue_strips_every_cast (fn : Function) :
    (∀ (id : Nat) (i : Instruction) (op : CastOp) (op0 : Value) (rest : List Value),
      fn.find? id = some i → i.opcode = .cast op → i.operands = op0 :: rest →
      getOriginalValue fn (.inst id) = getOriginalValue fn op0) ∧
    (∀ (id : Nat) (i : Instruction), fn.find? id = some i →
      (∀ op, i.opcode ≠ .cast op) → getOriginalValue fn (.inst id) = some (.inst id)) ∧
    (∀ (idx : Nat) (ty : Ty), getOriginalValue fn (.arg idx ty) = some (.arg idx ty)) ∧
    (∀ c : Constant, getOriginalValue fn (.const c) = some (.const c)) ∧
    (∀ (v r : Value) (id : Nat) (i : Instruction) (op : CastOp) (op0 : Value)
      (rest : List Value), getOriginalValue fn v = some r → r = .inst id →
      fn.find? id = some i → i.operands = op0 :: rest → i.opcode ≠ .cast op) := by
  refine ⟨?_, ?_, ?_, ?_, ?_⟩
  · intro id i op op0 rest hf ho hops
    apply getOriginalValue_of_asCast_some
    simp [asCast, hf, ho, hops]
  · intro id i hf hne
    apply getOriginalValue_of_asCast_none
    simp only [asCast, hf]
    split
    · next op _ _ h1 _ => exact absurd h1 (hne op)
    · rfl
  · intro idx ty
    exact getOriginalValue_of_asCast_none rfl
  · intro c
    exact getOriginalValue_of_asCast_none rfl
  · intro v r id i op op0 rest h hr hf hops ho
    have hs := getOriginalValue_stop h
    subst hr
    simp [asCast, hf, ho, hops] at hs

theorem getOriginalValue_strips_every_cast_witness :
    getOriginalValue ptrToIntFn (.inst 1) = getOriginalValue ptrToIntFn (.arg 0 (.other 0)) ∧
    getOriginalValue ptrToIntFn (.inst 2) = some (.inst 2) :=
  ⟨(getOriginalValue_strips_every_cast ptrToIntFn).1 1
      ⟨1, .cast .PtrToInt, .int 64, [.arg 0 (.other 0)]⟩ .PtrToInt (.arg 0 (.other 0)) []
      (by decide) rfl rfl,
   (getOriginalValue_strips_every_cast ptrToIntFn).2.1 2
      ⟨2, .other 0, .other 1, [.inst 1]⟩ (by decide) (by intro op h; cases h)⟩

/-! ## C8: the mask of the sign flag -/

/-- C8, the code at the failing input: in `maskTwoFn` the sign side `%6` resolves to
`and(lshr(sub(a, b), 31), 2)`, whose mask is the constant 2, and `matchSignFlag` matches
it against the candidate `(a, b, 32)`; `matchOverflowSignFlag` on the operands of the
`xor` returns that candidate. -/
theorem matchSignFlag_mask_two :
    getOriginalValue maskTwoFn (.inst 6) = some (.inst 5) ∧
    matchBinOp maskTwoFn .And (.inst 5) = some (.inst 4, .const (.int 32 2)) ∧
    matchSignFlag maskTwoFn (.inst 6) (some ⟨.arg 0 (.int 32), .arg 1 (.int 32), 32⟩) =
      some (true, some ⟨.arg 0 (.int 32), .arg 1 (.int 32), 32⟩) ∧
    matchOverflowSignFlag maskTwoFn (.inst 2) (.inst 6) =
      some (some ⟨.arg 0 (.int 32), .arg 1 (.int 32), 32⟩) := by
  decide

/-! ## C9: construction of `ValueInformation` -/

/-- C9: the offset constructor passes its assertion exactly for the tag `Stack`, the
register-name constructor exactly for the tags `IntegerRegister` and
`FloatingPointRegister`, and a constructed value has the tag `Stack` iff its payload is a
frame offset. -/
theorem ValueInformation_tag_matches_payload (regType : StorageClass) (offset : Nat)
    (name : String) :
    ((ValueInformation.ofOffset regType offset).isSome ↔ regType = .Stack) ∧
    ((ValueInformation.ofRegister regType name).isSome ↔
      (regType = .IntegerRegister ∨ regType = .FloatingPointRegister)) ∧
    (∀ v : ValueInformation,
      (ValueInformation.ofOffset regType offset = some v ∨
        ValueInformation.ofRegister regType name = some v) →
      (v.type = .Stack ↔ v.payload.isOffset = true)) := by
  refine ⟨?_, ?_, ?_⟩
  · cases regType <;> simp [ValueInformation.ofOffset]
  · cases regType <;> simp [ValueInformation.ofRegister]
  · intro v h
    cases regType <;>
      simp [ValueInformation.ofOffset, ValueInformation.ofRegister] at h <;>
      subst h <;> simp [Payload.isOffset]

theorem ValueInformation_tag_matches_payload_witness :
    ValueInformation.ofOffset .Stack 8 = some ⟨.Stack, .frameBaseOffset 8⟩ ∧
    ((⟨.Stack, .frameBaseOffset 8⟩ : ValueInformation).type = .Stack ↔
      (⟨.Stack, .frameBaseOffset 8⟩ : ValueInformation).payload.isOffset = true) :=
  ⟨rfl, (ValueInformation_tag_matches_payload .Stack 8 "rdi").2.2 _ (Or.inl rfl)⟩

/-! ## C10: the two sides of the `xor` may be swapped -/

/-- C10: `matchOverflowSignFlag` gives the same result on `(L, R)` and on `(R, L)`: a
`Subtraction` for one order iff for the other, and then the same one. -/
theorem matchOverflowSignFlag_comm (fn : Function) (L R : Value) :
    matchOverflowSignFlag fn L R = matchOverflowSignFlag fn R L := by
  cases hL : getOriginalValue fn L with
  | none =>
    cases hR : getOriginalValue fn R with
    | none => simp [matchOverflowSignFlag, matchOverflowFlag, hL, hR]
    | some oR =>
      cases hpR : overflowFlagParts fn oR with
      | none => simp [matchOverflowSignFlag, matchOverflowFlag, hL, hR, hpR]
      | some pR =>
        obtain ⟨a, b, n⟩ := pR
        simp [matchOverflowSignFlag, matchOverflowFlag, hL, hR, hpR, isSameSub,
          matchSignFlag, signFlagOriginal]
  | some oL =>
    cases hR : getOriginalValue fn R with
    | none =>
      cases hpL : overflowFlagParts fn oL with
      | none => simp [matchOverflowSignFlag, matchOverflowFlag, hL, hR, hpL]
      | some pL =>
        obtain ⟨a, b, n⟩ := pL
        simp [matchOverflowSignFlag, matchOverflowFlag, hL, hR, hpL, isSameSub,
          matchSignFlag, signFlagOriginal]
    | some oR =>
      cases hpL : overflowFlagParts fn oL with
      | none =>
        cases hpR : overflowFlagParts fn oR with
        | none => simp [matchOverflowSignFlag, matchOverflowFlag, hL, hR, hpL, hpR]
        | some pR =>
          obtain ⟨a, b, n⟩ := pR
          simp [matchOverflowSignFlag, matchOverflowFlag, hL, hR, hpL, hpR, isSameSub]
      | some pL =>
        obtain ⟨a, b, n⟩ := pL
        cases hpR : overflowFlagParts fn oR with
        | none => simp [matchOverflowSignFlag, matchOverflowFlag, hL, hR, hpL, hpR, isSameSub]
        | some pR =>
          obtain ⟨a', b', n'⟩ := pR
          simp [matchOverflowSignFlag, matchOverflowFlag, hL, hR, hpL, hpR, isSameSub,
            matchSignFlag_of_overflowFlagParts hR hpR,
            matchSignFlag_of_overflowFlagParts hL hpL]

/-! ## C2: rejection on mismatch -/

theorem visit_of_no_match {fn : Function} {inst : Instruction} {L R : Value}
    (hx : matchXorOrICmpNE inst = some (L, R))
    (hm : matchOverflowSignFlag fn L R = some none) : visit fn inst = some fn := by
  have hu : matchUSubWithOverflow inst = none := by
    rcases inst with ⟨id, opc, ty, ops⟩
    simp only [matchXorOrICmpNE] at hx
    simp only [matchUSubWithOverflow]
    split at hx <;> simp_all
  simp [visit, hu, hx, hm]

/-- C2, as stated, fails: in `wideShiftFn` the `xor` `%8` has on one side the overflow flag
of a `ssub.with.overflow` of width 32 and on the other the sign flag
`lshr(sub(a, b), k)` with `k = 2^32 + 31`, so `k + 1` differs from 32, and yet
`matchOverflowSignFlag` returns a `Subtraction` and the visit of `%8` changes the
function. -/
theorem matchOverflowSignFlag_wide_shift :
    (getOriginalValue wideShiftFn (.inst 4)).bind (overflowFlagParts wideShiftFn) =
      some (.inst 1, .inst 2, 32) ∧
    signFlagOriginal wideShiftFn (.inst 7) = some (.inst 6) ∧
    matchBinOp wideShiftFn .LShr (.inst 6) =
      some (.inst 5, .const (.int 64 4294967327)) ∧
    4294967327 + 1 ≠ 32 ∧
    matchOverflowSignFlag wideShiftFn (.inst 4) (.inst 7) = some (some ⟨.inst 1, .inst 2, 32⟩) ∧
    visit wideShiftFn ⟨8, .binary .Xor, .int 1, [.inst 4, .inst 7]⟩ ≠ some wideShiftFn := by
  decide

/-- C2, amended: let an `xor` or `icmp ne` have on one side the overflow flag (index 1) of
`ssub_with_overflow(a, b)` of width `n` and on the other a sign flag `lshr(sub(c, d), k)`.
If the width the code computes from `k` (`shiftBitness k`: `k` saturated at `2^64 - 1`,
truncated to 32 bits, plus one modulo `2^32`) differs from `n`, or the pair of underlying
values of `(c, d)` is neither that of `(a, b)` nor that of `(b, a)`, then
`matchOverflowSignFlag` returns null for both orders of the sides and the visit of the
instruction leaves the function as it is. -/
theorem matchOverflowSignFlag_mismatch (fn : Function) (inst : Instruction)
    (L R o s operand a b c d a' b' c' d' : Value) (n w k : Nat)
    (hL : getOriginalValue fn L = some o) (ho : overflowFlagParts fn o = some (a, b, n))
    (hR : signFlagOriginal fn R = some s)
    (hs : matchBinOp fn .LShr s = some (operand, .const (.int w k)))
    (hsub : matchBinOp fn .Sub operand = some (c, d))
    (ha : getOriginalValue fn a = some a') (hb : getOriginalValue fn b = some b')
    (hc : getOriginalValue fn c = some c') (hd : getOriginalValue fn d = some d')
    (hx : matchXorOrICmpNE inst = some (L, R) ∨ matchXorOrICmpNE inst = some (R, L))
    (hmis : shiftBitness k ≠ n ∨ ¬ ((c' = a' ∧ d' = b') ∨ (d' = a' ∧ c' = b'))) :
    matchOverflowSignFlag fn L R = some none ∧ matchOverflowSignFlag fn R L = some none ∧
    visit fn inst = some fn := by
  have h1 : matchOverflowSignFlag fn L R = some none := by
    have e1 : matchOverflowFlag fn L none = some (true, some ⟨a, b, n⟩) := by
      simp [matchOverflowFlag, hL, ho, isSameSub]
    have e2 : matchSignFlag fn R (some ⟨a, b, n⟩) =
        (Subtraction.isSame fn ⟨a, b, n⟩ c d (shiftBitness k)).map
          fun r => (r, some ⟨a, b, n⟩) := by
      simp [matchSignFlag, hR, matchShiftedSub, hs, hsub, isSameSub]
    have e3 : Subtraction.isSame fn ⟨a, b, n⟩ c d (shiftBitness k) = some false := by
      simp only [Subtraction.isSame]
      by_cases hk : shiftBitness k = n
      · have hp : ¬ ((c' = a' ∧ d' = b') ∨ (d' = a' ∧ c' = b')) := by
          rcases hmis with h | h
          · exact absurd hk h
          · exact h
        rw [if_pos hk, isSameLowerBits_of_resolved hc ha, isSameLowerBits_of_resolved hd hb,
          isSameLowerBits_of_resolved hd ha, isSameLowerBits_of_resolved hc hb]
        by_cases e1 : c' = a' <;> by_cases e2 : d' = b' <;> by_cases e3 : d' = a' <;>
          by_cases e4 : c' = b' <;> simp_all [andThen, orElse]
      · rw [if_neg hk]
    simp [matchOverflowSignFlag, e1, e2, e3]
  have h2 : matchOverflowSignFlag fn R L = some none := by
    rw [matchOverflowSignFlag_comm]; exact h1
  refine ⟨h1, h2, ?_⟩
  rcases hx with hx | hx
  · exact visit_of_no_match hx h1
  · exact visit_of_no_match hx h2

theorem matchOverflowSignFlag_mismatch_witness :
    matchOverflowSignFlag otherPairFn (.inst 2) (.inst 5) = some none ∧
    matchOverflowSignFlag otherPairFn (.inst 5) (.inst 2) = some none ∧
    visit otherPairFn ⟨6, .binary .Xor, .int 1, [.inst 2, .inst 5]⟩ = some otherPairFn :=
  matchOverflowSignFlag_mismatch otherPairFn ⟨6, .binary .Xor, .int 1, [.inst 2, .inst 5]⟩
    (.inst 2) (.inst 5) (.inst 2) (.inst 4) (.inst 3) (.arg 0 (.int 32)) (.arg 1 (.int 32))
    (.arg 0 (.int 32)) (.arg 2 (.int 32)) (.arg 0 (.int 32)) (.arg 1 (.int 32))
    (.arg 0 (.int 32)) (.arg 2 (.int 32)) 32 32 31
    (by decide) (by decide) (by decide) (by decide) (by decide) (by decide) (by decide)
    (by decide) (by decide) (Or.inl (by decide)) (Or.inr (by decide))

/-! ## Instruction lists: lookup, insertion, replacement of uses -/

theorem find?_id_of_mem {l : List Instruction} (hn : (l.map Instruction.id).Nodup)
    {i : Instruction} (hi : i ∈ l) : l.find? (fun j => j.id == i.id) = some i := by
  induction l with
  | nil => cases hi
  | cons a t ih =>
    simp only [List.map_cons, List.nodup_cons] at hn
    rcases List.mem_cons.mp hi with e | hm
    · subst e
      simp
    · have hne : a.id ≠ i.id := by
        intro e
        exact hn.1 (e ▸ List.mem_map_of_mem Instruction.id hm)
      rw [List.find?_cons_of_neg]
      · exact ih hn.2 hm
      · simpa using hne

theorem Function.find?_eq_some {fn : Function} {id : Nat} {i : Instruction}
    (h : fn.find? id = some i) : i ∈ fn.insts ∧ i.id = id := by
  refine ⟨List.mem_of_find?_eq_some h, ?_⟩
  have := List.find?_some h
  simpa using this

theorem Function.find?_of_mem {fn : Function} (hn : (fn.insts.map Instruction.id).Nodup)
    {i : Instruction} (hi : i ∈ fn.insts) : fn.find? i.id = some i :=
  find?_id_of_mem hn hi

theorem Function.find?_eq_none {fn : Function} {id : Nat} :
    fn.find? id = none ↔ ∀ i ∈ fn.insts, i.id ≠ id := by
  simp [Function.find?, List.find?_eq_none]

theorem Function.mem_decompose {fn : Function} {i : Instruction} (hi : i ∈ fn.insts) :
    ∃ bs1 pre post bs2, fn.blocks = bs1 ++ ⟨pre ++ i :: post⟩ :: bs2 := by
  simp only [Function.insts, List.mem_flatten, List.mem_map] at hi
  obtain ⟨l, ⟨b, hb, rfl⟩, hil⟩ := hi
  obtain ⟨bs1, bs2, hbs⟩ := List.append_of_mem hb
  obtain ⟨pre, post, hpp⟩ := List.append_of_mem hil
  refine ⟨bs1, pre, post, bs2, ?_⟩
  rw [hbs]
  congr 2
  cases b
  simp only at hpp
  rw [hpp]

theorem insertBeforeIn_of_not_mem {pos : Nat} {new : Instruction} {l : List Instruction}
    (h : pos ∉ l.map Instruction.id) : insertBeforeIn pos new l = l := by
  induction l with
  | nil => rfl
  | cons a t ih =>
    simp only [List.map_cons, List.mem_cons, not_or] at h
    simp only [insertBeforeIn]
    rw [if_neg (fun e => h.1 e.symm), ih h.2]

theorem insertBeforeIn_append_cons {new i : Instruction} {pre post : List Instruction}
    (h : i.id ∉ pre.map Instruction.id) :
    insertBeforeIn i.id new (pre ++ i :: post) = pre ++ new :: i :: post := by
  induction pre with
  | nil => simp [insertBeforeIn]
  | cons a t ih =>
    simp only [List.map_cons, List.mem_cons, not_or] at h
    rw [List.cons_append]
    show (if a.id = i.id then _ else a :: insertBeforeIn i.id new (t ++ i :: post)) = _
    rw [if_neg (fun e => h.1 e.symm), ih h.2, List.cons_append]

theorem Function.insts_mk_append (bs1 bs2 : List BasicBlock) (b : BasicBlock) :
    (Function.mk (bs1 ++ b :: bs2)).insts =
      (Function.mk bs1).insts ++ b.insts ++ (Function.mk bs2).insts := by
  simp [Function.insts]

theorem insertBefore_blocks_of_not_mem {pos : Nat} {new : Instruction}
    {bs : List BasicBlock} (h : pos ∉ (Function.mk bs).insts.map Instruction.id) :
    (bs.map fun b => (⟨insertBeforeIn pos new b.insts⟩ : BasicBlock)) = bs := by
  induction bs with
  | nil => rfl
  | cons b t ih =>
    simp only [Function.insts, List.map_cons, List.flatten_cons, List.map_append,
      List.mem_append, not_or] at h
    simp only [List.map_cons]
    rw [insertBeforeIn_of_not_mem h.1, ih (by simpa [Function.insts] using h.2)]

/-- Where an instruction is inserted: in the block that holds `i`, right before `i`. -/
theorem Function.insertBefore_eq {bs1 bs2 : List BasicBlock} {pre post : List Instruction}
    {i new : Instruction}
    (hn : ((Function.mk (bs1 ++ ⟨pre ++ i :: post⟩ :: bs2)).insts.map Instruction.id).Nodup) :
    (Function.mk (bs1 ++ ⟨pre ++ i :: post⟩ :: bs2)).insertBefore i.id new =
      ⟨bs1 ++ ⟨pre ++ new :: i :: post⟩ :: bs2⟩ := by
  rw [Function.insts_mk_append] at hn
  simp only [List.map_append, List.map_cons] at hn
  have h1 : i.id ∉ (Function.mk bs1).insts.map Instruction.id := by
    intro hm
    have := (List.nodup_append.mp (List.nodup_append.mp hn).1).2.2
    exact this hm (by simp)
  have h2 : i.id ∉ pre.map Instruction.id := by
    intro hm
    have := (List.nodup_append.mp (List.nodup_append.mp (List.nodup_append.mp hn).1).2.1).2.2
    exact this hm (by simp)
  have h3 : i.id ∉ (Function.mk bs2).insts.map Instruction.id := by
    intro hm
    have := (List.nodup_append.mp hn).2.2
    exact this (by simp) hm
  simp only [Function.insertBefore, List.map_append, List.map_cons]
  rw [insertBefore_blocks_of_not_mem h1, insertBefore_blocks_of_not_mem h3,
    insertBeforeIn_append_cons h2]

theorem Function.insts_replaceAllUsesWith (fn : Function) (old new : Value) :
    (fn.replaceAllUsesWith old new).insts = fn.insts.map (Instruction.replaceUses old new) := by
  simp only [Function.insts, Function.replaceAllUsesWith, List.map_map, List.map_flatten]
  congr 1

theorem Function.replaceAllUsesWith_eq (fn : Function) (old new : Value) :
    fn.replaceAllUsesWith old new = fn.mapOperands (substValue old new) := rfl

theorem Function.insts_mapOperands (fn : Function) (σ : Value → Value) :
    (fn.mapOperands σ).insts = fn.insts.map (Instruction.mapOperands σ) := by
  simp only [Function.insts, Function.mapOperands, List.map_map, List.map_flatten]
  congr 1

theorem Function.ids_mapOperands (fn : Function) (σ : Value → Value) :
    (fn.mapOperands σ).insts.map Instruction.id = fn.insts.map Instruction.id := by
  rw [Function.insts_mapOperands, List.map_map]
  congr 1

theorem le_foldr_max {l : List Nat} {x b : Nat} (h : x ∈ l) : x ≤ l.foldr max b := by
  induction l with
  | nil => cases h
  | cons a t ih =>
    simp only [List.foldr_cons]
    rcases List.mem_cons.mp h with e | hm
    · subst e
      exact le_max_left _ _
    · exact le_trans (ih hm) (le_max_right _ _)

theorem init_le_foldr_max (l : List Nat) (b : Nat) : b ≤ l.foldr max b := by
  induction l with
  | nil => exact le_refl _
  | cons a t ih => exact le_trans ih (le_max_right _ _)

theorem Instruction.id_lt_bound (i : Instruction) : i.id < i.bound :=
  init_le_foldr_max _ _

theorem Instruction.operand_le_bound {i : Instruction} {v : Value} (h : v ∈ i.operands) :
    v.bound ≤ i.bound :=
  le_foldr_max (List.mem_map_of_mem Value.bound h)

theorem Function.bound_le_freshId {fn : Function} {i : Instruction} (h : i ∈ fn.insts) :
    i.bound ≤ fn.freshId :=
  le_foldr_max (List.mem_map_of_mem Instruction.bound h)

theorem Function.id_lt_freshId {fn : Function} {i : Instruction} (h : i ∈ fn.insts) :
    i.id < fn.freshId :=
  lt_of_lt_of_le i.id_lt_bound (Function.bound_le_freshId h)

theorem Function.operand_le_freshId {fn : Function} {i : Instruction} {v : Value}
    (h : i ∈ fn.insts) (hv : v ∈ i.operands) : v.bound ≤ fn.freshId :=
  le_trans (Instruction.operand_le_bound hv) (Function.bound_le_freshId h)

theorem Function.freshId_not_mem {fn : Function} {k : Nat} (h : fn.freshId ≤ k) :
    k ∉ fn.insts.map Instruction.id := by
  intro hm
  obtain ⟨i, hi, rfl⟩ := List.mem_map.mp hm
  have := Function.id_lt_freshId hi
  omega

theorem Function.insts_insert_perm (bs1 bs2 : List BasicBlock) (pre post : List Instruction)
    (news : List Instruction) (i : Instruction) :
    (Function.mk (bs1 ++ ⟨pre ++ news ++ i :: post⟩ :: bs2)).insts.Perm
      (news ++ (Function.mk (bs1 ++ ⟨pre ++ i :: post⟩ :: bs2)).insts) := by
  simp only [Function.insts_mk_append]
  have h1 : (pre ++ news ++ i :: post).Perm (news ++ (pre ++ i :: post)) := by
    rw [List.append_assoc]
    exact List.perm_append_comm_assoc pre news (i :: post)
  have h2 : ((Function.mk bs1).insts ++ (pre ++ news ++ i :: post)).Perm
      (news ++ ((Function.mk bs1).insts ++ (pre ++ i :: post))) :=
    ((List.Perm.append_left _ h1).trans
      (List.perm_append_comm_assoc (Function.mk bs1).insts news (pre ++ i :: post)))
  have h3 := List.Perm.append_right (Function.mk bs2).insts h2
  simpa [List.append_assoc] using h3

theorem Function.nodup_insert {bs1 bs2 : List BasicBlock} {pre post : List Instruction}
    {news : List Instruction} {i : Instruction}
    (hn : ((Function.mk (bs1 ++ ⟨pre ++ i :: post⟩ :: bs2)).insts.map Instruction.id).Nodup)
    (hnews : (news.map Instruction.id).Nodup)
    (hfresh : ∀ n ∈ news,
      n.id ∉ (Function.mk (bs1 ++ ⟨pre ++ i :: post⟩ :: bs2)).insts.map Instruction.id) :
    ((Function.mk (bs1 ++ ⟨pre ++ news ++ i :: post⟩ :: bs2)).insts.map Instruction.id).Nodup := by
  have hp := (Function.insts_insert_perm bs1 bs2 pre post news i).map Instruction.id
  rw [hp.nodup_iff, List.map_append, List.nodup_append]
  refine ⟨hnews, hn, ?_⟩
  intro a ha hb
  obtain ⟨n, hn', rfl⟩ := List.mem_map.mp ha
  exact hfresh n hn' hb

/-- The signed rewrite, written out: the comparison and the cast stand right before `i` in its
block, in this order, and then the uses of `i` are replaced. -/
theorem fuse_eq {bs1 bs2 : List BasicBlock} {pre post : List Instruction} {i : Instruction}
    (sub : Subtraction)
    (hn : ((Function.mk (bs1 ++ ⟨pre ++ i :: post⟩ :: bs2)).insts.map Instruction.id).Nodup) :
    fuse ⟨bs1 ++ ⟨pre ++ i :: post⟩ :: bs2⟩ i sub =
      (Function.mk (bs1 ++ ⟨pre ++
        [newICmpSLT ⟨bs1 ++ ⟨pre ++ i :: post⟩ :: bs2⟩ sub,
         newZExt ⟨bs1 ++ ⟨pre ++ i :: post⟩ :: bs2⟩ i.type] ++ i :: post⟩ :: bs2)).replaceAllUsesWith
        (.inst i.id) (.inst ((Function.mk (bs1 ++ ⟨pre ++ i :: post⟩ :: bs2)).freshId + 1)) := by
  unfold fuse
  rw [Function.insertBefore_eq hn]
  have hn2 := @Function.nodup_insert _ _ _ _ [newICmpSLT ⟨bs1 ++ ⟨pre ++ i :: post⟩ :: bs2⟩ sub] _
    hn (by simp) (by
      intro n hn'
      simp only [List.mem_singleton] at hn'
      subst hn'
      exact Function.freshId_not_mem (le_refl _))
  have e : pre ++ newICmpSLT ⟨bs1 ++ ⟨pre ++ i :: post⟩ :: bs2⟩ sub :: i :: post =
      (pre ++ [newICmpSLT ⟨bs1 ++ ⟨pre ++ i :: post⟩ :: bs2⟩ sub]) ++ i :: post := by simp
  rw [e, Function.insertBefore_eq hn2]
  simp

/-- The unsigned rewrite for one user, written out. -/
theorem replaceBorrow_eq {bs1 bs2 : List BasicBlock} {pre post : List Instruction}
    {i : Instruction} (arg0 arg1 : Value) (user : Instruction)
    (hu : user.opcode = .extractvalue [1])
    (hn : ((Function.mk (bs1 ++ ⟨pre ++ i :: post⟩ :: bs2)).insts.map Instruction.id).Nodup) :
    replaceBorrow i.id arg0 arg1 ⟨bs1 ++ ⟨pre ++ i :: post⟩ :: bs2⟩ user =
      (Function.mk (bs1 ++ ⟨pre ++
        [newICmpULT ⟨bs1 ++ ⟨pre ++ i :: post⟩ :: bs2⟩ arg0 arg1] ++ i :: post⟩ :: bs2)).replaceAllUsesWith
        (.inst user.id) (.inst (Function.mk (bs1 ++ ⟨pre ++ i :: post⟩ :: bs2)).freshId) := by
  unfold replaceBorrow
  rw [hu]
  simp only [if_true]
  rw [Function.insertBefore_eq hn]
  simp

theorem replaceBorrow_of_not_borrow (inst : Nat) (arg0 arg1 : Value) (fn : Function)
    (user : Instruction) (hu : user.opcode ≠ .extractvalue [1]) :
    replaceBorrow inst arg0 arg1 fn user = fn := by
  unfold replaceBorrow
  split
  · next indices h =>
    have : indices ≠ [1] := fun e => hu (e ▸ h)
    rw [if_neg this]
  · rfl

/-! ## Effect of insertion and of use replacement on lookup -/

theorem mem_insertBeforeIn {pos : Nat} {new i : Instruction} {l : List Instruction} :
    i ∈ insertBeforeIn pos new l ↔ i ∈ l ∨ (i = new ∧ pos ∈ l.map Instruction.id) := by
  induction l with
  | nil => simp [insertBeforeIn]
  | cons a t ih =>
    simp only [insertBeforeIn]
    by_cases h : a.id = pos
    · rw [if_pos h]
      simp only [List.mem_cons, List.map_cons, h, true_or, and_true]
      tauto
    · rw [if_neg h]
      simp only [List.mem_cons, ih, List.map_cons]
      have : ¬ pos = a.id := fun e => h e.symm
      tauto

theorem Function.mem_insertBefore {fn : Function} {pos : Nat} {new i : Instruction} :
    i ∈ (fn.insertBefore pos new).insts ↔
      i ∈ fn.insts ∨ (i = new ∧ pos ∈ fn.insts.map Instruction.id) := by
  simp only [Function.insts, Function.insertBefore, List.mem_flatten, List.mem_map,
    List.map_map]
  constructor
  · rintro ⟨l, ⟨b, hb, rfl⟩, hi⟩
    simp only [Function.comp_apply] at hi
    rcases mem_insertBeforeIn.mp hi with h | ⟨h1, h2⟩
    · exact Or.inl ⟨b.insts, ⟨b, hb, rfl⟩, h⟩
    · obtain ⟨k, hk, hkid⟩ := List.mem_map.mp h2
      exact Or.inr ⟨h1, k, ⟨b.insts, ⟨b, hb, rfl⟩, hk⟩, hkid⟩
  · rintro (⟨l, ⟨b, hb, rfl⟩, hi⟩ | ⟨h1, k, ⟨l, ⟨b, hb, rfl⟩, hk⟩, hkid⟩)
    · exact ⟨_, ⟨b, hb, rfl⟩, mem_insertBeforeIn.mpr (Or.inl hi)⟩
    · exact ⟨_, ⟨b, hb, rfl⟩,
        mem_insertBeforeIn.mpr (Or.inr ⟨h1, List.mem_map.mpr ⟨k, hk, hkid⟩⟩)⟩

theorem Function.mem_replaceAllUsesWith {fn : Function} {old new : Value} {i : Instruction} :
    i ∈ (fn.replaceAllUsesWith old new).insts ↔
      ∃ k ∈ fn.insts, i = k.replaceUses old new := by
  rw [Function.insts_replaceAllUsesWith, List.mem_map]
  constructor
  · rintro ⟨k, hk, rfl⟩
    exact ⟨k, hk, rfl⟩
  · rintro ⟨k, hk, rfl⟩
    exact ⟨k, hk, rfl⟩

theorem Function.nodup_insertBefore {fn : Function} {pos : Nat} {new : Instruction}
    (hn : (fn.insts.map Instruction.id).Nodup) (hfresh : fn.freshId ≤ new.id) :
    ((fn.insertBefore pos new).insts.map Instruction.id).Nodup := by
  by_cases hp : pos ∈ fn.insts.map Instruction.id
  · obtain ⟨i, hi, rfl⟩ := List.mem_map.mp hp
    obtain ⟨bs1, pre, post, bs2, hb⟩ := Function.mem_decompose hi
    have e : fn = ⟨bs1 ++ ⟨pre ++ i :: post⟩ :: bs2⟩ := by cases fn; simp only at hb; rw [hb]
    rw [e] at hn hfresh ⊢
    rw [Function.insertBefore_eq hn]
    have := @Function.nodup_insert _ _ _ _ [new] _ hn (by simp) (by
      intro n hn'
      simp only [List.mem_singleton] at hn'
      subst hn'
      exact Function.freshId_not_mem hfresh)
    simpa using this
  · have : fn.insertBefore pos new = fn := by
      cases fn with
      | mk bs =>
        simp only [Function.insertBefore]
        rw [insertBefore_blocks_of_not_mem hp]
    rw [this]
    exact hn

theorem Function.nodup_replaceAllUsesWith {fn : Function} {old new : Value}
    (hn : (fn.insts.map Instruction.id).Nodup) :
    ((fn.replaceAllUsesWith old new).insts.map Instruction.id).Nodup := by
  rw [Function.replaceAllUsesWith_eq, Function.ids_mapOperands]
  exact hn

theorem Function.find?_replaceAllUsesWith (fn : Function) (old new : Value) (id : Nat) :
    (fn.replaceAllUsesWith old new).find? id =
      (fn.find? id).map (Instruction.replaceUses old new) := by
  simp only [Function.find?, Function.insts_replaceAllUsesWith, List.find?_map]
  congr 1

theorem Function.find?_insertBefore {fn : Function} {pos : Nat} {new : Instruction}
    (hn : (fn.insts.map Instruction.id).Nodup) (hfresh : fn.freshId ≤ new.id)
    (hp : pos ∈ fn.insts.map Instruction.id) (id : Nat) :
    (fn.insertBefore pos new).find? id = if id = new.id then some new else fn.find? id := by
  have hn' := @Function.nodup_insertBefore _ pos _ hn hfresh
  by_cases h : id = new.id
  · rw [if_pos h, h]
    exact Function.find?_of_mem hn' (Function.mem_insertBefore.mpr (Or.inr ⟨rfl, hp⟩))
  · rw [if_neg h]
    cases hf : fn.find? id with
    | some i =>
      obtain ⟨hi, hid⟩ := Function.find?_eq_some hf
      rw [← hid]
      exact Function.find?_of_mem hn' (Function.mem_insertBefore.mpr (Or.inl hi))
    | none =>
      rw [Function.find?_eq_none] at hf ⊢
      intro i hi
      rcases Function.mem_insertBefore.mp hi with h1 | ⟨h1, _⟩
      · exact hf i h1
      · rw [h1]; exact fun e => h e.symm

theorem Function.find?_insertBefore_old {fn : Function} {pos : Nat} {new : Instruction}
    (hn : (fn.insts.map Instruction.id).Nodup) (hfresh : fn.freshId ≤ new.id)
    {id : Nat} {i : Instruction} (hf : fn.find? id = some i) :
    (fn.insertBefore pos new).find? id = some i := by
  have hn' := @Function.nodup_insertBefore _ pos _ hn hfresh
  obtain ⟨hi, hid⟩ := Function.find?_eq_some hf
  rw [← hid]
  exact Function.find?_of_mem hn' (Function.mem_insertBefore.mpr (Or.inl hi))

/-! ## Well-formedness is kept by insertion and by use replacement -/

theorem Function.WellFormed.resolves {fn : Function} (h : fn.WellFormed) (v : Value) :
    ∃ l r, CastPath fn v l r := by
  cases hc : asCast fn v with
  | none => exact ⟨[], v, CastPath.done hc⟩
  | some w =>
    obtain ⟨i, hi, rfl⟩ := List.mem_map.mp (asCast_mem hc)
    have := h.2 i hi
    obtain ⟨r, hr⟩ := Option.isSome_iff_exists.mp this
    obtain ⟨l, p⟩ := getOriginalValue_eq_some.mp hr
    exact ⟨l, r, p⟩

theorem Function.WellFormed.terminates {fn : Function} (h : fn.WellFormed) (v : Value) :
    ∃ r, Fcd.getOriginalValue fn v = some r := by
  obtain ⟨l, r, p⟩ := h.resolves v
  exact ⟨r, getOriginalValue_eq_some.mpr ⟨l, p⟩⟩

theorem wellFormed_of_resolves {fn : Function} (hn : (fn.insts.map Instruction.id).Nodup)
    (h : ∀ v, ∃ l r, CastPath fn v l r) : fn.WellFormed := by
  refine ⟨hn, fun i _ => ?_⟩
  obtain ⟨l, r, p⟩ := h (.inst i.id)
  rw [getOriginalValue_eq_some.mpr ⟨l, p⟩]
  rfl

theorem Function.find?_insertBefore_ne {fn : Function} {pos : Nat} {new : Instruction}
    (hn : (fn.insts.map Instruction.id).Nodup) (hfresh : fn.freshId ≤ new.id)
    {id : Nat} (hne : id ≠ new.id) : (fn.insertBefore pos new).find? id = fn.find? id := by
  by_cases hp : pos ∈ fn.insts.map Instruction.id
  · rw [Function.find?_insertBefore hn hfresh hp, if_neg hne]
  · have : fn.insertBefore pos new = fn := by
      cases fn with
      | mk bs =>
        simp only [Function.insertBefore]
        rw [insertBefore_blocks_of_not_mem hp]
    rw [this]

theorem asCast_insertBefore_ne {fn : Function} {pos : Nat} {new : Instruction}
    (hn : (fn.insts.map Instruction.id).Nodup) (hfresh : fn.freshId ≤ new.id)
    {v : Value} (hne : v ≠ .inst new.id) : asCast (fn.insertBefore pos new) v = asCast fn v := by
  cases v with
  | inst id =>
    have : id ≠ new.id := fun e => hne (by rw [e])
    simp only [asCast, Function.find?_insertBefore_ne hn hfresh this]
  | arg _ _ => rfl
  | const _ => rfl

theorem asCast_replaceAllUsesWith (fn : Function) (old new : Value) (v : Value) :
    asCast (fn.replaceAllUsesWith old new) v = (asCast fn v).map (substValue old new) := by
  cases v with
  | inst id =>
    simp only [asCast, Function.find?_replaceAllUsesWith]
    cases fn.find? id with
    | none => rfl
    | some i =>
      rcases i with ⟨iid, opc, ty, ops⟩
      cases opc <;> cases ops <;> rfl
  | arg _ _ => rfl
  | const _ => rfl

/-- The operand a cast instruction of the function steps to was there before any new
instruction. -/
theorem asCast_bound {fn : Function} {v w : Value} (h : asCast fn v = some w) :
    w.bound ≤ fn.freshId := by
  cases v with
  | inst id =>
    simp only [asCast] at h
    cases hf : fn.find? id with
    | none => rw [hf] at h; cases h
    | some i =>
      rw [hf] at h
      obtain ⟨hi, _⟩ := Function.find?_eq_some hf
      rcases i with ⟨iid, opc, ty, ops⟩
      cases opc <;> cases ops <;> simp at h
      subst h
      exact Function.operand_le_freshId hi (by simp)
  | arg _ _ => cases h
  | const _ => cases h

theorem resolves_insertBefore {fn : Function} {pos : Nat} {new : Instruction}
    (hn : (fn.insts.map Instruction.id).Nodup) (hfresh : fn.freshId ≤ new.id)
    (h : ∀ v, ∃ l r, CastPath fn v l r) :
    ∀ v, v ≠ .inst new.id → ∃ l r, CastPath (fn.insertBefore pos new) v l r := by
  intro v hv
  obtain ⟨l, r, p⟩ := h v
  induction p with
  | done h0 => exact ⟨[], _, CastPath.done (by rw [asCast_insertBefore_ne hn hfresh hv]; exact h0)⟩
  | @step v w r l h1 _ ih =>
    have hw : w ≠ .inst new.id := by
      intro e
      have := asCast_bound h1
      rw [e] at this
      simp only [Value.bound] at this
      omega
    obtain ⟨l', r', p'⟩ := ih hw
    exact ⟨v :: l', r', CastPath.step (by rw [asCast_insertBefore_ne hn hfresh hv]; exact h1) p'⟩

theorem CastPath.head {fn : Function} {v r : Value} {l : List Value}
    (p : CastPath fn v l r) : (l = [] ∧ v = r) ∨ v ∈ l := by
  cases p with
  | done _ => exact Or.inl ⟨rfl, rfl⟩
  | step _ _ => exact Or.inr (List.mem_cons_self _ _)

/-- A cast chain that does not touch `old` is still there after the uses of `old` are
replaced. -/
theorem CastPath.replaceAllUsesWith {fn : Function} {old new v r : Value} {l : List Value}
    (p : CastPath fn v l r) (hl : old ∉ l) (hr : r ≠ old) :
    CastPath (fn.replaceAllUsesWith old new) v l r := by
  induction p with
  | done h0 =>
    exact CastPath.done (by rw [asCast_replaceAllUsesWith, h0]; rfl)
  | @step v w r l h1 p' ih =>
    have hl' : old ∉ l := fun hm => hl (List.mem_cons_of_mem _ hm)
    have hw : w ≠ old := by
      rcases p'.head with ⟨_, e⟩ | hm
      · rw [e]; exact hr
      · exact fun e => hl' (e ▸ hm)
    refine CastPath.step ?_ (ih hl' hr)
    rw [asCast_replaceAllUsesWith, h1]
    simp [substValue, hw]

theorem resolves_replaceAllUsesWith {fn : Function} {old new : Value}
    (h : ∀ v, ∃ l r, CastPath fn v l r)
    (hnew : ∃ l r, CastPath fn new l r ∧ old ∉ l ∧ r ≠ old) :
    ∀ v, ∃ l r, CastPath (fn.replaceAllUsesWith old new) v l r := by
  obtain ⟨ln, rn, pn, hln, hrn⟩ := hnew
  have pn' := @CastPath.replaceAllUsesWith _ _ new _ _ _ pn hln hrn
  intro v
  obtain ⟨l, r, p⟩ := h v
  induction p with
  | done h0 =>
    exact ⟨[], _, CastPath.done (by rw [asCast_replaceAllUsesWith, h0]; rfl)⟩
  | @step v w r l h1 _ ih =>
    obtain ⟨l', r', p'⟩ := ih
    by_cases hw : w = old
    · refine ⟨v :: ln, rn, CastPath.step ?_ pn'⟩
      rw [asCast_replaceAllUsesWith, h1]
      simp [substValue, hw]
    · refine ⟨v :: l', r', CastPath.step ?_ p'⟩
      rw [asCast_replaceAllUsesWith, h1]
      simp [substValue, hw]

theorem foldr_max_le {l : List Nat} {b B : Nat} (hb : b ≤ B) (h : ∀ x ∈ l, x ≤ B) :
    l.foldr max b ≤ B := by
  induction l with
  | nil => exact hb
  | cons a t ih =>
    simp only [List.foldr_cons]
    exact max_le (h a (List.mem_cons_self _ _)) (ih fun x hx => h x (List.mem_cons_of_mem _ hx))

theorem Function.freshId_le {fn : Function} {B : Nat} (h : ∀ i ∈ fn.insts, i.bound ≤ B) :
    fn.freshId ≤ B := by
  apply foldr_max_le (Nat.zero_le _)
  intro x hx
  obtain ⟨i, hi, rfl⟩ := List.mem_map.mp hx
  exact h i hi

theorem Instruction.bound_le {i : Instruction} {B : Nat} (hid : i.id < B)
    (h : ∀ v ∈ i.operands, v.bound ≤ B) : i.bound ≤ B := by
  apply foldr_max_le hid
  intro x hx
  obtain ⟨v, hv, rfl⟩ := List.mem_map.mp hx
  exact h v hv

theorem Function.freshId_insertBefore_le {fn : Function} {pos : Nat} {new : Instruction}
    {B : Nat} (h1 : fn.freshId ≤ B) (h2 : new.bound ≤ B) :
    (fn.insertBefore pos new).freshId ≤ B := by
  apply Function.freshId_le
  intro i hi
  rcases Function.mem_insertBefore.mp hi with h | ⟨h, _⟩
  · exact le_trans (Function.bound_le_freshId h) h1
  · rw [h]; exact h2

/-! ## Where the returned `Subtraction` comes from -/

theorem matchSignFlag_sub {fn : Function} {v : Value} {s : Subtraction} {r : Bool}
    {s' : Option Subtraction} (h : matchSignFlag fn v (some s) = some (r, s')) :
    s' = some s := by
  simp only [matchSignFlag] at h
  cases ho : signFlagOriginal fn v with
  | none => rw [ho] at h; cases h
  | some o =>
    rw [ho] at h
    simp only [Option.some_bind, matchShiftedSub] at h
    split at h
    · split at h
      · simp only [isSameSub] at h
        cases hs : s.isSame fn _ _ _ with
        | none => rw [hs] at h; cases h
        | some q =>
          rw [hs] at h
          simp only [Option.map_some', Option.some.injEq, Prod.mk.injEq] at h
          exact h.2.symm
      · simp only [Option.some.injEq, Prod.mk.injEq] at h
        exact h.2.symm
    · simp only [Option.some.injEq, Prod.mk.injEq] at h
      exact h.2.symm

theorem matchOverflowFlag_none {fn : Function} {v : Value} {r : Bool}
    {s' : Option Subtraction} (h : matchOverflowFlag fn v none = some (r, s')) :
    (r = false ∧ s' = none) ∨
    (r = true ∧ ∃ o a b n, getOriginalValue fn v = some o ∧
      overflowFlagParts fn o = some (a, b, n) ∧ s' = some ⟨a, b, n⟩) := by
  simp only [matchOverflowFlag] at h
  cases ho : getOriginalValue fn v with
  | none => rw [ho] at h; cases h
  | some o =>
    rw [ho] at h
    simp only [Option.some_bind] at h
    cases hp : overflowFlagParts fn o with
    | none =>
      rw [hp] at h
      simp only [Option.some.injEq, Prod.mk.injEq] at h
      exact Or.inl ⟨h.1.symm, h.2.symm⟩
    | some p =>
      obtain ⟨a, b, n⟩ := p
      rw [hp] at h
      simp only [isSameSub, Option.some.injEq, Prod.mk.injEq] at h
      exact Or.inr ⟨h.1.symm, o, a, b, n, rfl, hp, h.2.symm⟩

/-- The `Subtraction` that `matchOverflowSignFlag` returns is the one bound at the overflow
flag: the two arguments of the `ssub_with_overflow` call and the width of the first. -/
theorem matchOverflowSignFlag_some {fn : Function} {L R : Value} {sub : Subtraction}
    (h : matchOverflowSignFlag fn L R = some (some sub)) :
    ∃ v o, (v = L ∨ v = R) ∧ getOriginalValue fn v = some o ∧
      overflowFlagParts fn o = some (sub.left, sub.right, sub.bitness) := by
  simp only [matchOverflowSignFlag] at h
  cases h1 : matchOverflowFlag fn L none with
  | none => rw [h1] at h; cases h
  | some r1 =>
    obtain ⟨b1, s1⟩ := r1
    rw [h1] at h
    simp only [Option.some_bind] at h
    rcases matchOverflowFlag_none h1 with ⟨e1, e2⟩ | ⟨e1, o, a, b, n, ho, hp, e2⟩
    · subst e1 e2
      simp only [Bool.false_eq_true, if_false] at h
      cases h3 : matchOverflowFlag fn R none with
      | none => rw [h3] at h; cases h
      | some r3 =>
        obtain ⟨b3, s3⟩ := r3
        rw [h3] at h
        simp only [Option.some_bind] at h
        rcases matchOverflowFlag_none h3 with ⟨e3, e4⟩ | ⟨e3, o, a, b, n, ho, hp, e4⟩
        · subst e3 e4
          simp at h
        · subst e3 e4
          simp only [if_true] at h
          cases h4 : matchSignFlag fn L (some ⟨a, b, n⟩) with
          | none => rw [h4] at h; cases h
          | some r4 =>
            obtain ⟨b4, s4⟩ := r4
            rw [h4] at h
            have := matchSignFlag_sub h4
            subst this
            cases b4 <;> simp at h
            subst h
            exact ⟨R, o, Or.inr rfl, ho, hp⟩
    · subst e1 e2
      simp only [if_true] at h
      cases h2 : matchSignFlag fn R (some ⟨a, b, n⟩) with
      | none => rw [h2] at h; cases h
      | some r2 =>
        obtain ⟨b2, s2⟩ := r2
        rw [h2] at h
        have := matchSignFlag_sub h2
        subst this
        cases b2 <;> simp at h
        subst h
        exact ⟨L, o, Or.inl rfl, ho, hp⟩

theorem overflowFlagParts_some {fn : Function} {o a b : Value} {n : Nat}
    (h : overflowFlagParts fn o = some (a, b, n)) :
    ∃ id cid extract intrin rest rest',
      o = .inst id ∧ fn.find? id = some extract ∧ extract.opcode = .extractvalue [1] ∧
      extract.operands = .inst cid :: rest ∧ fn.find? cid = some intrin ∧
      intrin.opcode = .call .ssub_with_overflow ∧ intrin.operands = a :: b :: rest' ∧
      n = a.integerBitWidth fn := by
  cases o with
  | inst id =>
    simp only [overflowFlagParts] at h
    cases hf : fn.find? id with
    | none => rw [hf] at h; cases h
    | some extract =>
      rw [hf] at h
      rcases extract with ⟨eid, eopc, ety, eops⟩
      cases eopc <;> try (simp at h; done)
      rename_i indices
      cases eops with
      | nil => simp at h
      | cons agg rest =>
        cases agg with
        | inst cid =>
          simp only at h
          cases hc : fn.find? cid with
          | none => rw [hc] at h; cases h
          | some intrin =>
            rw [hc] at h
            rcases intrin with ⟨iid, iopc, ity, iops⟩
            cases iopc <;> try (simp at h; done)
            rename_i callee
            cases callee <;> try (simp at h; done)
            cases iops with
            | nil => simp at h
            | cons a' t =>
              cases t with
              | nil => simp at h
              | cons b' rest' =>
                simp only at h
                by_cases hidx : indices = [1]
                · rw [if_pos hidx] at h
                  simp only [Option.some.injEq, Prod.mk.injEq] at h
                  obtain ⟨rfl, rfl, rfl⟩ := h
                  subst hidx
                  exact ⟨id, cid, _, _, rest, rest', rfl, hf, rfl, rfl, hc, rfl, rfl, rfl⟩
                · rw [if_neg hidx] at h; cases h
        | arg _ _ => simp at h
        | const _ => simp at h
  | arg _ _ => simp [overflowFlagParts] at h
  | const _ => simp [overflowFlagParts] at h

theorem overflowFlagParts_bound {fn : Function} {o a b : Value} {n : Nat}
    (h : overflowFlagParts fn o = some (a, b, n)) :
    a.bound ≤ fn.freshId ∧ b.bound ≤ fn.freshId := by
  obtain ⟨id, cid, extract, intrin, rest, rest', _, _, _, _, hc, _, hops, _⟩ :=
    overflowFlagParts_some h
  obtain ⟨hi, _⟩ := Function.find?_eq_some hc
  exact ⟨Function.operand_le_freshId hi (by rw [hops]; simp),
    Function.operand_le_freshId hi (by rw [hops]; simp)⟩

theorem asCast_of_not_cast {fn : Function} {id : Nat} {i : Instruction}
    (hf : fn.find? id = some i) (hk : ∀ op, i.opcode ≠ .cast op) :
    asCast fn (.inst id) = none := by
  simp only [asCast, hf]
  split
  · next op _ _ h1 _ => exact absurd h1 (hk op)
  · rfl

theorem asCast_insertBefore_new {fn : Function} {pos : Nat} {new : Instruction}
    (hfresh : fn.freshId ≤ new.id)
    (hk : ∀ op, new.opcode ≠ .cast op) :
    asCast (fn.insertBefore pos new) (.inst new.id) = none := by
  cases hf : (fn.insertBefore pos new).find? new.id with
  | none => simp only [asCast, hf]
  | some k =>
    obtain ⟨hk1, hk2⟩ := Function.find?_eq_some hf
    rcases Function.mem_insertBefore.mp hk1 with h | ⟨h, _⟩
    · have := Function.id_lt_freshId h
      omega
    · subst h
      exact asCast_of_not_cast hf hk

theorem asCast_insertBefore_new_cast {fn : Function} {pos : Nat} {new : Instruction}
    (hn : (fn.insts.map Instruction.id).Nodup) (hfresh : fn.freshId ≤ new.id)
    (hp : pos ∈ fn.insts.map Instruction.id) {op : CastOp} {op0 : Value} {rest : List Value}
    (hk : new.opcode = .cast op) (hops : new.operands = op0 :: rest) :
    asCast (fn.insertBefore pos new) (.inst new.id) = some op0 := by
  simp only [asCast, Function.find?_insertBefore hn hfresh hp, if_true, hk, hops]

/-- The unsigned rewrite keeps the function well formed. -/
theorem wellFormed_replaceBorrow {fn : Function} (hwf : fn.WellFormed) (inst : Nat)
    (arg0 arg1 : Value) (user : Instruction) (hlt : user.id < fn.freshId) :
    (replaceBorrow inst arg0 arg1 fn user).WellFormed := by
  by_cases hu : user.opcode = .extractvalue [1]
  · unfold replaceBorrow
    rw [hu]
    simp only [if_true]
    have hfresh : fn.freshId ≤ (newICmpULT fn arg0 arg1).id := le_refl _
    have hn1 := @Function.nodup_insertBefore _ inst _ hwf.1 hfresh
    have hnone : asCast (fn.insertBefore inst (newICmpULT fn arg0 arg1))
        (.inst fn.freshId) = none :=
      @asCast_insertBefore_new _ _ (newICmpULT fn arg0 arg1) hfresh
        (by intro op h; cases h)
    have res1 : ∀ v, ∃ l r, CastPath (fn.insertBefore inst (newICmpULT fn arg0 arg1)) v l r := by
      intro v
      by_cases hv : v = .inst fn.freshId
      · subst hv
        exact ⟨[], _, CastPath.done hnone⟩
      · exact resolves_insertBefore hwf.1 hfresh hwf.resolves v hv
    apply wellFormed_of_resolves (Function.nodup_replaceAllUsesWith hn1)
    apply resolves_replaceAllUsesWith res1
    refine ⟨[], _, CastPath.done hnone, by simp, ?_⟩
    intro e
    have := Value.inst.inj e
    omega
  · rw [replaceBorrow_of_not_borrow _ _ _ _ _ hu]
    exact hwf

/-- The signed rewrite keeps the function well formed. -/
theorem wellFormed_fuse {fn : Function} (hwf : fn.WellFormed) {inst : Instruction}
    (hI : inst ∈ fn.insts) (sub : Subtraction)
    (hl : sub.left.bound ≤ fn.freshId) (hr : sub.right.bound ≤ fn.freshId) :
    (fuse fn inst sub).WellFormed := by
  unfold fuse
  have hlt := Function.id_lt_freshId hI
  have hf := Function.find?_of_mem hwf.1 hI
  have hfresh : fn.freshId ≤ (newICmpSLT fn sub).id := le_refl _
  have hn1 := @Function.nodup_insertBefore _ inst.id _ hwf.1 hfresh
  have hnone1 : asCast (fn.insertBefore inst.id (newICmpSLT fn sub)) (.inst fn.freshId) = none :=
    @asCast_insertBefore_new _ _ (newICmpSLT fn sub) hfresh (by intro op h; cases h)
  have res1 : ∀ v, ∃ l r, CastPath (fn.insertBefore inst.id (newICmpSLT fn sub)) v l r := by
    intro v
    by_cases hv : v = .inst fn.freshId
    · subst hv
      exact ⟨[], _, CastPath.done hnone1⟩
    · exact resolves_insertBefore hwf.1 hfresh hwf.resolves v hv
  have hfresh2 : (fn.insertBefore inst.id (newICmpSLT fn sub)).freshId ≤
      (newZExt fn inst.type).id := by
    apply Function.freshId_insertBefore_le (Nat.le_succ _)
    apply Instruction.bound_le (Nat.lt_succ_self _)
    intro v hv
    simp only [newICmpSLT, List.mem_cons, List.mem_singleton, List.not_mem_nil, or_false] at hv
    rcases hv with e | e
    · rw [e]; exact le_trans hl (Nat.le_succ _)
    · rw [e]; exact le_trans hr (Nat.le_succ _)
  have hp2 : inst.id ∈ (fn.insertBefore inst.id (newICmpSLT fn sub)).insts.map Instruction.id :=
    List.mem_map_of_mem _ (Function.mem_insertBefore.mpr (Or.inl hI))
  have hn2 := @Function.nodup_insertBefore _ inst.id _ hn1 hfresh2
  have hnone2 : asCast ((fn.insertBefore inst.id (newICmpSLT fn sub)).insertBefore inst.id
      (newZExt fn inst.type)) (.inst fn.freshId) = none := by
    rw [asCast_insertBefore_ne hn1 hfresh2]
    · exact hnone1
    · intro e
      have := Value.inst.inj e
      simp only [newZExt] at this
      omega
  have hz : asCast ((fn.insertBefore inst.id (newICmpSLT fn sub)).insertBefore inst.id
      (newZExt fn inst.type)) (.inst (fn.freshId + 1)) = some (.inst fn.freshId) :=
    @asCast_insertBefore_new_cast _ _ (newZExt fn inst.type) hn1 hfresh2 hp2 _ _ _ rfl rfl
  have res2 : ∀ v, ∃ l r, CastPath ((fn.insertBefore inst.id (newICmpSLT fn sub)).insertBefore
      inst.id (newZExt fn inst.type)) v l r := by
    intro v
    by_cases hv : v = .inst (fn.freshId + 1)
    · subst hv
      exact ⟨_, _, CastPath.step hz (CastPath.done hnone2)⟩
    · exact resolves_insertBefore hn1 hfresh2 res1 v hv
  apply wellFormed_of_resolves (Function.nodup_replaceAllUsesWith hn2)
  apply resolves_replaceAllUsesWith res2
  refine ⟨_, _, CastPath.step hz (CastPath.done hnone2), ?_, ?_⟩
  · simp only [List.mem_singleton]
    intro e
    have := Value.inst.inj e
    omega
  · intro e
    have := Value.inst.inj e
    omega

/-! ## The matcher terminates on well-formed functions -/

theorem isSameLowerBits_total {fn : Function} (hwf : fn.WellFormed) (a b : Value) :
    ∃ r, isSameLowerBits fn a b = some r := by
  obtain ⟨x, hx⟩ := hwf.terminates a
  obtain ⟨y, hy⟩ := hwf.terminates b
  exact ⟨_, isSameLowerBits_of_resolved hx hy⟩

theorem andThen_total {x y : Option Bool} (hx : ∃ r, x = some r) (hy : ∃ r, y = some r) :
    ∃ r, andThen x y = some r := by
  obtain ⟨a, rfl⟩ := hx
  obtain ⟨b, rfl⟩ := hy
  cases a <;> simp [andThen]

theorem orElse_total {x y : Option Bool} (hx : ∃ r, x = some r) (hy : ∃ r, y = some r) :
    ∃ r, orElse x y = some r := by
  obtain ⟨a, rfl⟩ := hx
  obtain ⟨b, rfl⟩ := hy
  cases a <;> simp [orElse]

theorem isSame_total {fn : Function} (hwf : fn.WellFormed) (s : Subtraction) (l r : Value)
    (b : Nat) : ∃ q, s.isSame fn l r b = some q := by
  unfold Subtraction.isSame
  split
  · exact orElse_total
      (andThen_total (isSameLowerBits_total hwf _ _) (isSameLowerBits_total hwf _ _))
      (andThen_total (isSameLowerBits_total hwf _ _) (isSameLowerBits_total hwf _ _))
  · exact ⟨false, rfl⟩

theorem isSameSub_total {fn : Function} (hwf : fn.WellFormed) (sub : Option Subtraction)
    (a b : Value) (n : Nat) : ∃ q, isSameSub fn sub a b n = some q := by
  cases sub with
  | none => exact ⟨_, rfl⟩
  | some s =>
    obtain ⟨q, hq⟩ := isSame_total hwf s a b n
    exact ⟨(q, some s), by simp [isSameSub, hq]⟩

theorem signFlagOriginal_total {fn : Function} (hwf : fn.WellFormed) (v : Value) :
    ∃ o, signFlagOriginal fn v = some o := by
  obtain ⟨x, hx⟩ := hwf.terminates v
  cases hm : matchBinOp fn .And x with
  | none => exact ⟨x, by simp [signFlagOriginal, hx, hm]⟩
  | some p =>
    obtain ⟨l, one⟩ := p
    obtain ⟨o, ho⟩ := hwf.terminates one
    obtain ⟨l', hl'⟩ := hwf.terminates l
    by_cases h1 : isConstantIntOne o = true
    · exact ⟨l', by simp [signFlagOriginal, hx, hm, ho, h1, hl']⟩
    · exact ⟨l, by simp [signFlagOriginal, hx, hm, ho, h1]⟩

theorem matchShiftedSub_total {fn : Function} (hwf : fn.WellFormed) (o : Value)
    (sub : Option Subtraction) : ∃ q, matchShiftedSub fn o sub = some q := by
  unfold matchShiftedSub
  split
  · split
    · exact isSameSub_total hwf _ _ _ _
    · exact ⟨_, rfl⟩
  · exact ⟨_, rfl⟩

theorem matchSignFlag_total {fn : Function} (hwf : fn.WellFormed) (v : Value)
    (sub : Option Subtraction) : ∃ q, matchSignFlag fn v sub = some q := by
  obtain ⟨o, ho⟩ := signFlagOriginal_total hwf v
  obtain ⟨q, hq⟩ := matchShiftedSub_total hwf o sub
  exact ⟨q, by simp [matchSignFlag, ho, hq]⟩

theorem matchOverflowFlag_total {fn : Function} (hwf : fn.WellFormed) (v : Value)
    (sub : Option Subtraction) : ∃ q, matchOverflowFlag fn v sub = some q := by
  obtain ⟨o, ho⟩ := hwf.terminates v
  simp only [matchOverflowFlag, ho, Option.some_bind]
  split
  · exact isSameSub_total hwf _ _ _ _
  · exact ⟨_, rfl⟩

/-- On a well-formed function `matchOverflowSignFlag` returns. -/
theorem matchOverflowSignFlag_total {fn : Function} (hwf : fn.WellFormed) (L R : Value) :
    ∃ r, matchOverflowSignFlag fn L R = some r := by
  obtain ⟨r1, h1⟩ := matchOverflowFlag_total hwf L none
  simp only [matchOverflowSignFlag, h1, Option.some_bind]
  split
  · obtain ⟨r2, h2⟩ := matchSignFlag_total hwf R r1.2
    simp only [h2, Option.some_bind]
    split <;> exact ⟨_, rfl⟩
  · obtain ⟨r3, h3⟩ := matchOverflowFlag_total hwf R r1.2
    simp only [h3, Option.some_bind]
    split
    · obtain ⟨r4, h4⟩ := matchSignFlag_total hwf L r3.2
      simp only [h4, Option.some_bind]
      split <;> exact ⟨_, rfl⟩
    · exact ⟨_, rfl⟩

/-! ## A visit is a sequence of rewrites -/

theorem Function.eq_of_id_eq {fn : Function} (hn : (fn.insts.map Instruction.id).Nodup)
    {i k : Instruction} (hi : i ∈ fn.insts) (hk : k ∈ fn.insts) (h : i.id = k.id) : i = k := by
  have h1 := Function.find?_of_mem hn hi
  have h2 := Function.find?_of_mem hn hk
  rw [h, h2] at h1
  exact (Option.some.inj h1).symm

theorem matchXorOrICmpNE_not_usub {inst : Instruction} {L R : Value}
    (hx : matchXorOrICmpNE inst = some (L, R)) : matchUSubWithOverflow inst = none := by
  rcases inst with ⟨id, opc, ty, ops⟩
  simp only [matchXorOrICmpNE] at hx
  simp only [matchUSubWithOverflow]
  split at hx <;> simp_all

theorem matchOverflowSignFlag_bound {fn : Function} {L R : Value} {sub : Subtraction}
    (h : matchOverflowSignFlag fn L R = some (some sub)) :
    sub.left.bound ≤ fn.freshId ∧ sub.right.bound ≤ fn.freshId := by
  obtain ⟨v, o, _, _, hp⟩ := matchOverflowSignFlag_some h
  exact overflowFlagParts_bound hp

theorem Step.wellFormed {j : Nat} {arg0 arg1 : Value} {fn fn' : Function}
    (h : Step j arg0 arg1 fn fn') (hwf : fn.WellFormed) : fn'.WellFormed := by
  cases h with
  | borrow call user _ _ _ hu _ _ =>
    exact wellFormed_replaceBorrow hwf j arg0 arg1 user (Function.id_lt_freshId hu)
  | fuse inst L R sub hi _ _ hm =>
    exact wellFormed_fuse hwf hi sub (matchOverflowSignFlag_bound hm).1
      (matchOverflowSignFlag_bound hm).2

theorem Steps.wellFormed_of_steps {j : Nat} {arg0 arg1 : Value} {fn fn' : Function}
    (h : Relation.ReflTransGen (Step j arg0 arg1) fn fn') (hwf : fn.WellFormed) :
    fn'.WellFormed := by
  induction h with
  | refl => exact hwf
  | tail _ hs ih => exact hs.wellFormed ih

theorem Instruction.replaceUses_id (old new : Value) (i : Instruction) :
    (i.replaceUses old new).id = i.id := rfl

theorem Instruction.replaceUses_opcode (old new : Value) (i : Instruction) :
    (i.replaceUses old new).opcode = i.opcode := rfl

theorem Instruction.replaceUses_type (old new : Value) (i : Instruction) :
    (i.replaceUses old new).type = i.type := rfl

theorem Instruction.replaceUses_operands (old new : Value) (i : Instruction) :
    (i.replaceUses old new).operands = i.operands.map (substValue old new) := rfl

theorem substValue_ne {old new v : Value} (h : v ≠ old) : substValue old new v = v := by
  simp [substValue, h]

theorem substValue_self (old new : Value) : substValue old new old = new := by
  simp [substValue]

/-- The instructions of the function after the unsigned rewrite for one user. -/
theorem mem_replaceBorrow {fn : Function} {inst : Nat} {arg0 arg1 : Value}
    {user : Instruction} (hu : user.opcode = .extractvalue [1]) {i' : Instruction} :
    i' ∈ (replaceBorrow inst arg0 arg1 fn user).insts ↔
      ∃ i, (i ∈ fn.insts ∨ (i = newICmpULT fn arg0 arg1 ∧ inst ∈ fn.insts.map Instruction.id)) ∧
        i' = i.replaceUses (.inst user.id) (.inst fn.freshId) := by
  unfold replaceBorrow
  rw [hu]
  simp only [if_true, Function.mem_replaceAllUsesWith, Function.mem_insertBefore]

/-- The instructions of the function after the signed rewrite. -/
theorem mem_fuse {fn : Function} {inst : Instruction} (hI : inst ∈ fn.insts)
    {sub : Subtraction} {i' : Instruction} :
    i' ∈ (fuse fn inst sub).insts ↔
      ∃ i, (i ∈ fn.insts ∨ i = newICmpSLT fn sub ∨ i = newZExt fn inst.type) ∧
        i' = i.replaceUses (.inst inst.id) (.inst (fn.freshId + 1)) := by
  unfold fuse
  simp only [Function.mem_replaceAllUsesWith, Function.mem_insertBefore]
  have h1 : inst.id ∈ fn.insts.map Instruction.id := List.mem_map_of_mem _ hI
  have h2 : inst.id ∈ (fn.insertBefore inst.id (newICmpSLT fn sub)).insts.map Instruction.id :=
    List.mem_map_of_mem _ (Function.mem_insertBefore.mpr (Or.inl hI))
  constructor
  · rintro ⟨k, hk, rfl⟩
    refine ⟨k, ?_, rfl⟩
    rcases hk with (hk | ⟨hk, _⟩) | ⟨hk, _⟩
    · exact Or.inl hk
    · exact Or.inr (Or.inl hk)
    · exact Or.inr (Or.inr hk)
  · rintro ⟨k, hk, rfl⟩
    refine ⟨k, ?_, rfl⟩
    rcases hk with hk | hk | hk
    · exact Or.inl (Or.inl hk)
    · exact Or.inl (Or.inr ⟨hk, h1⟩)
    · exact Or.inr ⟨hk, h2⟩

theorem replaceBorrow_congr (inst : Nat) (arg0 arg1 : Value) (fn : Function)
    {user user' : Instruction} (hid : user'.id = user.id) (hop : user'.opcode = user.opcode) :
    replaceBorrow inst arg0 arg1 fn user' = replaceBorrow inst arg0 arg1 fn user := by
  unfold replaceBorrow
  rw [hid, hop]

theorem foldl_replaceBorrow_steps {j : Nat} {arg0 arg1 : Value} (users : List Instruction) :
    ∀ fn : Function, fn.WellFormed →
      (∃ call ∈ fn.insts, call.id = j ∧ call.opcode = .call .usub_with_overflow) →
      (∀ u ∈ users, ∃ u' ∈ fn.insts, u'.id = u.id ∧ u'.opcode = u.opcode ∧
        .inst j ∈ u'.operands) →
      Relation.ReflTransGen (Step j arg0 arg1) fn (users.foldl (replaceBorrow j arg0 arg1) fn) := by
  induction users with
  | nil => intro fn _ _ _; exact Relation.ReflTransGen.refl
  | cons u t ih =>
    intro fn hwf hcall husers
    simp only [List.foldl_cons]
    by_cases hu : u.opcode = .extractvalue [1]
    · obtain ⟨call, hc, hcid, hcop⟩ := hcall
      obtain ⟨u', hu', hid, hop, hj⟩ := husers u (List.mem_cons_self _ _)
      have hop' : u'.opcode = .extractvalue [1] := by rw [hop, hu]
      have hstep : Step j arg0 arg1 fn (replaceBorrow j arg0 arg1 fn u) := by
        rw [← replaceBorrow_congr j arg0 arg1 fn hid hop]
        exact Step.borrow call u' hc hcid hcop hu' hop' hj
      have hne : (Value.inst j) ≠ .inst u.id := by
        intro e
        have e' := Value.inst.inj e
        have := Function.eq_of_id_eq hwf.1 hc hu' (by rw [hcid, hid, e'])
        rw [this, hop'] at hcop
        cases hcop
      refine Relation.ReflTransGen.head hstep (ih _ (hstep.wellFormed hwf) ?_ ?_)
      · exact ⟨call.replaceUses (.inst u.id) (.inst fn.freshId),
          (mem_replaceBorrow hu).mpr ⟨call, Or.inl hc, rfl⟩, hcid, hcop⟩
      · intro u2 hu2
        obtain ⟨u2', hu2', hid2, hop2, hj2⟩ := husers u2 (List.mem_cons_of_mem _ hu2)
        refine ⟨u2'.replaceUses (.inst u.id) (.inst fn.freshId),
          (mem_replaceBorrow hu).mpr ⟨u2', Or.inl hu2', rfl⟩, hid2, hop2, ?_⟩
        rw [Instruction.replaceUses_operands]
        exact List.mem_map.mpr ⟨_, hj2, substValue_ne hne⟩
    · rw [replaceBorrow_of_not_borrow _ _ _ _ _ hu]
      exact ih fn hwf hcall (fun u2 hu2 => husers u2 (List.mem_cons_of_mem _ hu2))

theorem matchUSubWithOverflow_opcode {inst : Instruction} {arg0 arg1 : Value}
    (h : matchUSubWithOverflow inst = some (arg0, arg1)) :
    inst.opcode = .call .usub_with_overflow ∧ ∃ rest, inst.operands = arg0 :: arg1 :: rest := by
  rcases inst with ⟨id, opc, ty, ops⟩
  simp only [matchUSubWithOverflow] at h
  split at h
  · next a b rest =>
    simp only [Option.some.injEq, Prod.mk.injEq] at h
    obtain ⟨rfl, rfl⟩ := h
    exact ⟨rfl, rest, rfl⟩
  · cases h

/-- On a well-formed function the visit of an instruction returns, and what it returns is
reached by rewrites of that visit. -/
theorem visit_steps {fn : Function} (hwf : fn.WellFormed) {inst : Instruction}
    (hI : inst ∈ fn.insts) :
    ∃ fn' arg0 arg1, visit fn inst = some fn' ∧
      Relation.ReflTransGen (Step inst.id arg0 arg1) fn fn' ∧
      (matchUSubWithOverflow inst = some (arg0, arg1) ∨
        (matchUSubWithOverflow inst = none ∧ arg0 = .const (.int 0 0) ∧
          arg1 = .const (.int 0 0))) := by
  cases hu : matchUSubWithOverflow inst with
  | some p =>
    obtain ⟨arg0, arg1⟩ := p
    refine ⟨(fn.users (.inst inst.id)).foldl (replaceBorrow inst.id arg0 arg1) fn, arg0, arg1,
      by simp only [visit, hu], ?_, Or.inl rfl⟩
    apply foldl_replaceBorrow_steps _ fn hwf
      ⟨inst, hI, rfl, (matchUSubWithOverflow_opcode hu).1⟩
    intro u huu
    simp only [Function.users, List.mem_filter, decide_eq_true_eq] at huu
    exact ⟨u, huu.1, rfl, rfl, huu.2⟩
  | none =>
    cases hx : matchXorOrICmpNE inst with
    | none =>
      exact ⟨fn, _, _, by simp only [visit, hu, hx], Relation.ReflTransGen.refl,
        Or.inr ⟨rfl, rfl, rfl⟩⟩
    | some p =>
      obtain ⟨L, R⟩ := p
      obtain ⟨r, hr⟩ := matchOverflowSignFlag_total hwf L R
      cases r with
      | none =>
        exact ⟨fn, _, _, by simp [visit, hu, hx, hr], Relation.ReflTransGen.refl,
          Or.inr ⟨rfl, rfl, rfl⟩⟩
      | some sub =>
        exact ⟨fuse fn inst sub, _, _, by simp [visit, hu, hx, hr],
          Relation.ReflTransGen.single (Step.fuse inst L R sub hI rfl hx hr),
          Or.inr ⟨rfl, rfl, rfl⟩⟩

/-! ## C5: the changed flag -/

theorem visit_total {fn : Function} (hwf : fn.WellFormed) {inst : Instruction}
    (hI : inst ∈ fn.insts) : ∃ fn', visit fn inst = some fn' ∧ fn'.WellFormed := by
  obtain ⟨fn', arg0, arg1, hv, hs, _⟩ := visit_steps hwf hI
  exact ⟨fn', hv, Steps.wellFormed_of_steps hs hwf⟩

theorem runOnInsts_total (ids : List Nat) :
    ∀ fn : Function, fn.WellFormed → ∃ fn', runOnInsts fn ids = some fn' ∧ fn'.WellFormed := by
  induction ids with
  | nil => intro fn hwf; exact ⟨fn, rfl, hwf⟩
  | cons id rest ih =>
    intro fn hwf
    simp only [runOnInsts]
    cases hf : fn.find? id with
    | none => exact ih fn hwf
    | some inst =>
      obtain ⟨fn1, h1, hwf1⟩ := visit_total hwf (Function.find?_eq_some hf).1
      obtain ⟨fn2, h2, hwf2⟩ := ih fn1 hwf1
      exact ⟨fn2, by simp [h1, h2], hwf2⟩

theorem runOnBasicBlock_total {fn : Function} (hwf : fn.WellFormed) (bb : Nat) :
    ∃ fn', runOnBasicBlock fn bb = some (false, fn') ∧ fn'.WellFormed := by
  simp only [runOnBasicBlock]
  cases fn.blocks[bb]? with
  | none => exact ⟨fn, rfl, hwf⟩
  | some b =>
    obtain ⟨fn', h, hwf'⟩ := runOnInsts_total (b.insts.map Instruction.id) fn hwf
    exact ⟨fn', by simp [h], hwf'⟩

theorem runOnBlocks_total (bbs : List Nat) :
    ∀ fn : Function, fn.WellFormed →
      ∃ fn', runOnBlocks false fn bbs = some (false, fn') ∧ fn'.WellFormed := by
  induction bbs with
  | nil => intro fn hwf; exact ⟨fn, rfl, hwf⟩
  | cons bb rest ih =>
    intro fn hwf
    obtain ⟨fn1, h1, hwf1⟩ := runOnBasicBlock_total hwf bb
    obtain ⟨fn2, h2, hwf2⟩ := ih fn1 hwf1
    exact ⟨fn2, by simp [runOnBlocks, h1, h2], hwf2⟩

theorem runOnFunction_total {fn : Function} (hwf : fn.WellFormed) :
    ∃ fn', runOnFunction fn = some (false, fn') ∧ fn'.WellFormed :=
  runOnBlocks_total _ fn hwf

/-- C5: on every well-formed function, `runOnBasicBlock` returns `false` for every basic
block and `runOnFunction` returns `false`, whatever was rewritten; and so does a second
run on the result of the first. -/
theorem changed_flag_never_true (fn : Function) (hwf : fn.WellFormed) :
    (∀ bb, ∃ fn', runOnBasicBlock fn bb = some (false, fn')) ∧
    ∃ fn', runOnFunction fn = some (false, fn') ∧
      ∃ fn'', runOnFunction fn' = some (false, fn'') := by
  refine ⟨fun bb => ?_, ?_⟩
  · obtain ⟨fn', h, _⟩ := runOnBasicBlock_total hwf bb
    exact ⟨fn', h⟩
  · obtain ⟨fn', h, hwf'⟩ := runOnFunction_total hwf
    obtain ⟨fn'', h', _⟩ := runOnFunction_total hwf'
    exact ⟨fn', h, fn'', h'⟩

/-- The flag is `false` on `signedFn`, which the run rewrites. -/
theorem changed_flag_never_true_witness :
    signedFn.WellFormed ∧
    (∃ fn', runOnFunction signedFn = some (false, fn') ∧
      ∃ fn'', runOnFunction fn' = some (false, fn'')) ∧
    (runOnFunction signedFn).map Prod.snd ≠ some signedFn :=
  ⟨by decide, (changed_flag_never_true signedFn (by decide)).2, by decide⟩

/-! ## C6: the shape of the signed rewrite -/

theorem matchXorOrICmpNE_of_shape {inst : Instruction} {L R : Value} {rest : List Value}
    (hop : inst.opcode = .binary .Xor ∨ inst.opcode = .icmp .ICMP_NE)
    (hops : inst.operands = L :: R :: rest) : matchXorOrICmpNE inst = some (L, R) := by
  rcases inst with ⟨id, opc, ty, ops⟩
  simp only at hop hops
  subst hops
  rcases hop with h | h <;> subst h <;> rfl

theorem visit_of_other {fn : Function} {inst : Instruction}
    (h1 : inst.opcode ≠ .binary .Xor) (h2 : inst.opcode ≠ .icmp .ICMP_NE)
    (h3 : inst.opcode ≠ .call .usub_with_overflow) : visit fn inst = some fn := by
  have hu : matchUSubWithOverflow inst = none := by
    rcases inst with ⟨id, opc, ty, ops⟩
    simp only [matchUSubWithOverflow]
    split
    · exact absurd rfl h3
    · rfl
  have hx : matchXorOrICmpNE inst = none := by
    rcases inst with ⟨id, opc, ty, ops⟩
    simp only [matchXorOrICmpNE]
    split
    · exact absurd rfl h1
    · exact absurd rfl h2
    · rfl
  simp only [visit, hu, hx]

/-- C6: let `inst` stand in a block between `pre` and `post`.  If `inst` is an `xor` or
`icmp ne` with operands `L`, `R` on which `matchOverflowSignFlag` returns
`Subtraction(left, right, n)`, its visit in the loop of `runOnBasicBlock` puts
`icmp slt left, right` and the `zext` of that comparison to the type of `inst` right before
`inst`, in this order, and replaces every use of `inst` by the `zext`: every instruction
is still there, and none has `inst` as an operand any more.  If `matchOverflowSignFlag`
returns null, or `inst` is neither `xor`, `icmp ne` nor a `usub_with_overflow` call, the
visit leaves the function as it is. -/
theorem visit_signed_shape (fn : Function) (hwf : fn.WellFormed) (bs1 bs2 : List BasicBlock)
    (pre post : List Instruction) (inst : Instruction)
    (hb : fn.blocks = bs1 ++ ⟨pre ++ inst :: post⟩ :: bs2) :
    (∀ rest, runOnInsts fn (inst.id :: rest) =
      (visit fn inst).bind fun fn' => runOnInsts fn' rest) ∧
    (∀ L R ops sub, (inst.opcode = .binary .Xor ∨ inst.opcode = .icmp .ICMP_NE) →
      inst.operands = L :: R :: ops → matchOverflowSignFlag fn L R = some (some sub) →
      visit fn inst = some ((Function.mk (bs1 ++ ⟨pre ++
          [⟨fn.freshId, .icmp .ICMP_SLT, .int 1, [sub.left, sub.right]⟩,
           ⟨fn.freshId + 1, .cast .ZExt, inst.type, [.inst fn.freshId]⟩] ++
          inst :: post⟩ :: bs2)).replaceAllUsesWith (.inst inst.id) (.inst (fn.freshId + 1))) ∧
      ∀ fn', visit fn inst = some fn' →
        (∀ i ∈ fn.insts, i.replaceUses (.inst inst.id) (.inst (fn.freshId + 1)) ∈ fn'.insts) ∧
        (∀ i' ∈ fn'.insts, .inst inst.id ∉ i'.operands)) ∧
    (∀ L R ops, (inst.opcode = .binary .Xor ∨ inst.opcode = .icmp .ICMP_NE) →
      inst.operands = L :: R :: ops → matchOverflowSignFlag fn L R = some none →
      visit fn inst = some fn) ∧
    (inst.opcode ≠ .binary .Xor → inst.opcode ≠ .icmp .ICMP_NE →
      inst.opcode ≠ .call .usub_with_overflow → visit fn inst = some fn) := by
  have e : fn = ⟨bs1 ++ ⟨pre ++ inst :: post⟩ :: bs2⟩ := by cases fn; simp only at hb; rw [hb]
  have hI : inst ∈ fn.insts := by
    rw [e, Function.insts_mk_append]
    simp
  refine ⟨?_, ?_, ?_, ?_⟩
  · intro rest
    simp only [runOnInsts, Function.find?_of_mem hwf.1 hI]
  · intro L R ops sub hop hops hm
    have hx := matchXorOrICmpNE_of_shape hop hops
    have hv : visit fn inst = some (fuse fn inst sub) := by
      simp [visit, matchXorOrICmpNE_not_usub hx, hx, hm]
    refine ⟨?_, ?_⟩
    · rw [hv]
      have hn := hwf.1
      rw [e] at hn
      have := fuse_eq sub hn
      rw [← e] at this
      rw [this]
      rfl
    · intro fn' hfn'
      rw [hv] at hfn'
      cases hfn'
      refine ⟨fun i hi => (mem_fuse hI).mpr ⟨i, Or.inl hi, rfl⟩, ?_⟩
      intro i' hi' hmem
      obtain ⟨i, _, rfl⟩ := (mem_fuse hI).mp hi'
      rw [Instruction.replaceUses_operands] at hmem
      obtain ⟨v, _, hv'⟩ := List.mem_map.mp hmem
      have hlt := Function.id_lt_freshId hI
      by_cases hvx : v = .inst inst.id
      · rw [hvx, substValue_self] at hv'
        have := Value.inst.inj hv'
        omega
      · rw [substValue_ne hvx] at hv'
        exact hvx hv'
  · intro L R ops hop hops hm
    exact visit_of_no_match (matchXorOrICmpNE_of_shape hop hops) hm
  · intro h1 h2 h3
    exact visit_of_other h1 h2 h3

theorem visit_signed_shape_witness :
    visit signedFn ⟨6, .binary .Xor, .int 1, [.inst 2, .inst 5]⟩ =
      some ⟨[⟨[⟨1, .call .ssub_with_overflow, .other 0, [.arg 0 (.int 32), .arg 1 (.int 32)]⟩,
        ⟨2, .extractvalue [1], .int 1, [.inst 1]⟩,
        ⟨3, .binary .Sub, .int 32, [.arg 0 (.int 32), .arg 1 (.int 32)]⟩,
        ⟨4, .binary .LShr, .int 32, [.inst 3, .const (.int 32 31)]⟩,
        ⟨5, .cast .Trunc, .int 1, [.inst 4]⟩,
        ⟨8, .icmp .ICMP_SLT, .int 1, [.arg 0 (.int 32), .arg 1 (.int 32)]⟩,
        ⟨9, .cast .ZExt, .int 1, [.inst 8]⟩,
        ⟨6, .binary .Xor, .int 1, [.inst 2, .inst 5]⟩,
        ⟨7, .other 0, .other 1, [.inst 9]⟩]⟩]⟩ :=
  ((visit_signed_shape signedFn (by decide) [] []
    [⟨1, .call .ssub_with_overflow, .other 0, [.arg 0 (.int 32), .arg 1 (.int 32)]⟩,
     ⟨2, .extractvalue [1], .int 1, [.inst 1]⟩,
     ⟨3, .binary .Sub, .int 32, [.arg 0 (.int 32), .arg 1 (.int 32)]⟩,
     ⟨4, .binary .LShr, .int 32, [.inst 3, .const (.int 32 31)]⟩,
     ⟨5, .cast .Trunc, .int 1, [.inst 4]⟩]
    [⟨7, .other 0, .other 1, [.inst 6]⟩]
    ⟨6, .binary .Xor, .int 1, [.inst 2, .inst 5]⟩ rfl).2.1 (.inst 2) (.inst 5) []
    ⟨.arg 0 (.int 32), .arg 1 (.int 32), 32⟩ (Or.inl rfl) rfl (by decide)).1

/-! ## What one rewrite does to the instructions -/

theorem Step.spec {j : Nat} {arg0 arg1 : Value} {fn fn' : Function}
    (h : Step j arg0 arg1 fn fn') :
    ∃ X y, X ∈ fn.insts ∧ (∃ n, IsNew j arg0 arg1 fn X y n) ∧
      ∀ i', i' ∈ fn'.insts ↔
        ∃ i, (i ∈ fn.insts ∨ IsNew j arg0 arg1 fn X y i) ∧
          i' = i.replaceUses (.inst X.id) (.inst y) := by
  cases h with
  | borrow call user hc hcid hcop hu huop hj =>
    have hnew : IsNew j arg0 arg1 fn user fn.freshId (newICmpULT fn arg0 arg1) :=
      Or.inl ⟨huop, hj, ⟨call, hc, hcid, hcop⟩, rfl, rfl⟩
    refine ⟨user, fn.freshId, hu, ⟨_, hnew⟩, fun i' => ?_⟩
    rw [mem_replaceBorrow huop]
    constructor
    · rintro ⟨i, hi | ⟨hi, _⟩, rfl⟩
      · exact ⟨i, Or.inl hi, rfl⟩
      · exact ⟨i, Or.inr (hi ▸ hnew), rfl⟩
    · rintro ⟨i, hi | hi, rfl⟩
      · exact ⟨i, Or.inl hi, rfl⟩
      · rcases hi with ⟨_, _, _, _, hi⟩ | ⟨hid, _, L, R, sub, hx, _⟩
        · exact ⟨i, Or.inr ⟨hi, hcid ▸ List.mem_map_of_mem _ hc⟩, rfl⟩
        · rcases user with ⟨uid, uopc, uty, uops⟩
          simp only at huop
          subst huop
          simp [matchXorOrICmpNE] at hx
  | fuse inst L R sub hi hid hx hm =>
    refine ⟨inst, fn.freshId + 1, hi, ⟨newICmpSLT fn sub, Or.inr ⟨hid, rfl, L, R, sub, hx, hm,
      Or.inl rfl⟩⟩, fun i' => ?_⟩
    rw [mem_fuse hi]
    constructor
    · rintro ⟨i, h1 | h1 | h1, rfl⟩
      · exact ⟨i, Or.inl h1, rfl⟩
      · exact ⟨i, Or.inr (Or.inr ⟨hid, rfl, L, R, sub, hx, hm, Or.inl h1⟩), rfl⟩
      · exact ⟨i, Or.inr (Or.inr ⟨hid, rfl, L, R, sub, hx, hm, Or.inr h1⟩), rfl⟩
    · rintro ⟨i, h1 | h1, rfl⟩
      · exact ⟨i, Or.inl h1, rfl⟩
      · rcases h1 with ⟨huop, _⟩ | ⟨_, _, L', R', sub', hx', hm', h2⟩
        · rcases inst with ⟨iid, iopc, ity, iops⟩
          simp only at huop
          subst huop
          simp [matchXorOrICmpNE] at hx
        · rw [hx] at hx'
          simp only [Option.some.injEq, Prod.mk.injEq] at hx'
          obtain ⟨rfl, rfl⟩ := hx'
          rw [hm] at hm'
          simp only [Option.some.injEq] at hm'
          subst hm'
          rcases h2 with h2 | h2
          · exact ⟨i, Or.inr (Or.inl h2), rfl⟩
          · exact ⟨i, Or.inr (Or.inr h2), rfl⟩

theorem IsNew.le_y {j : Nat} {arg0 arg1 : Value} {fn : Function} {X n : Instruction} {y : Nat}
    (h : IsNew j arg0 arg1 fn X y n) : fn.freshId ≤ y := by
  rcases h with ⟨_, _, _, hy, _⟩ | ⟨_, hy, _⟩ <;> omega

theorem IsNew.le_id {j : Nat} {arg0 arg1 : Value} {fn : Function} {X n : Instruction} {y : Nat}
    (h : IsNew j arg0 arg1 fn X y n) : fn.freshId ≤ n.id := by
  rcases h with ⟨_, _, _, _, hn⟩ | ⟨_, _, L, R, sub, _, _, hn | hn⟩ <;> subst hn <;>
    simp [newICmpULT, newICmpSLT, newZExt]

theorem IsNew.opcode_old {j : Nat} {arg0 arg1 : Value} {fn : Function} {X n : Instruction}
    {y : Nat} (h : IsNew j arg0 arg1 fn X y n) :
    X.opcode = .extractvalue [1] ∨ X.opcode = .binary .Xor ∨ X.opcode = .icmp .ICMP_NE := by
  rcases h with ⟨h, _⟩ | ⟨_, _, L, R, sub, hx, _⟩
  · exact Or.inl h
  · rcases X with ⟨id, opc, ty, ops⟩
    simp only [matchXorOrICmpNE] at hx
    split at hx
    · exact Or.inr (Or.inl rfl)
    · exact Or.inr (Or.inr rfl)
    · cases hx

theorem IsNew.opcode_new {j : Nat} {arg0 arg1 : Value} {fn : Function} {X n : Instruction}
    {y : Nat} (h : IsNew j arg0 arg1 fn X y n) :
    n.opcode = .icmp .ICMP_ULT ∨ n.opcode = .icmp .ICMP_SLT ∨ n.opcode = .cast .ZExt := by
  rcases h with ⟨_, _, _, _, hn⟩ | ⟨_, _, L, R, sub, _, _, hn | hn⟩ <;> subst hn <;>
    simp [newICmpULT, newICmpSLT, newZExt]

/-- The identity whose uses a rewrite of the visit of `j` replaces: `j` itself, or an
`extractvalue` of index 1 that uses `j`. -/
theorem IsNew.trigger {j : Nat} {arg0 arg1 : Value} {fn : Function} {X n : Instruction}
    {y : Nat} (h : IsNew j arg0 arg1 fn X y n) :
    X.id = j ∨ (X.opcode = .extractvalue [1] ∧ .inst j ∈ X.operands) := by
  rcases h with ⟨h1, h2, _⟩ | ⟨h, _⟩
  · exact Or.inr ⟨h1, h2⟩
  · exact Or.inl h

/-- Every instruction stays, with the replaced identity substituted in its operands. -/
theorem Step.persist {j : Nat} {arg0 arg1 : Value} {fn fn' : Function}
    (h : Step j arg0 arg1 fn fn') {i : Instruction} (hi : i ∈ fn.insts) :
    ∃ i' ∈ fn'.insts, i'.id = i.id ∧ i'.opcode = i.opcode ∧ i'.type = i.type := by
  obtain ⟨X, y, _, _, hmem⟩ := h.spec
  exact ⟨_, (hmem _).mpr ⟨i, Or.inl hi, rfl⟩, rfl, rfl, rfl⟩

theorem Step.has {j : Nat} {arg0 arg1 : Value} {fn fn' : Function}
    (h : Step j arg0 arg1 fn fn') {id : Nat} {opc : Opcode} (hh : Has fn id opc) :
    Has fn' id opc := by
  obtain ⟨i, hi, hid, hop⟩ := hh
  obtain ⟨i', hi', hid', hop', _⟩ := h.persist hi
  exact ⟨i', hi', hid'.trans hid, hop'.trans hop⟩

/-- An operand that is not the replaced identity stays. -/
theorem Step.slot {j : Nat} {arg0 arg1 : Value} {fn fn' : Function}
    (h : Step j arg0 arg1 fn fn') {u k : Nat} {v : Value} (hs : Slot fn u k v)
    (hv : ∀ X n y, X ∈ fn.insts → IsNew j arg0 arg1 fn X y n → v ≠ .inst X.id) :
    Slot fn' u k v := by
  obtain ⟨X, y, hX, ⟨n, hn⟩, hmem⟩ := h.spec
  obtain ⟨i, hi, hid, hk⟩ := hs
  refine ⟨_, (hmem _).mpr ⟨i, Or.inl hi, rfl⟩, hid, ?_⟩
  rw [Instruction.replaceUses_operands, List.getElem?_map, hk, Option.map_some',
    substValue_ne (hv X n y hX hn)]

/-- A value of another opcode than the three the pass replaces keeps its uses. -/
theorem Step.slot_of_has {j : Nat} {arg0 arg1 : Value} {fn fn' : Function}
    (h : Step j arg0 arg1 fn fn') (hwf : fn.WellFormed) {u k e : Nat} {opc : Opcode}
    (hs : Slot fn u k (.inst e)) (he : Has fn e opc)
    (h1 : opc ≠ .extractvalue [1]) (h2 : opc ≠ .binary .Xor) (h3 : opc ≠ .icmp .ICMP_NE) :
    Slot fn' u k (.inst e) := by
  apply h.slot hs
  intro X n y hX hn hv
  obtain ⟨i, hi, hid, hop⟩ := he
  have := Function.eq_of_id_eq hwf.1 hi hX (by rw [hid]; exact Value.inst.inj hv)
  subst this
  rcases hn.opcode_old with h | h | h <;> rw [hop] at h
  · exact h1 h
  · exact h2 h
  · exact h3 h

/-! ## The unsigned pattern through the rewrites -/

theorem IsNew.not_extract {j : Nat} {arg0 arg1 : Value} {fn : Function} {X n : Instruction}
    {y : Nat} (h : IsNew j arg0 arg1 fn X y n) (idx : List Nat) :
    n.opcode ≠ .extractvalue idx := by
  rcases h.opcode_new with e | e | e <;> rw [e] <;> intro h' <;> cases h'

theorem IsNew.not_call {j : Nat} {arg0 arg1 : Value} {fn : Function} {X n : Instruction}
    {y : Nat} (h : IsNew j arg0 arg1 fn X y n) (callee : Callee) :
    n.opcode ≠ .call callee := by
  rcases h.opcode_new with e | e | e <;> rw [e] <;> intro h' <;> cases h'

theorem IsNew.old_not_call {j : Nat} {arg0 arg1 : Value} {fn : Function} {X n : Instruction}
    {y : Nat} (h : IsNew j arg0 arg1 fn X y n) (callee : Callee) :
    X.opcode ≠ .call callee := by
  rcases h.opcode_old with e | e | e <;> rw [e] <;> intro h' <;> cases h'

theorem substValue_eq_old_inst {x y e : Nat} {v : Value} (hy : e < y)
    (h : substValue (.inst x) (.inst y) v = .inst e) : v = .inst e := by
  by_cases hv : v = .inst x
  · rw [hv, substValue_self] at h
    have := Value.inst.inj h
    omega
  · rw [substValue_ne hv] at h
    exact h

theorem Step.borrowInv {j : Nat} {arg0 arg1 : Value} {fn fn' : Function}
    (h : Step j arg0 arg1 fn fn') (hwf : fn.WellFormed) {c b : Nat}
    (hinv : BorrowInv fn c b) : BorrowInv fn' c b := by
  obtain ⟨X, y, hX, ⟨n, hn⟩, hmem⟩ := h.spec
  obtain ⟨C, hC, hCid, hCop⟩ := hinv.call
  have hy := hn.le_y
  have hXc : (Value.inst c) ≠ .inst X.id := by
    intro e
    have := Function.eq_of_id_eq hwf.1 hC hX (by rw [hCid]; exact Value.inst.inj e)
    subst this
    exact hn.old_not_call _ hCop
  have hclt : c < y := by
    have := Function.id_lt_freshId hC
    omega
  refine ⟨h.has hinv.call, ?_, ?_, ?_⟩
  · intro C' hC' hC'id
    obtain ⟨i, hi, rfl⟩ := (hmem _).mp hC'
    have hiC : i = C := by
      rcases hi with hi | hi
      · exact Function.eq_of_id_eq hwf.1 hi hC (by rw [hCid]; exact hC'id)
      · have := hi.le_id
        have h2 : i.id = c := hC'id
        have h3 := Function.id_lt_freshId hC
        omega
    subst hiC
    rw [Instruction.replaceUses_operands, List.length_map]
    exact hinv.arity i hC hCid
  · obtain ⟨E, hE, hEid, hEop, hEops⟩ := hinv.borrow
    refine ⟨_, (hmem _).mpr ⟨E, Or.inl hE, rfl⟩, hEid, hEop, ?_⟩
    rw [Instruction.replaceUses_operands, hEops]
    simp only [List.map_cons, List.map_nil, substValue_ne hXc]
  · intro C' hC' hC'id v' hv' e' he' hve' he'op hce'
    -- the call after the rewrite is the call before it, substituted
    obtain ⟨i, hi, rfl⟩ := (hmem _).mp hC'
    have hiC : i = C := by
      rcases hi with hi | hi
      · exact Function.eq_of_id_eq hwf.1 hi hC (by rw [hCid]; exact hC'id)
      · have := hi.le_id
        have h2 : i.id = c := hC'id
        have h3 := Function.id_lt_freshId hC
        omega
    subst hiC
    obtain ⟨i2, hi2, rfl⟩ := (hmem _).mp he'
    have hi2' : i2 ∈ fn.insts := by
      rcases hi2 with hi2 | hi2
      · exact hi2
      · exact absurd he'op (hi2.not_extract _)
    rw [Instruction.replaceUses_operands] at hv' hce'
    obtain ⟨v, hv, rfl⟩ := List.mem_map.mp hv'
    have hlt2 : i2.id < y := by
      have := Function.id_lt_freshId hi2'
      omega
    have hv2 : v = .inst i2.id := substValue_eq_old_inst hlt2 hve'
    obtain ⟨w, hw, hwc⟩ := List.mem_map.mp hce'
    have hw2 : w = .inst c := substValue_eq_old_inst hclt hwc
    exact hinv.acyclic i hC hCid v hv i2 hi2' hv2 he'op (hw2 ▸ hw)

/-- While another instruction than the call is visited, the uses of the borrow stay. -/
theorem Step.slot_borrow {j : Nat} {arg0 arg1 : Value} {fn fn' : Function}
    (h : Step j arg0 arg1 fn fn') (hwf : fn.WellFormed) {c b : Nat}
    (hinv : BorrowInv fn c b) (hj : j ≠ c) {u k : Nat} (hs : Slot fn u k (.inst b)) :
    Slot fn' u k (.inst b) := by
  apply h.slot hs
  intro X n y hX hn hv
  obtain ⟨E, hE, hEid, hEop, hEops⟩ := hinv.borrow
  have := Function.eq_of_id_eq hwf.1 hE hX (by rw [hEid]; exact Value.inst.inj hv)
  subst this
  rcases hn with ⟨_, hjm, _⟩ | ⟨_, _, L, R, sub, hx, _⟩
  · rw [hEops] at hjm
    simp only [List.mem_singleton] at hjm
    exact hj (Value.inst.inj hjm)
  · rcases E with ⟨eid, eopc, ety, eops⟩
    simp only at hEop
    subst hEop
    simp [matchXorOrICmpNE] at hx

theorem IsNew.operands {j : Nat} {arg0 arg1 : Value} {fn : Function} {X n : Instruction}
    {y : Nat} (h : IsNew j arg0 arg1 fn X y n) {v : Value} (hv : v ∈ n.operands) :
    v = arg0 ∨ v = arg1 ∨ (∃ i ∈ fn.insts, v ∈ i.operands) ∨ v = .inst fn.freshId := by
  rcases h with ⟨_, _, _, _, hn⟩ | ⟨_, _, L, R, sub, _, hm, hn | hn⟩
  · subst hn
    simp only [newICmpULT, List.mem_cons, List.mem_singleton, List.not_mem_nil, or_false] at hv
    rcases hv with e | e
    · exact Or.inl e
    · exact Or.inr (Or.inl e)
  · subst hn
    obtain ⟨v', o, _, _, hp⟩ := matchOverflowSignFlag_some hm
    obtain ⟨id, cid, extract, intrin, rest, rest', _, _, _, _, hc, _, hops, _⟩ :=
      overflowFlagParts_some hp
    have hi := (Function.find?_eq_some hc).1
    simp only [newICmpSLT, List.mem_cons, List.mem_singleton, List.not_mem_nil, or_false] at hv
    refine Or.inr (Or.inr (Or.inl ⟨intrin, hi, ?_⟩))
    rw [hops]
    rcases hv with e | e <;> rw [e] <;> simp
  · subst hn
    simp only [newZExt, List.mem_singleton] at hv
    exact Or.inr (Or.inr (Or.inr hv))

/-- A value that nothing uses stays unused, when the values bound at the start of the visit
are not that value. -/
theorem Step.unused {j : Nat} {arg0 arg1 : Value} {fn fn' : Function}
    (h : Step j arg0 arg1 fn fn') {b : Nat} (hb : b < fn.freshId)
    (h0 : arg0 ≠ .inst b) (h1 : arg1 ≠ .inst b) (hu : Unused fn (.inst b)) :
    Unused fn' (.inst b) := by
  obtain ⟨X, y, hX, ⟨n, hn⟩, hmem⟩ := h.spec
  have hy := hn.le_y
  intro i' hi' hm
  obtain ⟨i, hi, rfl⟩ := (hmem _).mp hi'
  rw [Instruction.replaceUses_operands] at hm
  obtain ⟨v, hv, hvb⟩ := List.mem_map.mp hm
  have hvb' : v = .inst b := substValue_eq_old_inst (by omega) hvb
  subst hvb'
  rcases hi with hi | hi
  · exact hu i hi hv
  · rcases hi.operands hv with e | e | ⟨k, hk, hkv⟩ | e
    · exact h0 e.symm
    · exact h1 e.symm
    · exact hu k hk hkv
    · have := Value.inst.inj e
      omega

theorem Step.borrowDone {j : Nat} {arg0 arg1 : Value} {fn fn' : Function}
    (h : Step j arg0 arg1 fn fn') {c b cmp : Nat}
    (hinv : BorrowInv fn c b) (h0 : arg0 ≠ .inst b) (h1 : arg1 ≠ .inst b)
    (hd : BorrowDone fn c b cmp) : BorrowDone fn' c b cmp := by
  obtain ⟨E, hE, hEid, _, _⟩ := hinv.borrow
  have hb : b < fn.freshId := hEid ▸ Function.id_lt_freshId hE
  refine ⟨?_, h.unused hb h0 h1 hd.unused⟩
  obtain ⟨X, y, hX, ⟨n, hn⟩, hmem⟩ := h.spec
  obtain ⟨K, hK, hKid, hKop, C, hC, hCid, hKC⟩ := hd.cmp
  refine ⟨_, (hmem _).mpr ⟨K, Or.inl hK, rfl⟩, hKid, hKop, _,
    (hmem _).mpr ⟨C, Or.inl hC, rfl⟩, hCid, ?_⟩
  rw [Instruction.replaceUses_operands, Instruction.replaceUses_operands, hKC, List.map_take]

theorem Step.slot_done {j : Nat} {arg0 arg1 : Value} {fn fn' : Function}
    (h : Step j arg0 arg1 fn fn') (hwf : fn.WellFormed) {c b cmp : Nat}
    (hd : BorrowDone fn c b cmp) {u k : Nat} (hs : Slot fn u k (.inst cmp)) :
    Slot fn' u k (.inst cmp) := by
  obtain ⟨K, hK, hKid, hKop, _⟩ := hd.cmp
  exact h.slot_of_has hwf hs ⟨K, hK, hKid, hKop⟩ (by intro e; cases e) (by intro e; cases e)
    (by intro e; cases e)

/-- During the visit of the call, its first two operands stay the values bound at the
start. -/
theorem Step.argsKept {arg0 arg1 : Value} {fn fn' : Function} {c b : Nat}
    (h : Step c arg0 arg1 fn fn') (hwf : fn.WellFormed) (hinv : BorrowInv fn c b)
    (hk : ArgsKept fn c arg0 arg1) : ArgsKept fn' c arg0 arg1 := by
  obtain ⟨X, y, hX, ⟨n, hn⟩, hmem⟩ := h.spec
  obtain ⟨C, hC, hCid, hCop⟩ := hinv.call
  intro C' hC' hC'id
  obtain ⟨i, hi, rfl⟩ := (hmem _).mp hC'
  have hiC : i = C := by
    rcases hi with hi | hi
    · exact Function.eq_of_id_eq hwf.1 hi hC (by rw [hCid]; exact hC'id)
    · have := hi.le_id
      have h2 : i.id = c := hC'id
      have h3 := Function.id_lt_freshId hC
      omega
  subst hiC
  have hargs := hk i hC hCid
  have hXb : X.opcode = .extractvalue [1] ∧ .inst c ∈ X.operands := by
    rcases hn.trigger with e | e
    · have := Function.eq_of_id_eq hwf.1 hX hC (by rw [e, hCid])
      subst this
      exact absurd hCop (hn.old_not_call _)
    · exact e
  have hne : ∀ v ∈ i.operands.take 2, v ≠ .inst X.id := by
    intro v hv e
    exact hinv.acyclic i hC hCid v (List.mem_of_mem_take hv) X hX e hXb.1 hXb.2
  rw [Instruction.replaceUses_operands, ← List.map_take, hargs]
  rw [hargs] at hne
  simp only [List.map_cons, List.map_nil,
    substValue_ne (hne arg0 (by simp)), substValue_ne (hne arg1 (by simp))]

/-- The unsigned rewrite for the borrow itself: every use of the borrow now refers to the
new comparison, which compares the two arguments of the call. -/
theorem replaceBorrow_done {fn : Function} {c b : Nat} (hinv : BorrowInv fn c b)
    {arg0 arg1 : Value} (hk : ArgsKept fn c arg0 arg1) {user : Instruction}
    (hu : user.id = b) (huop : user.opcode = .extractvalue [1]) :
    BorrowDone (replaceBorrow c arg0 arg1 fn user) c b fn.freshId ∧
    ∀ u k, Slot fn u k (.inst b) →
      Slot (replaceBorrow c arg0 arg1 fn user) u k (.inst fn.freshId) := by
  obtain ⟨C, hC, hCid, hCop⟩ := hinv.call
  obtain ⟨E, hE, hEid, _, _⟩ := hinv.borrow
  have hb : b < fn.freshId := hEid ▸ Function.id_lt_freshId hE
  have hcin : c ∈ fn.insts.map Instruction.id := hCid ▸ List.mem_map_of_mem _ hC
  refine ⟨⟨?_, ?_⟩, ?_⟩
  · refine ⟨_, (mem_replaceBorrow huop).mpr ⟨newICmpULT fn arg0 arg1, Or.inr ⟨rfl, hcin⟩, rfl⟩,
      rfl, rfl, _, (mem_replaceBorrow huop).mpr ⟨C, Or.inl hC, rfl⟩, hCid, ?_⟩
    rw [Instruction.replaceUses_operands, Instruction.replaceUses_operands, ← List.map_take,
      hk C hC hCid]
    rfl
  · intro i' hi' hm
    obtain ⟨i, _, rfl⟩ := (mem_replaceBorrow huop).mp hi'
    rw [Instruction.replaceUses_operands, hu] at hm
    obtain ⟨v, _, hvb⟩ := List.mem_map.mp hm
    have hv := substValue_eq_old_inst hb hvb
    rw [hv, substValue_self] at hvb
    have := Value.inst.inj hvb
    omega
  · rintro u k ⟨i, hi, hid, hik⟩
    refine ⟨_, (mem_replaceBorrow huop).mpr ⟨i, Or.inl hi, rfl⟩, hid, ?_⟩
    rw [Instruction.replaceUses_operands, List.getElem?_map, hik, Option.map_some', hu,
      substValue_self]

/-! ## Induction over the loop of `runOnBasicBlock` -/

theorem runOnInsts_cons_some {fn : Function} {id : Nat} {inst : Instruction} (rest : List Nat)
    (h : fn.find? id = some inst) :
    runOnInsts fn (id :: rest) = (visit fn inst).bind fun fn' => runOnInsts fn' rest := by
  simp only [runOnInsts, h]

theorem runOnInsts_cons_none {fn : Function} {id : Nat} (rest : List Nat)
    (h : fn.find? id = none) : runOnInsts fn (id :: rest) = runOnInsts fn rest := by
  simp only [runOnInsts, h]

theorem runOnInsts_append (l1 l2 : List Nat) :
    ∀ fn : Function, runOnInsts fn (l1 ++ l2) =
      (runOnInsts fn l1).bind fun fn' => runOnInsts fn' l2 := by
  induction l1 with
  | nil => intro fn; rfl
  | cons id rest ih =>
    intro fn
    rw [List.cons_append]
    cases hf : fn.find? id with
    | none => rw [runOnInsts_cons_none _ hf, runOnInsts_cons_none _ hf]; exact ih fn
    | some inst =>
      rw [runOnInsts_cons_some _ hf, runOnInsts_cons_some _ hf]
      cases visit fn inst with
      | none => rfl
      | some fn1 => simp only [Option.some_bind]; exact ih fn1

theorem Steps.induction {j : Nat} {arg0 arg1 : Value} (P : Function → Prop)
    (hstep : ∀ fn fn', P fn → fn.WellFormed → Step j arg0 arg1 fn fn' → P fn')
    {fn fn' : Function} (h : Relation.ReflTransGen (Step j arg0 arg1) fn fn')
    (hwf : fn.WellFormed) (hP : P fn) : P fn' := by
  have : fn'.WellFormed ∧ P fn' := by
    induction h with
    | refl => exact ⟨hwf, hP⟩
    | tail _ hs ih => exact ⟨hs.wellFormed ih.1, hstep _ _ ih.2 ih.1 hs⟩
  exact this.2

/-- A property of the function is kept by the loop over the instructions `js` when every
rewrite keeps it; `S` collects what the property says of the two values a visit binds at
its start. -/
theorem runOnInsts_induction (P : Function → Prop) (S : Value → Value → Prop)
    (js : List Nat)
    (hside : ∀ fn inst arg0 arg1, P fn → fn.WellFormed → inst ∈ fn.insts →
      (matchUSubWithOverflow inst = some (arg0, arg1) ∨
        (matchUSubWithOverflow inst = none ∧ arg0 = .const (.int 0 0) ∧
          arg1 = .const (.int 0 0))) → S arg0 arg1)
    (hstep : ∀ j arg0 arg1 fn fn', j ∈ js → S arg0 arg1 → P fn → fn.WellFormed →
      Step j arg0 arg1 fn fn' → P fn') :
    ∀ fn fn' : Function, fn.WellFormed → P fn → runOnInsts fn js = some fn' → P fn' := by
  suffices h : ∀ js' : List Nat, (∀ j ∈ js', j ∈ js) → ∀ fn fn' : Function,
      fn.WellFormed → P fn → runOnInsts fn js' = some fn' → P fn' from h js (fun _ h => h)
  intro js'
  induction js' with
  | nil =>
    intro _ fn fn' _ hP h
    simp only [runOnInsts, Option.some.injEq] at h
    exact h ▸ hP
  | cons id rest ih =>
    intro hsub fn fn' hwf hP h
    have hsub' : ∀ j ∈ rest, j ∈ js := fun j hj => hsub j (List.mem_cons_of_mem _ hj)
    cases hf : fn.find? id with
    | none =>
      rw [runOnInsts_cons_none _ hf] at h
      exact ih hsub' fn fn' hwf hP h
    | some inst =>
      rw [runOnInsts_cons_some _ hf] at h
      obtain ⟨hI, hid⟩ := Function.find?_eq_some hf
      obtain ⟨fn1, arg0, arg1, hv, hs, hm⟩ := visit_steps hwf hI
      rw [hv] at h
      simp only [Option.some_bind] at h
      have hS := hside fn inst arg0 arg1 hP hwf hI hm
      have hP1 : P fn1 :=
        Steps.induction P
          (fun f f' hPf hwff hst =>
            hstep inst.id arg0 arg1 f f' (hid ▸ hsub id (List.mem_cons_self _ _)) hS hPf hwff hst)
          hs hwf hP
      exact ih hsub' fn1 fn' (Steps.wellFormed_of_steps hs hwf) hP1 h

theorem runOnInsts_wellFormed {js : List Nat} {fn fn' : Function} (hwf : fn.WellFormed)
    (h : runOnInsts fn js = some fn') : fn'.WellFormed := by
  obtain ⟨fn2, h2, hwf2⟩ := runOnInsts_total js fn hwf
  rw [h] at h2
  cases h2
  exact hwf2

/-! ## Position of the inserted comparisons -/

theorem Function.blockInsts_replaceAllUsesWith (fn : Function) (old new : Value) (bb : Nat) :
    (fn.replaceAllUsesWith old new).blockInsts bb =
      (fn.blockInsts bb).map (Instruction.replaceUses old new) := by
  simp only [Function.blockInsts, Function.replaceAllUsesWith, List.getElem?_map]
  cases fn.blocks[bb]? <;> rfl

theorem Function.blockInsts_insertBefore (fn : Function) (pos : Nat) (new : Instruction)
    (bb : Nat) :
    (fn.insertBefore pos new).blockInsts bb = insertBeforeIn pos new (fn.blockInsts bb) := by
  simp only [Function.blockInsts, Function.insertBefore, List.getElem?_map]
  cases fn.blocks[bb]? <;> rfl

theorem Function.blockInsts_sublist (fn : Function) (bb : Nat) :
    (fn.blockInsts bb).Sublist fn.insts := by
  simp only [Function.blockInsts]
  cases h : fn.blocks[bb]? with
  | none => exact List.nil_sublist _
  | some b =>
    exact List.sublist_flatten_of_mem (List.mem_map_of_mem _ (List.getElem?_mem h))

theorem Function.blockInsts_nodup {fn : Function} (hn : (fn.insts.map Instruction.id).Nodup)
    (bb : Nat) : ((fn.blockInsts bb).map Instruction.id).Nodup :=
  ((fn.blockInsts_sublist bb).map Instruction.id).nodup hn

theorem insertBeforeIn_append (pos : Nat) (new : Instruction) (A B : List Instruction) :
    insertBeforeIn pos new (A ++ B) =
      if pos ∈ A.map Instruction.id then insertBeforeIn pos new A ++ B
      else A ++ insertBeforeIn pos new B := by
  induction A with
  | nil => simp
  | cons a t ih =>
    rw [List.cons_append]
    by_cases h : a.id = pos
    · have : pos ∈ (a :: t).map Instruction.id := by simp [h]
      rw [if_pos this]
      show (if a.id = pos then _ else _) = (if a.id = pos then _ else _) ++ B
      rw [if_pos h, if_pos h]
      rfl
    · show (if a.id = pos then _ else a :: insertBeforeIn pos new (t ++ B)) = _
      rw [if_neg h, ih]
      by_cases ht : pos ∈ t.map Instruction.id
      · have : pos ∈ (a :: t).map Instruction.id := by simp [ht]
        rw [if_pos ht, if_pos this]
        show _ = (if a.id = pos then _ else a :: insertBeforeIn pos new t) ++ B
        rw [if_neg h]
        rfl
      · have : pos ∉ (a :: t).map Instruction.id := by
          simp only [List.map_cons, List.mem_cons, not_or]
          exact ⟨fun e => h e.symm, ht⟩
        rw [if_neg ht, if_neg this]
        rfl

/-- Insertion before `pos` in a block `l1 ++ cs ++ C :: l3`, when `pos` is none of `cs`:
before `C` itself the new instruction joins `cs`; elsewhere `cs` and `C` stay side by
side. -/
theorem insertBeforeIn_middle {pos : Nat} {new C : Instruction} {l1 cs l3 : List Instruction}
    (hn : ((l1 ++ cs ++ C :: l3).map Instruction.id).Nodup)
    (hp : pos ∉ cs.map Instruction.id) :
    (pos = C.id → insertBeforeIn pos new (l1 ++ cs ++ C :: l3) = l1 ++ (cs ++ [new]) ++ C :: l3) ∧
    (pos ≠ C.id → ∃ l1' l3', insertBeforeIn pos new (l1 ++ cs ++ C :: l3) = l1' ++ cs ++ C :: l3') := by
  rw [List.append_assoc] at hn ⊢
  simp only [List.map_append, List.map_cons] at hn
  rw [insertBeforeIn_append, insertBeforeIn_append, if_neg hp]
  constructor
  · intro e
    have h1 : pos ∉ l1.map Instruction.id := by
      intro hm
      have := (List.nodup_append.mp hn).2.2 hm
      exact this (by simp [e])
    rw [if_neg h1]
    show l1 ++ (cs ++ (if C.id = pos then _ else _)) = _
    rw [if_pos e.symm]
    simp
  · intro hne
    by_cases h1 : pos ∈ l1.map Instruction.id
    · rw [if_pos h1]
      exact ⟨insertBeforeIn pos new l1, l3, by simp⟩
    · rw [if_neg h1]
      refine ⟨l1, insertBeforeIn pos new l3, ?_⟩
      show l1 ++ (cs ++ (if C.id = pos then _ else _)) = _
      rw [if_neg (fun e => hne e.symm)]
      simp

theorem Before.of_map {fn' : Function} {bb c : Nat} {m : Option Nat} {ids0 : List Nat}
    {l1 cs l3 : List Instruction} {C : Instruction} {old new : Value}
    (he : fn'.blockInsts bb = (l1 ++ cs ++ C :: l3).map (Instruction.replaceUses old new))
    (hC : C.id = c) (hcs : ∀ n ∈ cs, n.id ∉ ids0 ∧ n.opcode = .icmp .ICMP_ULT)
    (hm : ∀ k ∈ m, k ∈ cs.map Instruction.id) : Before fn' bb c m ids0 := by
  refine ⟨l1.map (Instruction.replaceUses old new), cs.map (Instruction.replaceUses old new),
    l3.map (Instruction.replaceUses old new), C.replaceUses old new, ?_, hC, ?_, ?_⟩
  · rw [he]
    simp
  · intro n hn
    obtain ⟨n0, hn0, rfl⟩ := List.mem_map.mp hn
    exact hcs n0 hn0
  · intro k hk
    obtain ⟨n0, hn0, hid⟩ := List.mem_map.mp (hm k hk)
    exact List.mem_map.mpr ⟨_, List.mem_map_of_mem _ hn0, hid⟩

/-- The comparisons inserted before the call stay right before it; a rewrite of the visit
of the call itself adds its comparison to them. -/
theorem Step.before {j : Nat} {arg0 arg1 : Value} {fn fn' : Function}
    (h : Step j arg0 arg1 fn fn') (hwf : fn.WellFormed) {c b : Nat}
    (hinv : BorrowInv fn c b) {bb : Nat} {ids0 : List Nat} {m : Option Nat}
    (hids : ∀ id ∈ ids0, id ∈ fn.insts.map Instruction.id)
    (hb : Before fn bb c m ids0) :
    Before fn' bb c m ids0 ∧ (j = c → Before fn' bb c (some fn.freshId) ids0) := by
  obtain ⟨l1, cs, l3, C, hdec, hCid, hcs, hm⟩ := hb
  obtain ⟨K, hK, hKid, hKop⟩ := hinv.call
  have hsub := fn.blockInsts_sublist bb
  have hCin : C ∈ fn.insts := hsub.subset (by rw [hdec]; simp)
  have hCK : C = K := Function.eq_of_id_eq hwf.1 hCin hK (by rw [hCid, hKid])
  have hfresh0 : fn.freshId ∉ ids0 := fun hm' => Function.freshId_not_mem (le_refl _) (hids _ hm')
  -- the visited instruction is none of the inserted comparisons
  have hpcs : ∀ I ∈ fn.insts, I.id = j → I.opcode ≠ .icmp .ICMP_ULT → j ∉ cs.map Instruction.id := by
    intro I hI hIid hIop hmem
    obtain ⟨n, hn, hnid⟩ := List.mem_map.mp hmem
    have hnin : n ∈ fn.insts := hsub.subset (by rw [hdec]; simp [hn])
    have := Function.eq_of_id_eq hwf.1 hnin hI (by rw [hnid, hIid])
    exact hIop (this ▸ (hcs n hn).2)
  cases h with
  | borrow call user hc hcid hcop hu huop hj =>
    have hp := hpcs call hc hcid (by rw [hcop]; intro e; cases e)
    have hn := Function.blockInsts_nodup hwf.1 bb
    rw [hdec] at hn
    obtain ⟨hmid1, hmid2⟩ := @insertBeforeIn_middle _ (newICmpULT fn arg0 arg1) _ _ _ _ hn hp
    have hbl : (replaceBorrow j arg0 arg1 fn user).blockInsts bb =
        (insertBeforeIn j (newICmpULT fn arg0 arg1) (l1 ++ cs ++ C :: l3)).map
          (Instruction.replaceUses (.inst user.id) (.inst fn.freshId)) := by
      unfold replaceBorrow
      rw [huop]
      simp only [if_true]
      rw [Function.blockInsts_replaceAllUsesWith, Function.blockInsts_insertBefore, hdec]
    by_cases hjc : j = C.id
    · rw [hmid1 hjc] at hbl
      have hcs' : ∀ n ∈ cs ++ [newICmpULT fn arg0 arg1],
          n.id ∉ ids0 ∧ n.opcode = .icmp .ICMP_ULT := by
        intro n hn'
        rcases List.mem_append.mp hn' with h1 | h1
        · exact hcs n h1
        · simp only [List.mem_singleton] at h1
          subst h1
          exact ⟨hfresh0, rfl⟩
      refine ⟨Before.of_map hbl hCid hcs' ?_, fun _ => Before.of_map hbl hCid hcs' ?_⟩
      · intro k hk
        simp only [List.map_append, List.mem_append]
        exact Or.inl (hm k hk)
      · intro k hk
        simp only [Option.mem_def, Option.some.injEq] at hk
        subst hk
        simp [newICmpULT]
    · obtain ⟨l1', l3', he⟩ := hmid2 hjc
      rw [he] at hbl
      exact ⟨Before.of_map hbl hCid hcs hm, fun e => absurd (e.trans hCid.symm) hjc⟩
  | fuse inst L R sub hi hid hx hm' =>
    have hiop : inst.opcode = .binary .Xor ∨ inst.opcode = .icmp .ICMP_NE := by
      rcases inst with ⟨iid, iopc, ity, iops⟩
      simp only [matchXorOrICmpNE] at hx
      split at hx
      · exact Or.inl rfl
      · exact Or.inr rfl
      · cases hx
    have hp := hpcs inst hi hid (by rcases hiop with e | e <;> rw [e] <;> intro e' <;> cases e')
    have hjc : j ≠ C.id := by
      intro e
      have := Function.eq_of_id_eq hwf.1 hi hCin (by rw [hid, e])
      rw [this, hCK, hKop] at hiop
      rcases hiop with e' | e' <;> cases e'
    have hn := Function.blockInsts_nodup hwf.1 bb
    rw [hdec] at hn
    obtain ⟨l1', l3', he1⟩ := (@insertBeforeIn_middle _ (newICmpSLT fn sub) _ _ _ _ hn hp).2 hjc
    have hn2 := Function.blockInsts_nodup
      (@Function.nodup_insertBefore _ j (newICmpSLT fn sub) hwf.1 (le_refl _)) bb
    rw [Function.blockInsts_insertBefore, hdec, he1] at hn2
    obtain ⟨l1'', l3'', he2⟩ := (@insertBeforeIn_middle _ (newZExt fn inst.type) _ _ _ _ hn2 hp).2 hjc
    have hbl : (Fcd.fuse fn inst sub).blockInsts bb =
        (l1'' ++ cs ++ C :: l3'').map
          (Instruction.replaceUses (.inst inst.id) (.inst (fn.freshId + 1))) := by
      unfold Fcd.fuse
      rw [Function.blockInsts_replaceAllUsesWith, Function.blockInsts_insertBefore,
        Function.blockInsts_insertBefore, hdec, hid, he1, he2]
    exact ⟨Before.of_map hbl hCid hcs hm, fun e => absurd (e.trans hCid.symm) hjc⟩

/-- The loop over the users of the call `c`: when it is over, every use of the borrow `b`
refers to one new `icmp ult` on the arguments of the call, and nothing uses `b`. -/
theorem foldl_replaceBorrow_done {c b : Nat} {arg0 arg1 : Value} (slots : Nat → Nat → Prop)
    (ids0 : List Nat) (bb : Nat) (us : List Instruction) :
    ∀ fn : Function, fn.WellFormed → BorrowInv fn c b → ArgsKept fn c arg0 arg1 →
      (∀ id ∈ ids0, id ∈ fn.insts.map Instruction.id) →
      (∀ u ∈ us, ∃ u' ∈ fn.insts, u'.id = u.id ∧ u'.opcode = u.opcode ∧
        .inst c ∈ u'.operands) →
      ((∃ cmp, Before fn bb c (some cmp) ids0 ∧ BorrowDone fn c b cmp ∧
          ∀ u k, slots u k → Slot fn u k (.inst cmp)) ∨
        (Before fn bb c none ids0 ∧ (∀ u k, slots u k → Slot fn u k (.inst b)) ∧
          ∃ u ∈ us, u.id = b ∧ u.opcode = .extractvalue [1])) →
      (us.foldl (replaceBorrow c arg0 arg1) fn).WellFormed ∧
      BorrowInv (us.foldl (replaceBorrow c arg0 arg1) fn) c b ∧
      (∀ id ∈ ids0, id ∈ (us.foldl (replaceBorrow c arg0 arg1) fn).insts.map Instruction.id) ∧
      ∃ cmp, Before (us.foldl (replaceBorrow c arg0 arg1) fn) bb c (some cmp) ids0 ∧
        BorrowDone (us.foldl (replaceBorrow c arg0 arg1) fn) c b cmp ∧
        ∀ u k, slots u k → Slot (us.foldl (replaceBorrow c arg0 arg1) fn) u k (.inst cmp) := by
  induction us with
  | nil =>
    intro fn hwf hinv _ hids _ hst
    rcases hst with hst | ⟨_, _, u, hu, _⟩
    · exact ⟨hwf, hinv, hids, hst⟩
    · cases hu
  | cons u t ih =>
    intro fn hwf hinv hk hids husers hst
    simp only [List.foldl_cons]
    have husers' : ∀ u2 ∈ t, ∃ u' ∈ fn.insts, u'.id = u2.id ∧ u'.opcode = u2.opcode ∧
        .inst c ∈ u'.operands := fun u2 hu2 => husers u2 (List.mem_cons_of_mem _ hu2)
    by_cases hu : u.opcode = .extractvalue [1]
    · obtain ⟨C, hC, hCid, hCop⟩ := hinv.call
      obtain ⟨E, hE, hEid, hEop, hEops⟩ := hinv.borrow
      obtain ⟨u', hu', hid, hop, hj⟩ := husers u (List.mem_cons_self _ _)
      have hop' : u'.opcode = .extractvalue [1] := by rw [hop, hu]
      have hstep : Step c arg0 arg1 fn (replaceBorrow c arg0 arg1 fn u) := by
        rw [← replaceBorrow_congr c arg0 arg1 fn hid hop]
        exact Step.borrow C u' hC hCid hCop hu' hop' hj
      have hne : (Value.inst c) ≠ .inst u.id := by
        intro e
        have e' := Value.inst.inj e
        have := Function.eq_of_id_eq hwf.1 hC hu' (by rw [hCid, hid, e'])
        rw [this, hop'] at hCop
        cases hCop
      have hargs := hk C hC hCid
      have ha0 : arg0 ∈ C.operands := List.mem_of_mem_take (hargs ▸ List.mem_cons_self _ _)
      have ha1 : arg1 ∈ C.operands :=
        List.mem_of_mem_take (hargs ▸ List.mem_cons_of_mem _ (List.mem_cons_self _ _))
      have h0 : arg0 ≠ .inst b := fun e =>
        hinv.acyclic C hC hCid arg0 ha0 E hE (by rw [hEid]; exact e) hEop
          (by rw [hEops]; simp)
      have h1 : arg1 ≠ .inst b := fun e =>
        hinv.acyclic C hC hCid arg1 ha1 E hE (by rw [hEid]; exact e) hEop
          (by rw [hEops]; simp)
      apply ih _ (hstep.wellFormed hwf) (hstep.borrowInv hwf hinv) (hstep.argsKept hwf hinv hk)
      · intro id hid0
        obtain ⟨i, hi, rfl⟩ := List.mem_map.mp (hids id hid0)
        obtain ⟨i', hi', hid', _⟩ := hstep.persist hi
        rw [← hid']
        exact List.mem_map_of_mem _ hi'
      · intro u2 hu2
        obtain ⟨u2', hu2', hid2, hop2, hj2⟩ := husers' u2 hu2
        refine ⟨u2'.replaceUses (.inst u.id) (.inst fn.freshId),
          (mem_replaceBorrow hu).mpr ⟨u2', Or.inl hu2', rfl⟩, hid2, hop2, ?_⟩
        rw [Instruction.replaceUses_operands]
        exact List.mem_map.mpr ⟨_, hj2, substValue_ne hne⟩
      · rcases hst with ⟨cmp, hbf, hd, hs⟩ | ⟨hbf, hs, ub, hub, hubid, hubop⟩
        · exact Or.inl ⟨cmp, (hstep.before hwf hinv hids hbf).1, hstep.borrowDone hinv h0 h1 hd,
            fun u k hp => hstep.slot_done hwf hd (hs u k hp)⟩
        · by_cases hub' : u.id = b
          · obtain ⟨hd, hs'⟩ := replaceBorrow_done hinv hk hub' hu
            exact Or.inl ⟨fn.freshId, (hstep.before hwf hinv hids hbf).2 rfl, hd,
              fun u k hp => hs' _ _ (hs u k hp)⟩
          · refine Or.inr ⟨(hstep.before hwf hinv hids hbf).1, ?_, ?_⟩
            · intro u0 k0 hp
              obtain ⟨i, hi, hiid, hik⟩ := hs u0 k0 hp
              refine ⟨_, (mem_replaceBorrow hu).mpr ⟨i, Or.inl hi, rfl⟩, hiid, ?_⟩
              rw [Instruction.replaceUses_operands, List.getElem?_map, hik, Option.map_some',
                substValue_ne]
              intro e
              exact hub' (Value.inst.inj e).symm
            · rcases List.mem_cons.mp hub with e | hm
              · exact absurd (e ▸ hubid) hub'
              · exact ⟨ub, hm, hubid, hubop⟩
    · rw [replaceBorrow_of_not_borrow _ _ _ _ _ hu]
      apply ih fn hwf hinv hk hids husers'
      rcases hst with hst | ⟨hbf, hs, ub, hub, hubid, hubop⟩
      · exact Or.inl hst
      · refine Or.inr ⟨hbf, hs, ?_⟩
        rcases List.mem_cons.mp hub with e | hm
        · exact absurd (e ▸ hubop) hu
        · exact ⟨ub, hm, hubid, hubop⟩


/-! ## The three phases of a run on the unsigned pattern -/

theorem Step.ids {j : Nat} {arg0 arg1 : Value} {fn fn' : Function}
    (h : Step j arg0 arg1 fn fn') {ids0 : List Nat}
    (hids : ∀ id ∈ ids0, id ∈ fn.insts.map Instruction.id) :
    ∀ id ∈ ids0, id ∈ fn'.insts.map Instruction.id := by
  intro id hid0
  obtain ⟨i, hi, rfl⟩ := List.mem_map.mp (hids id hid0)
  obtain ⟨i', hi', hid', _⟩ := h.persist hi
  rw [← hid']
  exact List.mem_map_of_mem _ hi'

/-- Visits of other instructions than the call keep the state before the rewrite. -/
theorem runOnInsts_borrowPre {bb c b : Nat} {ids0 : List Nat} {slots : Nat → Nat → Prop}
    {js : List Nat} (hc : c ∉ js) {fn fn' : Function} (hwf : fn.WellFormed)
    (hpre : BorrowPre fn bb c b ids0 slots) (h : runOnInsts fn js = some fn') :
    BorrowPre fn' bb c b ids0 slots := by
  refine runOnInsts_induction (fun f => BorrowPre f bb c b ids0 slots) (fun _ _ => True) js
    (fun _ _ _ _ _ _ _ _ => trivial) ?_ fn fn' hwf hpre h
  intro j arg0 arg1 f f' hj _ hP hwff hst
  have hjc : j ≠ c := fun e => hc (e ▸ hj)
  exact ⟨hst.borrowInv hwff hP.inv, hst.ids hP.ids, (hst.before hwff hP.inv hP.ids hP.before).1,
    fun u k hs => hst.slot_borrow hwff hP.inv hjc (hP.slots u k hs)⟩

/-- Later visits keep the state after the rewrite. -/
theorem runOnInsts_borrowPost {bb c b cmp : Nat} {ids0 : List Nat}
    {slots : Nat → Nat → Prop} (js : List Nat) {fn fn' : Function} (hwf : fn.WellFormed)
    (hpost : BorrowPost fn bb c b cmp ids0 slots) (h : runOnInsts fn js = some fn') :
    BorrowPost fn' bb c b cmp ids0 slots := by
  refine runOnInsts_induction (fun f => BorrowPost f bb c b cmp ids0 slots)
    (fun arg0 arg1 => arg0 ≠ .inst b ∧ arg1 ≠ .inst b) js ?_ ?_ fn fn' hwf hpost h
  · intro f inst arg0 arg1 hP _ hI hm
    rcases hm with hm | ⟨_, e0, e1⟩
    · obtain ⟨_, rest, hops⟩ := matchUSubWithOverflow_opcode hm
      constructor
      · intro e
        exact hP.done.unused inst hI (by rw [hops, e]; simp)
      · intro e
        exact hP.done.unused inst hI (by rw [hops, e]; simp)
    · subst e0 e1
      exact ⟨(fun e => by cases e), (fun e => by cases e)⟩
  · intro j arg0 arg1 f f' _ hS hP hwff hst
    exact ⟨hst.borrowInv hwff hP.inv, hst.ids hP.ids,
      (hst.before hwff hP.inv hP.ids hP.before).1, hst.borrowDone hP.inv hS.1 hS.2 hP.done,
      fun u k hs => hst.slot_done hwff hP.done (hP.slots u k hs)⟩

theorem matchUSubWithOverflow_of_shape {inst : Instruction} {arg0 arg1 : Value}
    {rest : List Value} (hop : inst.opcode = .call .usub_with_overflow)
    (hops : inst.operands = arg0 :: arg1 :: rest) :
    matchUSubWithOverflow inst = some (arg0, arg1) := by
  rcases inst with ⟨id, opc, ty, ops⟩
  simp only at hop hops
  subst hop hops
  rfl

/-- The visit of the call takes the state before the rewrite to the state after it. -/
theorem visit_borrow {bb c b : Nat} {ids0 : List Nat} {slots : Nat → Nat → Prop}
    {fn : Function} (hwf : fn.WellFormed) (hpre : BorrowPre fn bb c b ids0 slots)
    {C : Instruction} (hf : fn.find? c = some C) :
    ∃ fn' cmp, visit fn C = some fn' ∧ fn'.WellFormed ∧
      BorrowPost fn' bb c b cmp ids0 slots := by
  obtain ⟨hC, hCid⟩ := Function.find?_eq_some hf
  obtain ⟨K, hK, hKid, hKop⟩ := hpre.inv.call
  have hCK : C = K := Function.eq_of_id_eq hwf.1 hC hK (by rw [hCid, hKid])
  have hCop : C.opcode = .call .usub_with_overflow := hCK ▸ hKop
  have hlen := hpre.inv.arity C hC hCid
  obtain ⟨arg0, arg1, rest, hops⟩ : ∃ arg0 arg1 rest, C.operands = arg0 :: arg1 :: rest := by
    cases hco : C.operands with
    | nil => rw [hco] at hlen; simp at hlen
    | cons x t =>
      cases t with
      | nil => rw [hco] at hlen; simp at hlen
      | cons y t' => exact ⟨x, y, t', rfl⟩
  have hm := matchUSubWithOverflow_of_shape hCop hops
  have hv : visit fn C = some ((fn.users (.inst C.id)).foldl (replaceBorrow C.id arg0 arg1) fn) := by
    simp only [visit, hm]
  rw [hCid] at hv
  have hk : ArgsKept fn c arg0 arg1 := by
    intro C' hC' hC'id
    have := Function.eq_of_id_eq hwf.1 hC' hC (by rw [hC'id, hCid])
    rw [this, hops]
    rfl
  obtain ⟨E, hE, hEid, hEop, hEops⟩ := hpre.inv.borrow
  have hfold := @foldl_replaceBorrow_done _ _ arg0 arg1 slots ids0 bb
    (fn.users (.inst c)) fn hwf hpre.inv hk hpre.ids
    (by
      intro u hu
      simp only [Function.users, List.mem_filter, decide_eq_true_eq] at hu
      exact ⟨u, hu.1, rfl, rfl, hu.2⟩)
    (Or.inr ⟨hpre.before, hpre.slots, E, by
      simp only [Function.users, List.mem_filter, decide_eq_true_eq]
      exact ⟨hE, by rw [hEops]; simp⟩, hEid, hEop⟩)
  obtain ⟨hwf', hinv', hids', cmp, hbf, hd, hs⟩ := hfold
  exact ⟨_, cmp, hv, hwf', hinv', hids', hbf, hd, hs⟩

/-! ## C3: the unsigned pattern -/

theorem runOnBasicBlock_eq (fn : Function) (bb : Nat) :
    runOnBasicBlock fn bb =
      (runOnInsts fn ((fn.blockInsts bb).map Instruction.id)).map fun fn' => (false, fn') := by
  simp only [runOnBasicBlock, Function.blockInsts]
  cases fn.blocks[bb]? <;> rfl

theorem runOnInsts_slot_of_has {js : List Nat} {fn fn' : Function} (hwf : fn.WellFormed)
    (h : runOnInsts fn js = some fn') {u k e : Nat} {opc : Opcode}
    (hs : Slot fn u k (.inst e)) (he : Has fn e opc)
    (h1 : opc ≠ .extractvalue [1]) (h2 : opc ≠ .binary .Xor) (h3 : opc ≠ .icmp .ICMP_NE) :
    Slot fn' u k (.inst e) := by
  have := runOnInsts_induction (fun f => Has f e opc ∧ Slot f u k (.inst e)) (fun _ _ => True) js
    (fun _ _ _ _ _ _ _ _ => trivial)
    (fun j arg0 arg1 f f' _ _ hP hwff hst =>
      ⟨hst.has hP.1, hst.slot_of_has hwff hP.2 hP.1 h1 h2 h3⟩)
    fn fn' hwf ⟨he, hs⟩ h
  exact this.2

/-- C3: let `call = usub_with_overflow(a, b)` stand in block `bb` and let
`borrow = extractvalue(call, 1)` be anywhere in a well-formed function in which no argument
of `call` is an index-1 extract of `call` itself.  One run of `runOnBasicBlock` on `bb`
returns, and afterwards: block `bb` has, right before `call`, a run `cs` of `icmp ult`
instructions that were not in the function before, one of which, `cmp`, compares the two
arguments of `call` and is what every former use of `borrow` refers to; no instruction
uses `borrow`; `call` and `borrow` are still in the function; and every use of an
`extractvalue` of another index is as it was. -/
theorem unsigned_pattern (fn : Function) (hwf : fn.WellFormed) (bb : Nat)
    (call borrow : Instruction) (a b : Value) (rest : List Value)
    (hcall : call ∈ fn.blockInsts bb) (hcop : call.opcode = .call .usub_with_overflow)
    (hcops : call.operands = a :: b :: rest)
    (hborrow : borrow ∈ fn.insts) (hbop : borrow.opcode = .extractvalue [1])
    (hbops : borrow.operands = [.inst call.id])
    (hacyc : ∀ v ∈ call.operands, NotOwnBorrow fn call.id v) :
    ∃ fn', runOnBasicBlock fn bb = some (false, fn') ∧
      (∃ cmp call' l1 cs l3, fn'.blockInsts bb = l1 ++ cs ++ call' :: l3 ∧
        call'.id = call.id ∧ call'.opcode = .call .usub_with_overflow ∧ cmp ∈ cs ∧
        (∀ n ∈ cs, n.id ∉ fn.insts.map Instruction.id ∧ n.opcode = .icmp .ICMP_ULT) ∧
        cmp.operands = call'.operands.take 2 ∧
        ∀ u ∈ fn.insts, ∀ k, u.operands[k]? = some (.inst borrow.id) →
          Slot fn' u.id k (.inst cmp.id)) ∧
      Unused fn' (.inst borrow.id) ∧
      (∃ E ∈ fn'.insts, E.id = borrow.id ∧ E.opcode = borrow.opcode ∧
        E.operands = borrow.operands) ∧
      (∀ e ∈ fn.insts, ∀ idx, e.opcode = .extractvalue idx → idx ≠ [1] →
        ∀ u ∈ fn.insts, ∀ k, u.operands[k]? = some (.inst e.id) →
          Slot fn' u.id k (.inst e.id)) := by
  obtain ⟨fn', hrun, hwf'⟩ := runOnBasicBlock_total hwf bb
  refine ⟨fn', hrun, ?_⟩
  rw [runOnBasicBlock_eq] at hrun
  have hrun' : runOnInsts fn ((fn.blockInsts bb).map Instruction.id) = some fn' := by
    cases hr : runOnInsts fn ((fn.blockInsts bb).map Instruction.id) with
    | none => rw [hr] at hrun; cases hrun
    | some f =>
      rw [hr] at hrun
      simp only [Option.map_some', Option.some.injEq, Prod.mk.injEq, true_and] at hrun
      rw [hrun]
  have hcin : call ∈ fn.insts := (fn.blockInsts_sublist bb).subset hcall
  -- the uses of other extracts
  have hothers : ∀ e ∈ fn.insts, ∀ idx, e.opcode = .extractvalue idx → idx ≠ [1] →
      ∀ u ∈ fn.insts, ∀ k, u.operands[k]? = some (.inst e.id) →
        Slot fn' u.id k (.inst e.id) := by
    intro e he idx heop hidx u hu k huk
    exact runOnInsts_slot_of_has hwf hrun' ⟨u, hu, rfl, huk⟩ ⟨e, he, rfl, heop⟩
      (by intro h; cases h; exact hidx rfl) (by intro h; cases h) (by intro h; cases h)
  -- the block around the call
  obtain ⟨pre, post, hdec⟩ := List.append_of_mem hcall
  have hnd := Function.blockInsts_nodup hwf.1 bb
  rw [hdec] at hnd
  have hcpre : call.id ∉ pre.map Instruction.id := by
    intro hm
    simp only [List.map_append, List.map_cons] at hnd
    exact (List.nodup_append.mp hnd).2.2 hm (by simp)
  rw [hdec, List.map_append, List.map_cons, runOnInsts_append] at hrun'
  cases h1 : runOnInsts fn (pre.map Instruction.id) with
  | none => rw [h1] at hrun'; cases hrun'
  | some fn1 =>
    rw [h1, Option.some_bind] at hrun'
    have hpre : BorrowPre fn bb call.id borrow.id (fn.insts.map Instruction.id)
        (fun u k => Slot fn u k (.inst borrow.id)) := by
      refine ⟨⟨⟨call, hcin, rfl, hcop⟩, ?_, ⟨borrow, hborrow, rfl, hbop, hbops⟩, ?_⟩,
        fun _ h => h, ⟨pre, [], post, call, by rw [hdec]; simp, rfl, by simp, by simp⟩,
        fun _ _ h => h⟩
      · intro C hC hCid
        have := Function.eq_of_id_eq hwf.1 hC hcin hCid
        rw [this, hcops]
        simp
      · intro C hC hCid
        have := Function.eq_of_id_eq hwf.1 hC hcin hCid
        rw [this]
        exact hacyc
    have hwf1 := runOnInsts_wellFormed hwf h1
    have hpre1 := runOnInsts_borrowPre hcpre hwf hpre h1
    obtain ⟨C1, hC1, hC1id, _⟩ := hpre1.inv.call
    have hf1 := Function.find?_of_mem hwf1.1 hC1
    rw [hC1id] at hf1
    rw [runOnInsts_cons_some _ hf1] at hrun'
    obtain ⟨fn2, cmp, hv, hwf2, hpost2⟩ := visit_borrow hwf1 hpre1 hf1
    rw [hv, Option.some_bind] at hrun'
    have hpost := runOnInsts_borrowPost _ hwf2 hpost2 hrun'
    refine ⟨?_, hpost.done.unused, ?_, hothers⟩
    · obtain ⟨l1, cs, l3, C', hbl, hC'id, hcs, hm⟩ := hpost.before
      obtain ⟨n, hn, hnid⟩ := List.mem_map.mp (hm cmp rfl)
      obtain ⟨K, hK, hKid, hKop, C, hC, hCid, hKC⟩ := hpost.done.cmp
      have hsub := fn'.blockInsts_sublist bb
      have hnin : n ∈ fn'.insts := hsub.subset (by rw [hbl]; simp [hn])
      have hC'in : C' ∈ fn'.insts := hsub.subset (by rw [hbl]; simp)
      have hnK : n = K := Function.eq_of_id_eq hwf'.1 hnin hK (by rw [hnid, hKid])
      have hCC : C = C' := Function.eq_of_id_eq hwf'.1 hC hC'in (by rw [hCid, hC'id])
      obtain ⟨C2, hC2, hC2id, hC2op⟩ := hpost.inv.call
      have hC2' : C2 = C' := Function.eq_of_id_eq hwf'.1 hC2 hC'in (by rw [hC2id, hC'id])
      refine ⟨n, C', l1, cs, l3, hbl, hC'id, hC2' ▸ hC2op, hn, hcs, ?_, ?_⟩
      · rw [hnK, hKC, hCC]
      · intro u hu k huk
        rw [hnid]
        exact hpost.slots u.id k ⟨u, hu, rfl, huk⟩
    · obtain ⟨E, hE, hEid, hEop, hEops⟩ := hpost.inv.borrow
      exact ⟨E, hE, hEid, hEop.trans hbop.symm, hEops.trans hbops.symm⟩

theorem unsigned_pattern_witness :
    ∃ fn', runOnBasicBlock unsignedFn 0 = some (false, fn') ∧
      (∃ cmp call' l1 cs l3, fn'.blockInsts 0 = l1 ++ cs ++ call' :: l3 ∧
        call'.id = 1 ∧ call'.opcode = .call .usub_with_overflow ∧ cmp ∈ cs ∧
        (∀ n ∈ cs, n.id ∉ unsignedFn.insts.map Instruction.id ∧ n.opcode = .icmp .ICMP_ULT) ∧
        cmp.operands = call'.operands.take 2 ∧
        ∀ u ∈ unsignedFn.insts, ∀ k, u.operands[k]? = some (.inst 2) →
          Slot fn' u.id k (.inst cmp.id)) ∧
      Unused fn' (.inst 2) ∧
      (∃ E ∈ fn'.insts, E.id = 2 ∧ E.opcode = .extractvalue [1] ∧ E.operands = [.inst 1]) ∧
      (∀ e ∈ unsignedFn.insts, ∀ idx, e.opcode = .extractvalue idx → idx ≠ [1] →
        ∀ u ∈ unsignedFn.insts, ∀ k, u.operands[k]? = some (.inst e.id) →
          Slot fn' u.id k (.inst e.id)) :=
  unsigned_pattern unsignedFn (by decide) 0
    ⟨1, .call .usub_with_overflow, .other 0, [.arg 0 (.int 32), .arg 1 (.int 32)]⟩
    ⟨2, .extractvalue [1], .int 1, [.inst 1]⟩ (.arg 0 (.int 32)) (.arg 1 (.int 32)) []
    (by decide) rfl rfl (by decide) rfl rfl (by decide)

/-! ## Types and cast chains through the rewrites -/

theorem Step.find?_new {j : Nat} {arg0 arg1 : Value} {fn fn' : Function}
    (h : Step j arg0 arg1 fn fn') (hwf : fn.WellFormed) {X n : Instruction} {y : Nat}
    (hmem : ∀ i', i' ∈ fn'.insts ↔
      ∃ i, (i ∈ fn.insts ∨ IsNew j arg0 arg1 fn X y i) ∧
        i' = i.replaceUses (.inst X.id) (.inst y))
    (hn : IsNew j arg0 arg1 fn X y n) :
    fn'.find? n.id = some (n.replaceUses (.inst X.id) (.inst y)) :=
  Function.find?_of_mem (h.wellFormed hwf).1 ((hmem _).mpr ⟨n, Or.inr hn, rfl⟩)

theorem Step.find?_old {j : Nat} {arg0 arg1 : Value} {fn fn' : Function}
    (h : Step j arg0 arg1 fn fn') (hwf : fn.WellFormed) {X : Instruction} {y : Nat}
    (hmem : ∀ i', i' ∈ fn'.insts ↔
      ∃ i, (i ∈ fn.insts ∨ IsNew j arg0 arg1 fn X y i) ∧
        i' = i.replaceUses (.inst X.id) (.inst y))
    {i : Instruction} (hi : i ∈ fn.insts) :
    fn'.find? i.id = some (i.replaceUses (.inst X.id) (.inst y)) :=
  Function.find?_of_mem (h.wellFormed hwf).1 ((hmem _).mpr ⟨i, Or.inl hi, rfl⟩)

/-- The new value has the type of the value it replaces, and other values keep theirs. -/
theorem Step.type {j : Nat} {arg0 arg1 : Value} {fn fn' : Function}
    (h : Step j arg0 arg1 fn fn') (hwf : fn.WellFormed) (hty : BorrowTyped fn)
    {X : Instruction} {y : Nat}
    (hmem : ∀ i', i' ∈ fn'.insts ↔
      ∃ i, (i ∈ fn.insts ∨ IsNew j arg0 arg1 fn X y i) ∧
        i' = i.replaceUses (.inst X.id) (.inst y))
    (hX : X ∈ fn.insts) (hnew : ∃ n, IsNew j arg0 arg1 fn X y n) {v : Value} {t : Ty}
    (hv : v.type fn = some t) :
    (substValue (.inst X.id) (.inst y) v).type fn' = some t := by
  by_cases hvx : v = .inst X.id
  · subst hvx
    rw [substValue_self]
    simp only [Value.type, Function.find?_of_mem hwf.1 hX, Option.map_some',
      Option.some.injEq] at hv
    obtain ⟨n, hn⟩ := hnew
    rcases hn with ⟨h1, h2, ⟨call, hc, hcid, hcop⟩, hy, hn'⟩ | ⟨h1, hy, L, R, sub, hx, hm, _⟩
    · have hnew' : IsNew j arg0 arg1 fn X y (newICmpULT fn arg0 arg1) :=
        Or.inl ⟨h1, h2, ⟨call, hc, hcid, hcop⟩, hy, rfl⟩
      have hf := h.find?_new hwf hmem hnew'
      have hXt := hty X hX h1 ⟨call, hc, hcop, hcid ▸ h2⟩
      subst hy
      simp only [Value.type]
      rw [show fn.freshId = (newICmpULT fn arg0 arg1).id from rfl, hf]
      simp only [Option.map_some', Instruction.replaceUses_type, newICmpULT, ← hv, hXt]
    · have hnew' : IsNew j arg0 arg1 fn X y (newZExt fn X.type) :=
        Or.inr ⟨h1, hy, L, R, sub, hx, hm, Or.inr rfl⟩
      have hf := h.find?_new hwf hmem hnew'
      subst hy
      simp only [Value.type]
      rw [show fn.freshId + 1 = (newZExt fn X.type).id from rfl, hf]
      simp only [Option.map_some', Instruction.replaceUses_type, newZExt, hv]
  · rw [substValue_ne hvx]
    cases v with
    | inst k =>
      simp only [Value.type] at hv ⊢
      cases hf : fn.find? k with
      | none => rw [hf] at hv; cases hv
      | some i =>
        rw [hf] at hv
        obtain ⟨hi, hid⟩ := Function.find?_eq_some hf
        have := h.find?_old hwf hmem hi
        rw [hid] at this
        rw [this]
        exact hv
    | arg _ _ => exact hv
    | const _ => exact hv

theorem Step.borrowTyped {j : Nat} {arg0 arg1 : Value} {fn fn' : Function}
    (h : Step j arg0 arg1 fn fn') (hty : BorrowTyped fn) : BorrowTyped fn' := by
  obtain ⟨X, y, hX, ⟨n, hn⟩, hmem⟩ := h.spec
  have hy := hn.le_y
  intro e' he' heop ⟨c', hc', hcop, hce⟩
  obtain ⟨e, he, rfl⟩ := (hmem _).mp he'
  obtain ⟨c, hc, rfl⟩ := (hmem _).mp hc'
  have he2 : e ∈ fn.insts := by
    rcases he with he | he
    · exact he
    · exact absurd heop (he.not_extract _)
  have hc2 : c ∈ fn.insts := by
    rcases hc with hc | hc
    · exact hc
    · exact absurd hcop (hc.not_call _)
  rw [Instruction.replaceUses_operands] at hce
  obtain ⟨w, hw, hwc⟩ := List.mem_map.mp hce
  have hclt : c.id < y := by
    have := Function.id_lt_freshId hc2
    omega
  have hw2 : w = .inst c.id := substValue_eq_old_inst hclt hwc
  exact hty e he2 heop ⟨c, hc2, hcop, hw2 ▸ hw⟩

theorem asCast_eq_some {fn : Function} {v w : Value} (h : asCast fn v = some w) :
    ∃ id i op rest, v = .inst id ∧ fn.find? id = some i ∧ i.opcode = .cast op ∧
      i.operands = w :: rest := by
  cases v with
  | inst id =>
    simp only [asCast] at h
    cases hf : fn.find? id with
    | none => rw [hf] at h; cases h
    | some i =>
      rw [hf] at h
      rcases i with ⟨iid, opc, ty, ops⟩
      cases opc <;> cases ops <;> simp at h
      subst h
      exact ⟨id, _, _, _, rfl, hf, rfl, rfl⟩
  | arg _ _ => cases h
  | const _ => cases h

/-- A cast chain that ends at an instruction the rewrite does not replace is still there. -/
theorem Step.castPath {j : Nat} {arg0 arg1 : Value} {fn fn' : Function}
    (h : Step j arg0 arg1 fn fn') (hwf : fn.WellFormed) {v r : Value} {l : List Value}
    (p : CastPath fn v l r) (hrin : ∃ i ∈ fn.insts, r = .inst i.id)
    (hr : ∀ X n y, X ∈ fn.insts → IsNew j arg0 arg1 fn X y n → r ≠ .inst X.id) :
    CastPath fn' v l r := by
  obtain ⟨X, y, hX, ⟨n, hn⟩, hmem⟩ := h.spec
  have hrX := hr X n y hX hn
  have hXnone : asCast fn (.inst X.id) = none :=
    asCast_of_not_cast (Function.find?_of_mem hwf.1 hX) (by
      intro op e
      rcases hn.opcode_old with e' | e' | e' <;> rw [e] at e' <;> cases e')
  -- the cast step of an instruction of the function, after the rewrite
  have hcast : ∀ u w, asCast fn u = some w →
      asCast fn' u = some (substValue (.inst X.id) (.inst y) w) := by
    intro u w huw
    obtain ⟨id, i, op, rest, rfl, hf, hop, hops⟩ := asCast_eq_some huw
    obtain ⟨hi, hid⟩ := Function.find?_eq_some hf
    have := h.find?_old hwf hmem hi
    rw [hid] at this
    simp only [asCast, this, Instruction.replaceUses_opcode, hop,
      Instruction.replaceUses_operands, hops, List.map_cons]
  have hnone : ∀ u, asCast fn u = none → (∃ i ∈ fn.insts, u = .inst i.id) →
      asCast fn' u = none := by
    rintro u hu ⟨i, hi, rfl⟩
    have hf := Function.find?_of_mem hwf.1 hi
    have := h.find?_old hwf hmem hi
    simp only [asCast, hf] at hu
    simp only [asCast, this, Instruction.replaceUses_opcode, Instruction.replaceUses_operands]
    rcases i with ⟨iid, opc, ty, ops⟩
    cases opc <;> cases ops <;> first | rfl | (simp at hu)
  clear hr
  induction p with
  | done h0 => exact CastPath.done (hnone _ h0 hrin)
  | @step v w r l h1 p' ih =>
    have hw : w ≠ .inst X.id := by
      intro e
      rw [e] at p'
      cases p' with
      | done _ => exact hrX rfl
      | step h2 _ => rw [hXnone] at h2; cases h2
    refine CastPath.step ?_ (ih hrin hrX)
    rw [hcast v w h1, substValue_ne hw]

/-! ## The signed pattern through the rewrites -/

theorem IsNew.ne_of_opcode {j : Nat} {arg0 arg1 : Value} {fn : Function} {X n : Instruction}
    {y : Nat} (hn : IsNew j arg0 arg1 fn X y n) (hwf : fn.WellFormed) (hX : X ∈ fn.insts)
    {i : Instruction} (hi : i ∈ fn.insts) (h1 : i.opcode ≠ .extractvalue [1])
    (h2 : i.opcode ≠ .binary .Xor) (h3 : i.opcode ≠ .icmp .ICMP_NE) :
    (Value.inst i.id) ≠ .inst X.id := by
  intro e
  have := Function.eq_of_id_eq hwf.1 hi hX (Value.inst.inj e)
  subst this
  rcases hn.opcode_old with h | h | h
  · exact h1 h
  · exact h2 h
  · exact h3 h

/-- The overflow flag of a `ssub_with_overflow` call is not what the unsigned rewrite
replaces. -/
theorem IsNew.ne_flag {j : Nat} {arg0 arg1 : Value} {fn : Function} {X n : Instruction}
    {y : Nat} (hn : IsNew j arg0 arg1 fn X y n) (hwf : fn.WellFormed) (hX : X ∈ fn.insts)
    {O S : Instruction} (hO : O ∈ fn.insts) (hOop : O.opcode = .extractvalue [1])
    (hOops : O.operands = [.inst S.id]) (hS : S ∈ fn.insts)
    (hSop : S.opcode = .call .ssub_with_overflow) :
    (Value.inst O.id) ≠ .inst X.id := by
  intro e
  have := Function.eq_of_id_eq hwf.1 hO hX (Value.inst.inj e)
  subst this
  rcases hn with ⟨_, hjm, ⟨call, hc, hcid, hcop⟩, _⟩ | ⟨_, _, L, R, sub, hx, _⟩
  · rw [hOops] at hjm
    simp only [List.mem_singleton] at hjm
    have hj := Value.inst.inj hjm
    have := Function.eq_of_id_eq hwf.1 hc hS (by rw [hcid, hj])
    rw [this, hSop] at hcop
    cases hcop
  · rcases O with ⟨eid, eopc, ety, eops⟩
    simp only at hOop
    subst hOop
    simp [matchXorOrICmpNE] at hx

theorem CastPath.asCast_of_mem {fn : Function} {v r u : Value} {l : List Value}
    (p : CastPath fn v l r) (hu : u ∈ l) : ∃ w, asCast fn u = some w := by
  induction p with
  | done _ => cases hu
  | @step v w r l h1 _ ih =>
    rcases List.mem_cons.mp hu with e | hm
    · exact ⟨w, e ▸ h1⟩
    · exact ih hm

/-- The start of a cast chain that ends at an instruction the rewrite does not replace is
not replaced either. -/
theorem IsNew.ne_head {j : Nat} {arg0 arg1 : Value} {fn : Function} {X n : Instruction}
    {y : Nat} (hn : IsNew j arg0 arg1 fn X y n) (hwf : fn.WellFormed) (hX : X ∈ fn.insts)
    {v r : Value} {l : List Value} (p : CastPath fn v l r) (hr : r ≠ .inst X.id) :
    v ≠ .inst X.id := by
  have hXnone : asCast fn (.inst X.id) = none :=
    asCast_of_not_cast (Function.find?_of_mem hwf.1 hX) (by
      intro op e
      rcases hn.opcode_old with e' | e' | e' <;> rw [e] at e' <;> cases e')
  rcases p.head with ⟨_, e⟩ | hm
  · rw [e]; exact hr
  · intro e
    obtain ⟨w, hw⟩ := p.asCast_of_mem hm
    rw [e, hXnone] at hw
    cases hw

theorem Step.signedInv {j : Nat} {arg0 arg1 : Value} {fn fn' : Function}
    (h : Step j arg0 arg1 fn fn') (hwf : fn.WellFormed) {sid oid rid sbid xid : Nat}
    {L R : Value} {lL lR : List Value} {n w : Nat} {ty : Ty}
    (hinv : SignedInv fn sid oid rid sbid xid L R lL lR n w ty) :
    SignedInv fn' sid oid rid sbid xid L R lL lR n w ty := by
  obtain ⟨X0, y, hX0, ⟨nw, hnw⟩, hmem⟩ := h.spec
  obtain ⟨S, hS, hSid, hSop, a, b, rest, hSops, hta, D, hD, hDid, hDop, rest', hDops⟩ :=
    hinv.ssub
  obtain ⟨O, hO, hOid, hOop, hOops⟩ := hinv.flag
  obtain ⟨B, hB, hBid, hBop, restB, hBops⟩ := hinv.shift
  obtain ⟨X, hX, hXid, hXty, hXop, restX, hXops⟩ := hinv.xor
  have hkeep : ∀ i ∈ fn.insts, i.replaceUses (.inst X0.id) (.inst y) ∈ fn'.insts :=
    fun i hi => (hmem _).mpr ⟨i, Or.inl hi, rfl⟩
  have hneS : (Value.inst sid) ≠ .inst X0.id :=
    hSid ▸ hnw.ne_of_opcode hwf hX0 hS (by rw [hSop]; intro e; cases e)
      (by rw [hSop]; intro e; cases e) (by rw [hSop]; intro e; cases e)
  have hneD : (Value.inst rid) ≠ .inst X0.id :=
    hDid ▸ hnw.ne_of_opcode hwf hX0 hD (by rw [hDop]; intro e; cases e)
      (by rw [hDop]; intro e; cases e) (by rw [hDop]; intro e; cases e)
  have hneB : (Value.inst sbid) ≠ .inst X0.id :=
    hBid ▸ hnw.ne_of_opcode hwf hX0 hB (by rw [hBop]; intro e; cases e)
      (by rw [hBop]; intro e; cases e) (by rw [hBop]; intro e; cases e)
  have hneO : (Value.inst oid) ≠ .inst X0.id :=
    hOid ▸ hnw.ne_flag hwf hX0 hO hOop (by rw [hOops, hSid]) hS hSop
  have hneL : L ≠ .inst X0.id := hnw.ne_head hwf hX0 hinv.pathL hneO
  have hneR : R ≠ .inst X0.id := hnw.ne_head hwf hX0 hinv.pathR hneB
  refine ⟨h.borrowTyped hinv.typed, ?_, ?_, ?_, ?_, ?_, ?_⟩
  · refine ⟨_, hkeep S hS, hSid, hSop, _, _, _, by
      rw [Instruction.replaceUses_operands, hSops]; rfl,
      h.type hwf hinv.typed hmem hX0 ⟨nw, hnw⟩ hta, _, hkeep D hD, hDid, hDop,
      rest'.map (substValue (.inst X0.id) (.inst y)), ?_⟩
    rcases hDops with e | e
    · exact Or.inl (by rw [Instruction.replaceUses_operands, e]; rfl)
    · exact Or.inr (by rw [Instruction.replaceUses_operands, e]; rfl)
  · refine ⟨_, hkeep O hO, hOid, hOop, ?_⟩
    rw [Instruction.replaceUses_operands, hOops]
    simp only [List.map_cons, List.map_nil, substValue_ne hneS]
  · refine ⟨_, hkeep B hB, hBid, hBop, restB.map (substValue (.inst X0.id) (.inst y)), ?_⟩
    rw [Instruction.replaceUses_operands, hBops]
    simp only [List.map_cons, substValue_ne hneD]
    rw [substValue_ne (by intro e; cases e)]
  · exact h.castPath hwf hinv.pathL ⟨O, hO, by rw [hOid]⟩ (fun X' n' y' hX' hn' =>
      hOid ▸ hn'.ne_flag hwf hX' hO hOop (by rw [hOops, hSid]) hS hSop)
  · exact h.castPath hwf hinv.pathR ⟨B, hB, by rw [hBid]⟩ (fun X' n' y' hX' hn' =>
      hBid ▸ hn'.ne_of_opcode hwf hX' hB (by rw [hBop]; intro e; cases e)
        (by rw [hBop]; intro e; cases e) (by rw [hBop]; intro e; cases e))
  · refine ⟨_, hkeep X hX, hXid, hXty, hXop, restX.map (substValue (.inst X0.id) (.inst y)), ?_⟩
    rcases hXops with e | e
    · refine Or.inl ?_
      rw [Instruction.replaceUses_operands, e]
      simp only [List.map_cons, substValue_ne hneL, substValue_ne hneR]
    · refine Or.inr ?_
      rw [Instruction.replaceUses_operands, e]
      simp only [List.map_cons, substValue_ne hneL, substValue_ne hneR]

theorem shiftBitness_pred {n : Nat} (h0 : 0 < n) (h1 : n < 2 ^ 32) :
    shiftBitness (n - 1) = n := by
  have e32 : (2 : Nat) ^ 32 = 4294967296 := by norm_num
  have e64 : (2 : Nat) ^ 64 = 18446744073709551616 := by norm_num
  unfold shiftBitness
  rw [e32] at h1 ⊢
  rw [e64]
  rw [if_pos (by omega)]
  omega

theorem isSameLowerBits_self {fn : Function} (hwf : fn.WellFormed) (a : Value) :
    isSameLowerBits fn a a = some true := by
  obtain ⟨a', ha⟩ := hwf.terminates a
  rw [isSameLowerBits_of_resolved ha ha]
  simp

/-- On the signed pattern `matchOverflowSignFlag` returns the two arguments of the
`ssub_with_overflow` call and their width, for both orders of the sides. -/
theorem SignedInv.matches {fn : Function} (hwf : fn.WellFormed) {sid oid rid sbid xid : Nat}
    {L R : Value} {lL lR : List Value} {n w : Nat} {ty : Ty}
    (hinv : SignedInv fn sid oid rid sbid xid L R lL lR n w ty)
    (h0 : 0 < n) (h1 : n < 2 ^ 32) :
    ∃ S ∈ fn.insts, S.id = sid ∧ ∃ a b rest, S.operands = a :: b :: rest ∧
      matchOverflowSignFlag fn L R = some (some ⟨a, b, n⟩) ∧
      matchOverflowSignFlag fn R L = some (some ⟨a, b, n⟩) := by
  obtain ⟨S, hS, hSid, hSop, a, b, rest, hSops, hta, D, hD, hDid, hDop, rest', hDops⟩ :=
    hinv.ssub
  obtain ⟨O, hO, hOid, hOop, hOops⟩ := hinv.flag
  obtain ⟨B, hB, hBid, hBop, restB, hBops⟩ := hinv.shift
  have hfS := Function.find?_of_mem hwf.1 hS
  have hfD := Function.find?_of_mem hwf.1 hD
  have hfO := Function.find?_of_mem hwf.1 hO
  have hfB := Function.find?_of_mem hwf.1 hB
  rw [hSid] at hfS
  rw [hDid] at hfD
  rw [hOid] at hfO
  rw [hBid] at hfB
  have hL : getOriginalValue fn L = some (.inst oid) :=
    getOriginalValue_eq_some.mpr ⟨lL, hinv.pathL⟩
  have hR : getOriginalValue fn R = some (.inst sbid) :=
    getOriginalValue_eq_some.mpr ⟨lR, hinv.pathR⟩
  have hparts : overflowFlagParts fn (.inst oid) = some (a, b, n) := by
    simp [overflowFlagParts, hfO, hOop, hOops, hfS, hSop, hSops, Value.integerBitWidth, hta,
      Ty.getIntegerBitWidth]
  have hAnd : matchBinOp fn .And (.inst sbid) = none := by
    simp [matchBinOp, hfB, hBop, hBops]
  have hShr : matchBinOp fn .LShr (.inst sbid) = some (.inst rid, .const (.int w (n - 1))) := by
    simp [matchBinOp, hfB, hBop, hBops]
  have e1 : matchOverflowFlag fn L none = some (true, some ⟨a, b, n⟩) := by
    simp [matchOverflowFlag, hL, hparts, isSameSub]
  have hSO : signFlagOriginal fn R = some (.inst sbid) := by
    simp [signFlagOriginal, hR, hAnd]
  have hsame : ∀ p q, ((p = a ∧ q = b) ∨ (p = b ∧ q = a)) →
      Subtraction.isSame fn ⟨a, b, n⟩ p q (shiftBitness (n - 1)) = some true := by
    intro p q hpq
    obtain ⟨a', ha⟩ := hwf.terminates a
    obtain ⟨b', hb⟩ := hwf.terminates b
    simp only [Subtraction.isSame, shiftBitness_pred h0 h1, if_true]
    rcases hpq with ⟨rfl, rfl⟩ | ⟨rfl, rfl⟩
    · simp [isSameLowerBits_self hwf, andThen, orElse]
    · rw [isSameLowerBits_self hwf, isSameLowerBits_self hwf,
        isSameLowerBits_of_resolved ha hb, isSameLowerBits_of_resolved hb ha]
      by_cases e : a' = b' <;> simp [andThen, orElse, e, eq_comm]
  have e2 : matchSignFlag fn R (some ⟨a, b, n⟩) = some (true, some ⟨a, b, n⟩) := by
    rcases hDops with e | e
    · have hSub : matchBinOp fn .Sub (.inst rid) = some (a, b) := by
        simp [matchBinOp, hfD, hDop, e]
      simp [matchSignFlag, hSO, matchShiftedSub, hShr, hSub, isSameSub,
        hsame a b (Or.inl ⟨rfl, rfl⟩)]
    · have hSub : matchBinOp fn .Sub (.inst rid) = some (b, a) := by
        simp [matchBinOp, hfD, hDop, e]
      simp [matchSignFlag, hSO, matchShiftedSub, hShr, hSub, isSameSub,
        hsame b a (Or.inr ⟨rfl, rfl⟩)]
  have hm : matchOverflowSignFlag fn L R = some (some ⟨a, b, n⟩) := by
    simp [matchOverflowSignFlag, e1, e2]
  exact ⟨S, hS, hSid, a, b, rest, hSops, hm, by rw [matchOverflowSignFlag_comm]; exact hm⟩

theorem Step.signedDone {j : Nat} {arg0 arg1 : Value} {fn fn' : Function}
    (h : Step j arg0 arg1 fn fn') (hwf : fn.WellFormed) {sid xid z : Nat} {ty : Ty}
    {ids0 : List Nat} (hx : xid < fn.freshId)
    (h0 : arg0 ≠ .inst xid) (h1 : arg1 ≠ .inst xid)
    (hd : SignedDone fn sid xid z ty ids0) : SignedDone fn' sid xid z ty ids0 := by
  refine ⟨?_, h.unused hx h0 h1 hd.unused⟩
  obtain ⟨X0, y, hX0, ⟨nw, hnw⟩, hmem⟩ := h.spec
  obtain ⟨Z, hZ, hZid, hZop, hZty, hz0, K, hK, hZops, hK0, hKop, S, hS, hSid, hKS⟩ := hd.zext
  have hkeep : ∀ i ∈ fn.insts, i.replaceUses (.inst X0.id) (.inst y) ∈ fn'.insts :=
    fun i hi => (hmem _).mpr ⟨i, Or.inl hi, rfl⟩
  have hneK : (Value.inst K.id) ≠ .inst X0.id :=
    hnw.ne_of_opcode hwf hX0 hK (by rw [hKop]; intro e; cases e)
      (by rw [hKop]; intro e; cases e) (by rw [hKop]; intro e; cases e)
  refine ⟨_, hkeep Z hZ, hZid, hZop, hZty, hz0, _, hkeep K hK, ?_, hK0, hKop, _, hkeep S hS,
    hSid, ?_⟩
  · rw [Instruction.replaceUses_operands, hZops]
    simp only [List.map_cons, List.map_nil, substValue_ne hneK, Instruction.replaceUses_id]
  · rw [Instruction.replaceUses_operands, Instruction.replaceUses_operands, hKS, List.map_take]

theorem Step.slot_zext {j : Nat} {arg0 arg1 : Value} {fn fn' : Function}
    (h : Step j arg0 arg1 fn fn') (hwf : fn.WellFormed) {sid xid z : Nat} {ty : Ty}
    {ids0 : List Nat} (hd : SignedDone fn sid xid z ty ids0) {u k : Nat}
    (hs : Slot fn u k (.inst z)) : Slot fn' u k (.inst z) := by
  obtain ⟨Z, hZ, hZid, hZop, _⟩ := hd.zext
  exact h.slot_of_has hwf hs ⟨Z, hZ, hZid, hZop⟩ (by intro e; cases e) (by intro e; cases e)
    (by intro e; cases e)

/-- While another instruction than the `xor` is visited, the uses of the `xor` stay. -/
theorem Step.slot_xor {j : Nat} {arg0 arg1 : Value} {fn fn' : Function}
    (h : Step j arg0 arg1 fn fn') (hwf : fn.WellFormed) {xid : Nat} {X : Instruction}
    (hX : X ∈ fn.insts) (hXid : X.id = xid)
    (hXop : X.opcode = .binary .Xor ∨ X.opcode = .icmp .ICMP_NE) (hj : j ≠ xid) {u k : Nat}
    (hs : Slot fn u k (.inst xid)) : Slot fn' u k (.inst xid) := by
  apply h.slot hs
  intro X0 n y hX0 hn hv
  have := Function.eq_of_id_eq hwf.1 hX hX0 (by rw [hXid]; exact Value.inst.inj hv)
  subst this
  rcases hn.trigger with e | ⟨e, _⟩
  · exact hj (e.symm.trans hXid)
  · rcases hXop with e' | e' <;> rw [e] at e' <;> cases e'

/-- The signed rewrite: every use of the `xor` now refers to the new `zext` of the new
`icmp slt` on the two arguments of the call. -/
theorem fuse_done {fn : Function} {sid xid : Nat} {ids0 : List Nat}
    (hids : ∀ id ∈ ids0, id ∈ fn.insts.map Instruction.id)
    {X S : Instruction} (hX : X ∈ fn.insts) (hXid : X.id = xid)
    (hS : S ∈ fn.insts) (hSid : S.id = sid) {a b : Value} {rest : List Value}
    (hSops : S.operands = a :: b :: rest) (n : Nat) :
    SignedDone (fuse fn X ⟨a, b, n⟩) sid xid (fn.freshId + 1) X.type ids0 ∧
    ∀ u k, Slot fn u k (.inst xid) → Slot (fuse fn X ⟨a, b, n⟩) u k (.inst (fn.freshId + 1)) := by
  have hxlt : xid < fn.freshId := hXid ▸ Function.id_lt_freshId hX
  have hne : (Value.inst fn.freshId) ≠ .inst X.id := by
    intro e
    have := Value.inst.inj e
    omega
  refine ⟨⟨?_, ?_⟩, ?_⟩
  · refine ⟨_, (mem_fuse hX).mpr ⟨newZExt fn X.type, Or.inr (Or.inr rfl), rfl⟩, rfl, rfl, rfl,
      fun hm => Function.freshId_not_mem (Nat.le_succ _) (hids _ hm),
      _, (mem_fuse hX).mpr ⟨newICmpSLT fn ⟨a, b, n⟩, Or.inr (Or.inl rfl), rfl⟩, ?_,
      fun hm => Function.freshId_not_mem (le_refl _) (hids _ hm), rfl,
      _, (mem_fuse hX).mpr ⟨S, Or.inl hS, rfl⟩, hSid, ?_⟩
    · rw [Instruction.replaceUses_operands]
      simp only [newZExt, List.map_cons, List.map_nil, substValue_ne hne,
        Instruction.replaceUses_id, newICmpSLT]
    · rw [Instruction.replaceUses_operands, Instruction.replaceUses_operands, hSops]
      rfl
  · intro i' hi' hm
    obtain ⟨i, _, rfl⟩ := (mem_fuse hX).mp hi'
    rw [Instruction.replaceUses_operands, hXid] at hm
    obtain ⟨v, _, hvb⟩ := List.mem_map.mp hm
    have hv := substValue_eq_old_inst (show xid < fn.freshId + 1 by omega) hvb
    rw [hv, substValue_self] at hvb
    have := Value.inst.inj hvb
    omega
  · rintro u k ⟨i, hi, hid, hik⟩
    refine ⟨_, (mem_fuse hX).mpr ⟨i, Or.inl hi, rfl⟩, hid, ?_⟩
    rw [Instruction.replaceUses_operands, List.getElem?_map, hik, Option.map_some', hXid,
      substValue_self]

/-! ## The three phases of a run on the signed pattern -/

theorem runOnInsts_signedPre {sid oid rid sbid xid : Nat} {L R : Value} {lL lR : List Value}
    {n w : Nat} {ty : Ty} {ids0 : List Nat} {slots : Nat → Nat → Prop} {js : List Nat}
    (hx : xid ∉ js) {fn fn' : Function} (hwf : fn.WellFormed)
    (hpre : SignedPre fn sid oid rid sbid xid L R lL lR n w ty ids0 slots)
    (h : runOnInsts fn js = some fn') :
    SignedPre fn' sid oid rid sbid xid L R lL lR n w ty ids0 slots := by
  refine runOnInsts_induction
    (fun f => SignedPre f sid oid rid sbid xid L R lL lR n w ty ids0 slots) (fun _ _ => True) js
    (fun _ _ _ _ _ _ _ _ => trivial) ?_ fn fn' hwf hpre h
  intro j arg0 arg1 f f' hj _ hP hwff hst
  have hjx : j ≠ xid := fun e => hx (e ▸ hj)
  obtain ⟨X, hX, hXid, _, hXop, _⟩ := hP.inv.xor
  exact ⟨hst.signedInv hwff hP.inv, hst.ids hP.ids,
    fun u k hs => hst.slot_xor hwff hX hXid hXop hjx (hP.slots u k hs)⟩

theorem runOnInsts_signedPost {sid oid rid sbid xid z : Nat} {L R : Value}
    {lL lR : List Value} {n w : Nat} {ty : Ty} {ids0 : List Nat} {slots : Nat → Nat → Prop}
    (js : List Nat) {fn fn' : Function} (hwf : fn.WellFormed)
    (hpost : SignedPost fn sid oid rid sbid xid z L R lL lR n w ty ids0 slots)
    (h : runOnInsts fn js = some fn') :
    SignedPost fn' sid oid rid sbid xid z L R lL lR n w ty ids0 slots := by
  refine runOnInsts_induction
    (fun f => SignedPost f sid oid rid sbid xid z L R lL lR n w ty ids0 slots)
    (fun arg0 arg1 => arg0 ≠ .inst xid ∧ arg1 ≠ .inst xid) js ?_ ?_ fn fn' hwf hpost h
  · intro f inst arg0 arg1 hP _ hI hm
    rcases hm with hm | ⟨_, e0, e1⟩
    · obtain ⟨_, rest, hops⟩ := matchUSubWithOverflow_opcode hm
      constructor
      · intro e
        exact hP.done.unused inst hI (by rw [hops, e]; simp)
      · intro e
        exact hP.done.unused inst hI (by rw [hops, e]; simp)
    · subst e0 e1
      exact ⟨(fun e => by cases e), (fun e => by cases e)⟩
  · intro j arg0 arg1 f f' _ hS hP hwff hst
    obtain ⟨X, hX, hXid, _⟩ := hP.inv.xor
    have hxlt : xid < f.freshId := hXid ▸ Function.id_lt_freshId hX
    exact ⟨hst.signedInv hwff hP.inv, hst.ids hP.ids,
      hst.signedDone hwff hxlt hS.1 hS.2 hP.done,
      fun u k hs => hst.slot_zext hwff hP.done (hP.slots u k hs)⟩

/-- The visit of the `xor` takes the state before the rewrite to the state after it. -/
theorem visit_signed {sid oid rid sbid xid : Nat} {L R : Value} {lL lR : List Value}
    {n w : Nat} {ty : Ty} {ids0 : List Nat} {slots : Nat → Nat → Prop} {fn : Function}
    (hwf : fn.WellFormed)
    (hpre : SignedPre fn sid oid rid sbid xid L R lL lR n w ty ids0 slots)
    (h0 : 0 < n) (h1 : n < 2 ^ 32) {X : Instruction} (hf : fn.find? xid = some X) :
    ∃ fn' z, visit fn X = some fn' ∧ fn'.WellFormed ∧
      SignedPost fn' sid oid rid sbid xid z L R lL lR n w ty ids0 slots := by
  obtain ⟨hX, hXid⟩ := Function.find?_eq_some hf
  obtain ⟨X', hX', hX'id, hX'ty, hX'op, restX, hX'ops⟩ := hpre.inv.xor
  have hXX : X' = X := Function.eq_of_id_eq hwf.1 hX' hX (by rw [hX'id, hXid])
  subst hXX
  obtain ⟨S, hS, hSid, a, b, rest, hSops, hm1, hm2⟩ := hpre.inv.matches hwf h0 h1
  have hstep : Step xid (.const (.int 0 0)) (.const (.int 0 0)) fn (fuse fn X' ⟨a, b, n⟩) := by
    rcases hX'ops with e | e
    · exact Step.fuse X' L R _ hX hXid (matchXorOrICmpNE_of_shape hX'op e) hm1
    · exact Step.fuse X' R L _ hX hXid (matchXorOrICmpNE_of_shape hX'op e) hm2
  have hv : visit fn X' = some (fuse fn X' ⟨a, b, n⟩) := by
    rcases hX'ops with e | e
    · have hx := matchXorOrICmpNE_of_shape hX'op e
      simp [visit, matchXorOrICmpNE_not_usub hx, hx, hm1]
    · have hx := matchXorOrICmpNE_of_shape hX'op e
      simp [visit, matchXorOrICmpNE_not_usub hx, hx, hm2]
  obtain ⟨hd, hs⟩ := fuse_done hpre.ids hX hXid hS hSid hSops n
  rw [hX'ty] at hd
  exact ⟨_, _, hv, hstep.wellFormed hwf, hstep.signedInv hwf hpre.inv, hstep.ids hpre.ids, hd,
    fun u k hsl => hs u k (hpre.slots u k hsl)⟩

/-- An instruction none of whose operands is an instruction keeps its operands through a
rewrite. -/
theorem Step.operands_kept {j : Nat} {arg0 arg1 : Value} {fn fn' : Function}
    (h : Step j arg0 arg1 fn fn') {id : Nat} {ops : List Value}
    (hops : ∀ v ∈ ops, ∀ k, v ≠ .inst k)
    (hi : ∃ i ∈ fn.insts, i.id = id ∧ i.operands = ops) :
    ∃ i ∈ fn'.insts, i.id = id ∧ i.operands = ops := by
  obtain ⟨X, y, _, _, hmem⟩ := h.spec
  obtain ⟨i, hi, hid, hio⟩ := hi
  refine ⟨_, (hmem _).mpr ⟨i, Or.inl hi, rfl⟩, hid, ?_⟩
  rw [Instruction.replaceUses_operands, hio]
  conv_rhs => rw [← List.map_id ops]
  exact List.map_congr_left (fun v hv => substValue_ne (hops v hv X.id))

theorem runOnInsts_operands_kept {fn fn' : Function} (hwf : fn.WellFormed) {js : List Nat}
    (h : runOnInsts fn js = some fn') {id : Nat} {ops : List Value}
    (hops : ∀ v ∈ ops, ∀ k, v ≠ .inst k)
    (hi : ∃ i ∈ fn.insts, i.id = id ∧ i.operands = ops) :
    ∃ i ∈ fn'.insts, i.id = id ∧ i.operands = ops :=
  runOnInsts_induction (fun f => ∃ i ∈ f.insts, i.id = id ∧ i.operands = ops)
    (fun _ _ => True) js (fun _ _ _ _ _ _ _ _ => trivial)
    (fun _ _ _ _ _ _ _ hP _ hst => hst.operands_kept hops hP) fn fn' hwf hi h

/-- C1 (counterexample): when the sign bit is shifted out of `r = extractvalue(s, 0)`, the
arithmetic result of the intrinsic, the run on the block changes nothing, at each of the
widths 8, 16, 32 and 64 and in either operand order (at width 32 also with the sign bit
not truncated to `i1`): the function, with the `xor` `%6` and its user `%7`, is returned
as it was. -/
theorem arith_result_not_fused :
    runOnBasicBlock (arithResultFn 8 (.inst 2) (.inst 5)) 0 =
      some (false, arithResultFn 8 (.inst 2) (.inst 5)) ∧
    runOnBasicBlock (arithResultFn 8 (.inst 5) (.inst 2)) 0 =
      some (false, arithResultFn 8 (.inst 5) (.inst 2)) ∧
    runOnBasicBlock (arithResultFn 16 (.inst 2) (.inst 5)) 0 =
      some (false, arithResultFn 16 (.inst 2) (.inst 5)) ∧
    runOnBasicBlock (arithResultFn 16 (.inst 5) (.inst 2)) 0 =
      some (false, arithResultFn 16 (.inst 5) (.inst 2)) ∧
    runOnBasicBlock (arithResultFn 32 (.inst 2) (.inst 5)) 0 =
      some (false, arithResultFn 32 (.inst 2) (.inst 5)) ∧
    runOnBasicBlock (arithResultFn 32 (.inst 5) (.inst 2)) 0 =
      some (false, arithResultFn 32 (.inst 5) (.inst 2)) ∧
    runOnBasicBlock (arithResultFn 64 (.inst 2) (.inst 5)) 0 =
      some (false, arithResultFn 64 (.inst 2) (.inst 5)) ∧
    runOnBasicBlock (arithResultFn 64 (.inst 5) (.inst 2)) 0 =
      some (false, arithResultFn 64 (.inst 5) (.inst 2)) ∧
    runOnBasicBlock (arithResultFn 32 (.inst 2) (.inst 4)) 0 =
      some (false, arithResultFn 32 (.inst 2) (.inst 4)) ∧
    runOnBasicBlock (arithResultFn 32 (.inst 4) (.inst 2)) 0 =
      some (false, arithResultFn 32 (.inst 4) (.inst 2)) := by
  decide

/-- C1 (amended): in a well-formed function with typed borrow flags let
`s = ssub_with_overflow(a, b)` with `a` of type `i<n>`, `0 < n < 2^32`,
`o = extractvalue(s, 1)`, `d` a separate `sub(a, b)` or `sub(b, a)` instruction,
`signbit = lshr(d, n - 1)`, and let `x`, in block `bb`, be an `xor` or `icmp ne` whose two
operands, in either order, reach `o` and `signbit` through casts.  One run of
`runOnBasicBlock` on `bb` returns, and afterwards every former use of `x` refers to a
`zext` `z`, of the type of `x`, of an `icmp slt` `k` on the two arguments of `s` (which
are `a` and `b` themselves when these are no instructions), both created by the run, and
no instruction uses `x`. -/
theorem signed_pattern (fn : Function) (hwf : fn.WellFormed) (hty : BorrowTyped fn)
    (bb n w : Nat) (s o d signbit x : Instruction) (a b L R : Value)
    (h0 : 0 < n) (h1 : n < 2 ^ 32)
    (hs : s ∈ fn.insts) (hsop : s.opcode = .call .ssub_with_overflow)
    (hsops : s.operands = [a, b]) (hta : a.type fn = some (.int n))
    (ho : o ∈ fn.insts) (hoop : o.opcode = .extractvalue [1])
    (hoops : o.operands = [.inst s.id])
    (hd : d ∈ fn.insts) (hdop : d.opcode = .binary .Sub)
    (hdops : d.operands = [a, b] ∨ d.operands = [b, a])
    (hb : signbit ∈ fn.insts) (hbop : signbit.opcode = .binary .LShr)
    (hbops : signbit.operands = [.inst d.id, .const (.int w (n - 1))])
    (hL : getOriginalValue fn L = some (.inst o.id))
    (hR : getOriginalValue fn R = some (.inst signbit.id))
    (hx : x ∈ fn.blockInsts bb)
    (hxop : x.opcode = .binary .Xor ∨ x.opcode = .icmp .ICMP_NE)
    (hxops : x.operands = [L, R] ∨ x.operands = [R, L]) :
    ∃ fn', runOnBasicBlock fn bb = some (false, fn') ∧
      (∃ z ∈ fn'.insts, ∃ k ∈ fn'.insts, ∃ s' ∈ fn'.insts,
        z.id ∉ fn.insts.map Instruction.id ∧ k.id ∉ fn.insts.map Instruction.id ∧
        z.opcode = .cast .ZExt ∧ z.type = x.type ∧ z.operands = [.inst k.id] ∧
        k.opcode = .icmp .ICMP_SLT ∧ s'.id = s.id ∧ k.operands = s'.operands.take 2 ∧
        ((∀ j, a ≠ .inst j) → (∀ j, b ≠ .inst j) → k.operands = [a, b]) ∧
        ∀ u ∈ fn.insts, ∀ i, u.operands[i]? = some (.inst x.id) →
          Slot fn' u.id i (.inst z.id)) ∧
      Unused fn' (.inst x.id) := by
  obtain ⟨fn', hrun, hwf'⟩ := runOnBasicBlock_total hwf bb
  refine ⟨fn', hrun, ?_⟩
  rw [runOnBasicBlock_eq] at hrun
  have hrun' : runOnInsts fn ((fn.blockInsts bb).map Instruction.id) = some fn' := by
    cases hr : runOnInsts fn ((fn.blockInsts bb).map Instruction.id) with
    | none => rw [hr] at hrun; cases hrun
    | some f =>
      rw [hr] at hrun
      simp only [Option.map_some', Option.some.injEq, Prod.mk.injEq, true_and] at hrun
      rw [hrun]
  have hxin : x ∈ fn.insts := (fn.blockInsts_sublist bb).subset hx
  obtain ⟨lL, hpL⟩ := getOriginalValue_eq_some.mp hL
  obtain ⟨lR, hpR⟩ := getOriginalValue_eq_some.mp hR
  obtain ⟨pre, post, hdec⟩ := List.append_of_mem hx
  have hnd := Function.blockInsts_nodup hwf.1 bb
  rw [hdec] at hnd
  have hxpre : x.id ∉ pre.map Instruction.id := by
    intro hm
    simp only [List.map_append, List.map_cons] at hnd
    exact (List.nodup_append.mp hnd).2.2 hm (by simp)
  rw [hdec, List.map_append, List.map_cons, runOnInsts_append] at hrun'
  cases hr1 : runOnInsts fn (pre.map Instruction.id) with
  | none => rw [hr1] at hrun'; cases hrun'
  | some fn1 =>
    rw [hr1, Option.some_bind] at hrun'
    have hpre : SignedPre fn s.id o.id d.id signbit.id x.id L R lL lR n w x.type
        (fn.insts.map Instruction.id) (fun u i => Slot fn u i (.inst x.id)) := by
      refine ⟨⟨hty, ⟨s, hs, rfl, hsop, a, b, [], hsops, hta, d, hd, rfl, hdop, [], hdops⟩,
        ⟨o, ho, rfl, hoop, hoops⟩, ⟨signbit, hb, rfl, hbop, [], hbops⟩, hpL, hpR,
        ⟨x, hxin, rfl, rfl, hxop, [], hxops⟩⟩, fun _ h => h, fun _ _ h => h⟩
    have hwf1 := runOnInsts_wellFormed hwf hr1
    have hpre1 := runOnInsts_signedPre hxpre hwf hpre hr1
    obtain ⟨X1, hX1, hX1id, _⟩ := hpre1.inv.xor
    have hf1 := Function.find?_of_mem hwf1.1 hX1
    rw [hX1id] at hf1
    rw [runOnInsts_cons_some _ hf1] at hrun'
    obtain ⟨fn2, zid, hv, hwf2, hpost2⟩ := visit_signed hwf1 hpre1 h0 h1 hf1
    rw [hv, Option.some_bind] at hrun'
    have hpost := runOnInsts_signedPost _ hwf2 hpost2 hrun'
    obtain ⟨Z, hZ, hZid, hZop, hZty, hZnew, K, hK, hZops, hKnew, hKop, S', hS', hS'id, hKS⟩ :=
      hpost.done.zext
    refine ⟨⟨Z, hZ, K, hK, S', hS', hZid ▸ hZnew, hKnew, hZop, hZty, hZops, hKop, hS'id, hKS,
      ?_, ?_⟩, hpost.done.unused⟩
    · intro ha hb'
      have hall : ∀ v ∈ [a, b], ∀ j, v ≠ .inst j := by
        intro v hv
        simp only [List.mem_cons, List.mem_singleton, List.not_mem_nil, or_false] at hv
        rcases hv with e | e
        · exact e ▸ ha
        · exact e ▸ hb'
      have hrunAll : runOnInsts fn ((fn.blockInsts bb).map Instruction.id) = some fn' := by
        rw [hdec, List.map_append, List.map_cons, runOnInsts_append, hr1, Option.some_bind,
          runOnInsts_cons_some _ hf1, hv, Option.some_bind, hrun']
      obtain ⟨S2, hS2, hS2id, hS2ops⟩ :=
        runOnInsts_operands_kept hwf hrunAll hall ⟨s, hs, rfl, hsops⟩
      have : S' = S2 := Function.eq_of_id_eq hwf'.1 hS' hS2 (by rw [hS'id, hS2id])
      rw [hKS, this, hS2ops]
      rfl
    · intro u hu i hui
      rw [hZid]
      exact hpost.slots u.id i ⟨u, hu, rfl, hui⟩

theorem signed_pattern_witness :
    ∃ fn', runOnBasicBlock signedFn 0 = some (false, fn') ∧
      (∃ z ∈ fn'.insts, ∃ k ∈ fn'.insts, ∃ s' ∈ fn'.insts,
        z.id ∉ signedFn.insts.map Instruction.id ∧ k.id ∉ signedFn.insts.map Instruction.id ∧
        z.opcode = .cast .ZExt ∧ z.type = .int 1 ∧ z.operands = [.inst k.id] ∧
        k.opcode = .icmp .ICMP_SLT ∧ s'.id = 1 ∧ k.operands = s'.operands.take 2 ∧
        ((∀ j, Value.arg 0 (.int 32) ≠ .inst j) → (∀ j, Value.arg 1 (.int 32) ≠ .inst j) →
          k.operands = [.arg 0 (.int 32), .arg 1 (.int 32)]) ∧
        ∀ u ∈ signedFn.insts, ∀ i, u.operands[i]? = some (.inst 6) →
          Slot fn' u.id i (.inst z.id)) ∧
      Unused fn' (.inst 6) :=
  signed_pattern signedFn (by decide) (by decide) 0 32 32
    ⟨1, .call .ssub_with_overflow, .other 0, [.arg 0 (.int 32), .arg 1 (.int 32)]⟩
    ⟨2, .extractvalue [1], .int 1, [.inst 1]⟩
    ⟨3, .binary .Sub, .int 32, [.arg 0 (.int 32), .arg 1 (.int 32)]⟩
    ⟨4, .binary .LShr, .int 32, [.inst 3, .const (.int 32 31)]⟩
    ⟨6, .binary .Xor, .int 1, [.inst 2, .inst 5]⟩
    (.arg 0 (.int 32)) (.arg 1 (.int 32)) (.inst 2) (.inst 5)
    (by decide) (by decide) (by decide) rfl rfl rfl (by decide) rfl rfl (by decide) rfl
    (Or.inl rfl) (by decide) rfl rfl (by decide) (by decide) (by decide) (Or.inl rfl)
    (Or.inl rfl)

/-! ## The number of instructions through the rewrites -/

theorem length_insertBeforeIn_le (pos : Nat) (new : Instruction) (l : List Instruction) :
    l.length ≤ (insertBeforeIn pos new l).length := by
  induction l with
  | nil => exact Nat.le_refl _
  | cons a t ih =>
    simp only [insertBeforeIn]
    split
    · simp only [List.length_cons]
      omega
    · simp only [List.length_cons]
      omega

theorem length_insertBeforeIn_lt {pos : Nat} (new : Instruction) {l : List Instruction}
    (h : pos ∈ l.map Instruction.id) : l.length < (insertBeforeIn pos new l).length := by
  induction l with
  | nil => simp at h
  | cons a t ih =>
    simp only [insertBeforeIn]
    split
    · simp only [List.length_cons]
      omega
    · next hne =>
      simp only [List.map_cons, List.mem_cons] at h
      rcases h with h | h
      · exact absurd h.symm hne
      · have := ih h
        simp only [List.length_cons]
        omega

theorem Function.insts_cons (b : BasicBlock) (bs : List BasicBlock) :
    (Function.mk (b :: bs)).insts = b.insts ++ (Function.mk bs).insts := by
  simp [Function.insts]

theorem length_insertBefore_blocks_le (pos : Nat) (new : Instruction) (bs : List BasicBlock) :
    (Function.mk bs).insts.length ≤ ((Function.mk bs).insertBefore pos new).insts.length := by
  induction bs with
  | nil => exact Nat.le_refl _
  | cons b t ih =>
    have h1 := length_insertBeforeIn_le pos new b.insts
    simp only [Function.insertBefore, List.map_cons, Function.insts_cons,
      List.length_append] at ih ⊢
    omega

theorem length_insertBefore_blocks_lt {pos : Nat} (new : Instruction) (bs : List BasicBlock)
    (h : pos ∈ (Function.mk bs).insts.map Instruction.id) :
    (Function.mk bs).insts.length < ((Function.mk bs).insertBefore pos new).insts.length := by
  induction bs with
  | nil => simp [Function.insts] at h
  | cons b t ih =>
    have h1 := length_insertBeforeIn_le pos new b.insts
    have h2 := length_insertBefore_blocks_le pos new t
    rw [Function.insts_cons, List.map_append, List.mem_append] at h
    simp only [Function.insertBefore, List.map_cons, Function.insts_cons,
      List.length_append] at ih h2 ⊢
    rcases h with h | h
    · have := length_insertBeforeIn_lt new h
      omega
    · have := ih h
      omega

theorem Function.length_insertBefore_le (fn : Function) (pos : Nat) (new : Instruction) :
    fn.insts.length ≤ (fn.insertBefore pos new).insts.length :=
  length_insertBefore_blocks_le pos new fn.blocks

theorem Function.length_insertBefore_lt (fn : Function) {pos : Nat} (new : Instruction)
    (h : pos ∈ fn.insts.map Instruction.id) :
    fn.insts.length < (fn.insertBefore pos new).insts.length :=
  length_insertBefore_blocks_lt new fn.blocks h

theorem Function.length_replaceAllUsesWith (fn : Function) (old new : Value) :
    (fn.replaceAllUsesWith old new).insts.length = fn.insts.length := by
  rw [Function.insts_replaceAllUsesWith, List.length_map]

theorem length_replaceBorrow_le (j : Nat) (arg0 arg1 : Value) (fn : Function)
    (user : Instruction) : fn.insts.length ≤ (replaceBorrow j arg0 arg1 fn user).insts.length := by
  unfold replaceBorrow
  split
  · split
    · rw [Function.length_replaceAllUsesWith]
      exact fn.length_insertBefore_le _ _
    · exact Nat.le_refl _
  · exact Nat.le_refl _

theorem length_replaceBorrow_lt {j : Nat} (arg0 arg1 : Value) {fn : Function}
    {user : Instruction} (hu : user.opcode = .extractvalue [1])
    (hj : j ∈ fn.insts.map Instruction.id) :
    fn.insts.length < (replaceBorrow j arg0 arg1 fn user).insts.length := by
  unfold replaceBorrow
  rw [hu]
  simp only [if_true]
  rw [Function.length_replaceAllUsesWith]
  exact fn.length_insertBefore_lt _ hj

theorem ids_replaceBorrow {j : Nat} (arg0 arg1 : Value) {fn : Function} (user : Instruction)
    {id : Nat} (hj : id ∈ fn.insts.map Instruction.id) :
    id ∈ (replaceBorrow j arg0 arg1 fn user).insts.map Instruction.id := by
  unfold replaceBorrow
  split
  · split
    · obtain ⟨i, hi, rfl⟩ := List.mem_map.mp hj
      exact List.mem_map.mpr ⟨i.replaceUses _ _, Function.mem_replaceAllUsesWith.mpr
        ⟨i, Function.mem_insertBefore.mpr (Or.inl hi), rfl⟩, rfl⟩
    · exact hj
  · exact hj

theorem foldl_replaceBorrow_length_le {j : Nat} {arg0 arg1 : Value}
    (users : List Instruction) :
    ∀ fn : Function,
      fn.insts.length ≤ (users.foldl (replaceBorrow j arg0 arg1) fn).insts.length := by
  induction users with
  | nil => intro fn; exact Nat.le_refl _
  | cons u t ih =>
    intro fn
    simp only [List.foldl_cons]
    exact Nat.le_trans (length_replaceBorrow_le j arg0 arg1 fn u) (ih _)

theorem foldl_replaceBorrow_length_lt {j : Nat} {arg0 arg1 : Value}
    (users : List Instruction) :
    ∀ fn : Function, j ∈ fn.insts.map Instruction.id →
      (∃ u ∈ users, u.opcode = .extractvalue [1]) →
      fn.insts.length < (users.foldl (replaceBorrow j arg0 arg1) fn).insts.length := by
  induction users with
  | nil => intro fn _ h; simp at h
  | cons u t ih =>
    intro fn hj h
    simp only [List.foldl_cons]
    by_cases hu : u.opcode = .extractvalue [1]
    · exact Nat.lt_of_lt_of_le (length_replaceBorrow_lt arg0 arg1 hu hj)
        (foldl_replaceBorrow_length_le t _)
    · obtain ⟨u', hu', hop⟩ := h
      simp only [List.mem_cons] at hu'
      rcases hu' with e | hu'
      · exact absurd (e ▸ hop) hu
      · exact Nat.lt_of_le_of_lt (length_replaceBorrow_le j arg0 arg1 fn u)
          (ih _ (ids_replaceBorrow arg0 arg1 u hj) ⟨u', hu', hop⟩)

theorem length_fuse_le (fn : Function) (inst : Instruction) (sub : Subtraction) :
    fn.insts.length ≤ (fuse fn inst sub).insts.length := by
  unfold fuse
  rw [Function.length_replaceAllUsesWith]
  exact Nat.le_trans (fn.length_insertBefore_le _ _) (Function.length_insertBefore_le _ _ _)

/-- A visit removes no instruction. -/
theorem visit_length_le {fn fn' : Function} {inst : Instruction}
    (h : visit fn inst = some fn') : fn.insts.length ≤ fn'.insts.length := by
  unfold visit at h
  cases hu : matchUSubWithOverflow inst with
  | some p =>
    rw [hu] at h
    simp only [Option.some.injEq] at h
    rw [← h]
    exact foldl_replaceBorrow_length_le _ _
  | none =>
    rw [hu] at h
    cases hx : matchXorOrICmpNE inst with
    | none =>
      rw [hx] at h
      simp only [Option.some.injEq] at h
      rw [h]
    | some p =>
      obtain ⟨L, R⟩ := p
      rw [hx] at h
      simp only at h
      cases hm : matchOverflowSignFlag fn L R with
      | none => rw [hm] at h; cases h
      | some r =>
        rw [hm] at h
        simp only [Option.map_some', Option.some.injEq] at h
        rw [← h]
        cases r with
        | none => exact Nat.le_refl _
        | some sub => exact length_fuse_le _ _ _

theorem runOnInsts_length_le (js : List Nat) :
    ∀ fn fn' : Function, runOnInsts fn js = some fn' → fn.insts.length ≤ fn'.insts.length := by
  induction js with
  | nil =>
    intro fn fn' h
    simp only [runOnInsts, Option.some.injEq] at h
    rw [h]
  | cons j rest ih =>
    intro fn fn' h
    cases hf : fn.find? j with
    | none =>
      rw [runOnInsts_cons_none _ hf] at h
      exact ih _ _ h
    | some inst =>
      rw [runOnInsts_cons_some _ hf] at h
      cases hv : visit fn inst with
      | none => rw [hv] at h; cases h
      | some f1 =>
        rw [hv, Option.some_bind] at h
        exact Nat.le_trans (visit_length_le hv) (ih _ _ h)

theorem runOnBasicBlock_some {fn fn' : Function} {bb : Nat} {r : Bool}
    (h : runOnBasicBlock fn bb = some (r, fn')) :
    r = false ∧ runOnInsts fn ((fn.blockInsts bb).map Instruction.id) = some fn' := by
  rw [runOnBasicBlock_eq] at h
  cases hr : runOnInsts fn ((fn.blockInsts bb).map Instruction.id) with
  | none => rw [hr] at h; cases h
  | some f =>
    rw [hr] at h
    simp only [Option.map_some', Option.some.injEq, Prod.mk.injEq] at h
    exact ⟨h.1.symm, by rw [h.2]⟩

theorem runOnBasicBlock_wellFormed {fn fn' : Function} {bb : Nat} {r : Bool}
    (hwf : fn.WellFormed) (h : runOnBasicBlock fn bb = some (r, fn')) : fn'.WellFormed :=
  runOnInsts_wellFormed hwf (runOnBasicBlock_some h).2

theorem runOnBlocks_cons_some {fn fn' : Function} {bb : Nat} {rest : List Nat} {r r' : Bool}
    (h : runOnBlocks r fn (bb :: rest) = some (r', fn')) :
    ∃ f1, runOnBasicBlock fn bb = some (false, f1) ∧ runOnBlocks r f1 rest = some (r', fn') := by
  simp only [runOnBlocks] at h
  cases hb : runOnBasicBlock fn bb with
  | none => rw [hb] at h; cases h
  | some p =>
    obtain ⟨r1, f1⟩ := p
    rw [hb, Option.some_bind] at h
    have := (runOnBasicBlock_some hb).1
    subst this
    simp only [Bool.or_false] at h
    exact ⟨f1, rfl, h⟩

theorem runOnBlocks_length_le (bbs : List Nat) :
    ∀ (r r' : Bool) (fn fn' : Function), runOnBlocks r fn bbs = some (r', fn') →
      fn.insts.length ≤ fn'.insts.length := by
  induction bbs with
  | nil =>
    intro r r' fn fn' h
    simp only [runOnBlocks, Option.some.injEq, Prod.mk.injEq] at h
    rw [h.2]
  | cons bb rest ih =>
    intro r r' fn fn' h
    obtain ⟨f1, h1, h2⟩ := runOnBlocks_cons_some h
    exact Nat.le_trans (runOnInsts_length_le _ _ _ (runOnBasicBlock_some h1).2) (ih _ _ _ _ h2)

/-! ## The unsigned pattern through a run on the whole function -/

theorem Before.mem {fn : Function} {bb c : Nat} {cmp : Option Nat} {ids0 : List Nat}
    (h : Before fn bb c cmp ids0) : c ∈ (fn.blockInsts bb).map Instruction.id := by
  obtain ⟨l1, cs, l3, C, hbl, hC, _⟩ := h
  rw [hbl]
  exact List.mem_map.mpr ⟨C, by simp, hC⟩

theorem Function.blockInsts_lt {fn : Function} {bb : Nat} {i : Instruction}
    (h : i ∈ fn.blockInsts bb) : bb < fn.blocks.length := by
  by_contra hlt
  have : fn.blocks[bb]? = none := List.getElem?_eq_none (Nat.le_of_not_lt hlt)
  simp [Function.blockInsts, this] at h

theorem runOnInsts_cons_visit {fn fn' : Function} {j : Nat} {rest : List Nat}
    {inst : Instruction} (hf : fn.find? j = some inst)
    (h : runOnInsts fn (j :: rest) = some fn') :
    ∃ f1, visit fn inst = some f1 ∧ runOnInsts fn [j] = some f1 ∧
      runOnInsts f1 rest = some fn' := by
  rw [runOnInsts_cons_some _ hf] at h
  cases hv : visit fn inst with
  | none => rw [hv] at h; cases h
  | some f1 =>
    rw [hv, Option.some_bind] at h
    refine ⟨f1, rfl, ?_, h⟩
    rw [runOnInsts_cons_some _ hf, hv]
    rfl

/-- A run over any instructions takes the state before the rewrite of the call to itself,
when the call is not among them, or to the state after it. -/
theorem runOnInsts_borrow_phase {bb c b : Nat} {ids0 : List Nat} {slots : Nat → Nat → Prop}
    (js : List Nat) :
    ∀ fn fn' : Function, fn.WellFormed → BorrowPre fn bb c b ids0 slots →
      runOnInsts fn js = some fn' →
      (c ∉ js ∧ BorrowPre fn' bb c b ids0 slots) ∨
        ∃ cmp, BorrowPost fn' bb c b cmp ids0 slots := by
  induction js with
  | nil =>
    intro fn fn' _ hpre h
    simp only [runOnInsts, Option.some.injEq] at h
    exact Or.inl ⟨List.not_mem_nil _, h ▸ hpre⟩
  | cons j rest ih =>
    intro fn fn' hwf hpre h
    by_cases hjc : j = c
    · subst hjc
      obtain ⟨C, hC, hCid, _⟩ := hpre.inv.call
      have hf := Function.find?_of_mem hwf.1 hC
      rw [hCid] at hf
      obtain ⟨f1, hv, _, hrest⟩ := runOnInsts_cons_visit hf h
      obtain ⟨f2, cmp, hv2, hwf2, hpost2⟩ := visit_borrow hwf hpre hf
      rw [hv] at hv2
      cases hv2
      exact Or.inr ⟨cmp, runOnInsts_borrowPost rest hwf2 hpost2 hrest⟩
    · cases hf : fn.find? j with
      | none =>
        rw [runOnInsts_cons_none _ hf] at h
        rcases ih fn fn' hwf hpre h with ⟨hn, hp⟩ | hp
        · refine Or.inl ⟨?_, hp⟩
          intro hm
          simp only [List.mem_cons] at hm
          rcases hm with e | e
          · exact hjc e.symm
          · exact hn e
        · exact Or.inr hp
      | some inst =>
        obtain ⟨f1, _, h1, hrest⟩ := runOnInsts_cons_visit hf h
        have hnot : c ∉ [j] := by
          intro hm
          simp only [List.mem_singleton] at hm
          exact hjc hm.symm
        have hpre1 := runOnInsts_borrowPre hnot hwf hpre h1
        have hwf1 := runOnInsts_wellFormed hwf h1
        rcases ih f1 fn' hwf1 hpre1 hrest with ⟨hn, hp⟩ | hp
        · refine Or.inl ⟨?_, hp⟩
          intro hm
          simp only [List.mem_cons] at hm
          rcases hm with e | e
          · exact hjc e.symm
          · exact hn e
        · exact Or.inr hp

theorem runOnBlocks_borrowPost {bb c b cmp : Nat} {ids0 : List Nat}
    {slots : Nat → Nat → Prop} (bbs : List Nat) :
    ∀ (r r' : Bool) (fn fn' : Function), fn.WellFormed →
      BorrowPost fn bb c b cmp ids0 slots → runOnBlocks r fn bbs = some (r', fn') →
      fn'.WellFormed ∧ BorrowPost fn' bb c b cmp ids0 slots := by
  induction bbs with
  | nil =>
    intro r r' fn fn' hwf hpost h
    simp only [runOnBlocks, Option.some.injEq, Prod.mk.injEq] at h
    exact h.2 ▸ ⟨hwf, hpost⟩
  | cons b' rest ih =>
    intro r r' fn fn' hwf hpost h
    obtain ⟨f1, h1, h2⟩ := runOnBlocks_cons_some h
    exact ih _ _ _ _ (runOnBasicBlock_wellFormed hwf h1)
      (runOnInsts_borrowPost _ hwf hpost (runOnBasicBlock_some h1).2) h2

/-- A run over blocks among which is the block of the call ends in the state after the
rewrite. -/
theorem runOnBlocks_borrow_phase {bb c b : Nat} {ids0 : List Nat}
    {slots : Nat → Nat → Prop} (bbs : List Nat) :
    ∀ (r r' : Bool) (fn fn' : Function), fn.WellFormed →
      ((BorrowPre fn bb c b ids0 slots ∧ bb ∈ bbs) ∨
        ∃ cmp, BorrowPost fn bb c b cmp ids0 slots) →
      runOnBlocks r fn bbs = some (r', fn') →
      fn'.WellFormed ∧ ∃ cmp, BorrowPost fn' bb c b cmp ids0 slots := by
  induction bbs with
  | nil =>
    intro r r' fn fn' hwf hst h
    simp only [runOnBlocks, Option.some.injEq, Prod.mk.injEq] at h
    rcases hst with ⟨_, hm⟩ | hp
    · exact absurd hm (List.not_mem_nil _)
    · exact h.2 ▸ ⟨hwf, hp⟩
  | cons b' rest ih =>
    intro r r' fn fn' hwf hst h
    obtain ⟨f1, h1, h2⟩ := runOnBlocks_cons_some h
    have hwf1 := runOnBasicBlock_wellFormed hwf h1
    have hrun := (runOnBasicBlock_some h1).2
    rcases hst with ⟨hpre, hm⟩ | ⟨cmp, hp⟩
    · rcases runOnInsts_borrow_phase _ _ _ hwf hpre hrun with ⟨hn, hp1⟩ | hp1
      · have hne : bb ≠ b' := fun e => hn (e ▸ hpre.before.mem)
        simp only [List.mem_cons] at hm
        rcases hm with e | hm
        · exact absurd e hne
        · exact ih _ _ _ _ hwf1 (Or.inl ⟨hp1, hm⟩) h2
      · exact ih _ _ _ _ hwf1 (Or.inr hp1) h2
    · exact ih _ _ _ _ hwf1 (Or.inr ⟨cmp, runOnInsts_borrowPost _ hwf hp hrun⟩) h2

/-- The visit of the call adds an instruction as long as an `extractvalue` of index 1
uses the call. -/
theorem visit_call_length_lt {fn f1 : Function} {c b : Nat} (hwf : fn.WellFormed)
    (hinv : BorrowInv fn c b) {C : Instruction} (hf : fn.find? c = some C)
    (hv : visit fn C = some f1) : fn.insts.length < f1.insts.length := by
  obtain ⟨hC, hCid⟩ := Function.find?_eq_some hf
  obtain ⟨K, hK, hKid, hKop⟩ := hinv.call
  have hCK : C = K := Function.eq_of_id_eq hwf.1 hC hK (by rw [hCid, hKid])
  have hCop : C.opcode = .call .usub_with_overflow := hCK ▸ hKop
  have hlen := hinv.arity C hC hCid
  obtain ⟨arg0, arg1, rest, hops⟩ : ∃ arg0 arg1 rest, C.operands = arg0 :: arg1 :: rest := by
    cases hco : C.operands with
    | nil => rw [hco] at hlen; simp at hlen
    | cons x t =>
      cases t with
      | nil => rw [hco] at hlen; simp at hlen
      | cons y t' => exact ⟨x, y, t', rfl⟩
  have hm := matchUSubWithOverflow_of_shape hCop hops
  simp only [visit, hm, Option.some.injEq] at hv
  rw [← hv]
  obtain ⟨E, hE, _, hEop, hEops⟩ := hinv.borrow
  refine foldl_replaceBorrow_length_lt _ fn (List.mem_map_of_mem _ hC) ⟨E, ?_, hEop⟩
  simp only [Function.users, List.mem_filter, decide_eq_true_eq]
  exact ⟨hE, by rw [hEops, hCid]; simp⟩

theorem runOnInsts_length_lt {bb c b cmp : Nat} {ids0 : List Nat}
    {slots : Nat → Nat → Prop} (js : List Nat) :
    ∀ fn fn' : Function, fn.WellFormed → BorrowPost fn bb c b cmp ids0 slots → c ∈ js →
      runOnInsts fn js = some fn' → fn.insts.length < fn'.insts.length := by
  induction js with
  | nil => intro fn fn' _ _ hm _; exact absurd hm (List.not_mem_nil _)
  | cons j rest ih =>
    intro fn fn' hwf hpost hm h
    cases hf : fn.find? j with
    | none =>
      rw [runOnInsts_cons_none _ hf] at h
      simp only [List.mem_cons] at hm
      rcases hm with e | hm
      · obtain ⟨C, hC, hCid, _⟩ := hpost.inv.call
        exact absurd (e ▸ hCid) (Function.find?_eq_none.mp hf C hC)
      · exact ih fn fn' hwf hpost hm h
    | some inst =>
      obtain ⟨f1, hv, h1, hrest⟩ := runOnInsts_cons_visit hf h
      by_cases hjc : j = c
      · subst hjc
        exact Nat.lt_of_lt_of_le (visit_call_length_lt hwf hpost.inv hf hv)
          (runOnInsts_length_le _ _ _ hrest)
      · simp only [List.mem_cons] at hm
        rcases hm with e | hm
        · exact absurd e.symm hjc
        · exact Nat.lt_of_le_of_lt (visit_length_le hv)
            (ih f1 fn' (runOnInsts_wellFormed hwf h1)
              (runOnInsts_borrowPost _ hwf hpost h1) hm hrest)

theorem runOnBlocks_length_lt {bb c b cmp : Nat} {ids0 : List Nat}
    {slots : Nat → Nat → Prop} (bbs : List Nat) :
    ∀ (r r' : Bool) (fn fn' : Function), fn.WellFormed →
      BorrowPost fn bb c b cmp ids0 slots → bb ∈ bbs →
      runOnBlocks r fn bbs = some (r', fn') → fn.insts.length < fn'.insts.length := by
  induction bbs with
  | nil => intro _ _ fn fn' _ _ hm _; exact absurd hm (List.not_mem_nil _)
  | cons b' rest ih =>
    intro r r' fn fn' hwf hpost hm h
    obtain ⟨f1, h1, h2⟩ := runOnBlocks_cons_some h
    have hrun := (runOnBasicBlock_some h1).2
    by_cases hb : b' = bb
    · subst hb
      exact Nat.lt_of_lt_of_le (runOnInsts_length_lt _ _ _ hwf hpost hpost.before.mem hrun)
        (runOnBlocks_length_le _ _ _ _ _ h2)
    · simp only [List.mem_cons] at hm
      rcases hm with e | hm
      · exact absurd e.symm hb
      · exact Nat.lt_of_le_of_lt (runOnInsts_length_le _ _ _ hrun)
          (ih _ _ _ _ (runOnBasicBlock_wellFormed hwf h1)
            (runOnInsts_borrowPost _ hwf hpost hrun) hm h2)

theorem runOnInsts_persist {js : List Nat} {fn fn' : Function} (hwf : fn.WellFormed)
    (h : runOnInsts fn js = some fn') {i : Instruction} (hi : i ∈ fn.insts) :
    ∃ i' ∈ fn'.insts, i'.id = i.id ∧ i'.opcode = i.opcode ∧ i'.type = i.type :=
  runOnInsts_induction
    (fun f => ∃ i' ∈ f.insts, i'.id = i.id ∧ i'.opcode = i.opcode ∧ i'.type = i.type)
    (fun _ _ => True) js (fun _ _ _ _ _ _ _ _ => trivial)
    (fun _ _ _ _ _ _ _ hP _ hst => by
      obtain ⟨k, hk, h1, h2, h3⟩ := hP
      obtain ⟨k', hk', e1, e2, e3⟩ := hst.persist hk
      exact ⟨k', hk', e1.trans h1, e2.trans h2, e3.trans h3⟩)
    fn fn' hwf ⟨i, hi, rfl, rfl, rfl⟩ h

theorem runOnBlocks_persist (bbs : List Nat) :
    ∀ (r r' : Bool) (fn fn' : Function), fn.WellFormed →
      runOnBlocks r fn bbs = some (r', fn') → ∀ i ∈ fn.insts,
      ∃ i' ∈ fn'.insts, i'.id = i.id ∧ i'.opcode = i.opcode ∧ i'.type = i.type := by
  induction bbs with
  | nil =>
    intro r r' fn fn' _ h i hi
    simp only [runOnBlocks, Option.some.injEq, Prod.mk.injEq] at h
    exact ⟨i, h.2 ▸ hi, rfl, rfl, rfl⟩
  | cons b' rest ih =>
    intro r r' fn fn' hwf h i hi
    obtain ⟨f1, h1, h2⟩ := runOnBlocks_cons_some h
    obtain ⟨k, hk, e1, e2, e3⟩ := runOnInsts_persist hwf (runOnBasicBlock_some h1).2 hi
    obtain ⟨k', hk', e1', e2', e3'⟩ := ih _ _ _ _ (runOnBasicBlock_wellFormed hwf h1) h2 k hk
    exact ⟨k', hk', e1'.trans e1, e2'.trans e2, e3'.trans e3⟩

/-- C4 (counterexample): on the unsigned pattern `unsignedFn` the second run of
`runOnFunction` does not return what the first run returned: the first run leaves five
instructions, the second run six. -/
theorem second_run_not_identical :
    ((runOnFunction unsignedFn).bind fun r => runOnFunction r.2) ≠ runOnFunction unsignedFn ∧
    (runOnFunction unsignedFn).map (fun r => r.2.insts.length) = some 5 ∧
    ((runOnFunction unsignedFn).bind fun r => runOnFunction r.2).map
      (fun r => r.2.insts.length) = some 6 := by
  decide

/-- C4 (amended): let `call = usub_with_overflow(a, b)` stand in a block of a well-formed
function in which no argument of `call` is an index-1 extract of `call` itself, and let
`borrow = extractvalue(call, 1)`.  Both runs of `runOnFunction` return.  After the first
run and still after the second, every former use of `borrow` refers to the same
`icmp ult` `cmp` created by the first run and no instruction uses `borrow`; the second run
removes no instruction; but it inserts at least one, so the function after two runs is
not the function after one run. -/
theorem second_run_unsigned (fn : Function) (hwf : fn.WellFormed) (bb : Nat)
    (call borrow : Instruction) (a b : Value) (rest : List Value)
    (hcall : call ∈ fn.blockInsts bb) (hcop : call.opcode = .call .usub_with_overflow)
    (hcops : call.operands = a :: b :: rest)
    (hborrow : borrow ∈ fn.insts) (hbop : borrow.opcode = .extractvalue [1])
    (hbops : borrow.operands = [.inst call.id])
    (hacyc : ∀ v ∈ call.operands, NotOwnBorrow fn call.id v) :
    ∃ fn1 fn2 cmp, runOnFunction fn = some (false, fn1) ∧
      runOnFunction fn1 = some (false, fn2) ∧
      cmp ∉ fn.insts.map Instruction.id ∧
      Has fn1 cmp (.icmp .ICMP_ULT) ∧ Has fn2 cmp (.icmp .ICMP_ULT) ∧
      (∀ u ∈ fn.insts, ∀ k, u.operands[k]? = some (.inst borrow.id) →
        Slot fn1 u.id k (.inst cmp) ∧ Slot fn2 u.id k (.inst cmp)) ∧
      Unused fn1 (.inst borrow.id) ∧ Unused fn2 (.inst borrow.id) ∧
      (∀ i ∈ fn1.insts, ∃ i' ∈ fn2.insts,
        i'.id = i.id ∧ i'.opcode = i.opcode ∧ i'.type = i.type) ∧
      fn1.insts.length < fn2.insts.length ∧ fn2 ≠ fn1 := by
  obtain ⟨fn1, hrun1, hwf1⟩ := runOnFunction_total hwf
  obtain ⟨fn2, hrun2, _⟩ := runOnFunction_total hwf1
  have hcin : call ∈ fn.insts := (fn.blockInsts_sublist bb).subset hcall
  obtain ⟨pre, post, hdec⟩ := List.append_of_mem hcall
  have hpre : BorrowPre fn bb call.id borrow.id (fn.insts.map Instruction.id)
      (fun u k => Slot fn u k (.inst borrow.id)) := by
    refine ⟨⟨⟨call, hcin, rfl, hcop⟩, ?_, ⟨borrow, hborrow, rfl, hbop, hbops⟩, ?_⟩,
      fun _ h => h, ⟨pre, [], post, call, by rw [hdec]; simp, rfl, by simp, by simp⟩,
      fun _ _ h => h⟩
    · intro C hC hCid
      have := Function.eq_of_id_eq hwf.1 hC hcin hCid
      rw [this, hcops]
      simp
    · intro C hC hCid
      have := Function.eq_of_id_eq hwf.1 hC hcin hCid
      rw [this]
      exact hacyc
  have hbb : bb ∈ List.range fn.blocks.length :=
    List.mem_range.mpr (Function.blockInsts_lt hcall)
  obtain ⟨_, cmp, hpost1⟩ :=
    runOnBlocks_borrow_phase _ _ _ _ _ hwf (Or.inl ⟨hpre, hbb⟩) hrun1
  obtain ⟨_, hpost2⟩ := runOnBlocks_borrowPost _ _ _ _ _ hwf1 hpost1 hrun2
  have hbb1 : bb ∈ List.range fn1.blocks.length := by
    obtain ⟨l1, cs, l3, C, hbl, _⟩ := hpost1.before
    exact List.mem_range.mpr (@Function.blockInsts_lt fn1 bb C (by rw [hbl]; simp))
  have hlt := runOnBlocks_length_lt _ _ _ _ _ hwf1 hpost1 hbb1 hrun2
  have hnew : cmp ∉ fn.insts.map Instruction.id := by
    obtain ⟨l1, cs, l3, C, _, _, hcs, hm⟩ := hpost1.before
    obtain ⟨n, hn, hnid⟩ := List.mem_map.mp (hm cmp rfl)
    exact hnid ▸ (hcs n hn).1
  have hhas : ∀ f, BorrowDone f call.id borrow.id cmp → Has f cmp (.icmp .ICMP_ULT) := by
    intro f hd
    obtain ⟨K, hK, hKid, hKop, _⟩ := hd.cmp
    exact ⟨K, hK, hKid, hKop⟩
  refine ⟨fn1, fn2, cmp, hrun1, hrun2, hnew, hhas _ hpost1.done, hhas _ hpost2.done,
    fun u hu k huk => ⟨hpost1.slots u.id k ⟨u, hu, rfl, huk⟩,
      hpost2.slots u.id k ⟨u, hu, rfl, huk⟩⟩,
    hpost1.done.unused, hpost2.done.unused, runOnBlocks_persist _ _ _ _ _ hwf1 hrun2, hlt, ?_⟩
  intro e
  rw [e] at hlt
  exact Nat.lt_irrefl _ hlt

theorem second_run_unsigned_witness :
    ∃ fn1 fn2 cmp, runOnFunction unsignedFn = some (false, fn1) ∧
      runOnFunction fn1 = some (false, fn2) ∧
      cmp ∉ unsignedFn.insts.map Instruction.id ∧
      Has fn1 cmp (.icmp .ICMP_ULT) ∧ Has fn2 cmp (.icmp .ICMP_ULT) ∧
      (∀ u ∈ unsignedFn.insts, ∀ k, u.operands[k]? = some (.inst 2) →
        Slot fn1 u.id k (.inst cmp) ∧ Slot fn2 u.id k (.inst cmp)) ∧
      Unused fn1 (.inst 2) ∧ Unused fn2 (.inst 2) ∧
      (∀ i ∈ fn1.insts, ∃ i' ∈ fn2.insts,
        i'.id = i.id ∧ i'.opcode = i.opcode ∧ i'.type = i.type) ∧
      fn1.insts.length < fn2.insts.length ∧ fn2 ≠ fn1 :=
  second_run_unsigned unsignedFn (by decide) 0
    ⟨1, .call .usub_with_overflow, .other 0, [.arg 0 (.int 32), .arg 1 (.int 32)]⟩
    ⟨2, .extractvalue [1], .int 1, [.inst 1]⟩ (.arg 0 (.int 32)) (.arg 1 (.int 32)) []
    (by decide) rfl rfl (by decide) rfl rfl (by decide)

/-! ## C11, C13: the candidate subtraction -/

theorem isSame_of_resolved {fn : Function} {s : Subtraction} {l r l' r' sl sr : Value}
    {b : Nat} (hl : getOriginalValue fn l = some l') (hr : getOriginalValue fn r = some r')
    (hsl : getOriginalValue fn s.left = some sl) (hsr : getOriginalValue fn s.right = some sr) :
    s.isSame fn l r b =
      some (decide (b = s.bitness) && ((decide (l' = sl) && decide (r' = sr)) ||
        (decide (r' = sl) && decide (l' = sr)))) := by
  unfold Subtraction.isSame
  rw [isSameLowerBits_of_resolved hl hsl, isSameLowerBits_of_resolved hr hsr,
    isSameLowerBits_of_resolved hr hsl, isSameLowerBits_of_resolved hl hsr]
  by_cases hb : b = s.bitness
  · rw [if_pos hb]
    simp only [hb, decide_True, Bool.true_and]
    generalize decide (l' = sl) = p1
    generalize decide (r' = sr) = p2
    generalize decide (r' = sl) = p3
    generalize decide (l' = sr) = p4
    cases p1 <;> cases p2 <;> cases p3 <;> cases p4 <;> rfl
  · simp [hb]

/-- C11: on a well-formed function `isSame(l, r, b)` of a candidate `(left, right, n)`
returns, and it returns true exactly when `b = n` and the underlying values of `l`, `r`
are those of `left`, `right` in this or in the other order; swapping `l` and `r` does not
change the result. -/
theorem isSame_order_insensitive (fn : Function) (hwf : fn.WellFormed) (s : Subtraction)
    (l r : Value) (b : Nat) :
    (∃ x, s.isSame fn l r b = some x) ∧
    (s.isSame fn l r b = some true ↔
      b = s.bitness ∧
        ((getOriginalValue fn l = getOriginalValue fn s.left ∧
            getOriginalValue fn r = getOriginalValue fn s.right) ∨
          (getOriginalValue fn r = getOriginalValue fn s.left ∧
            getOriginalValue fn l = getOriginalValue fn s.right))) ∧
    s.isSame fn l r b = s.isSame fn r l b := by
  obtain ⟨l', hl⟩ := hwf.terminates l
  obtain ⟨r', hr⟩ := hwf.terminates r
  obtain ⟨sl, hsl⟩ := hwf.terminates s.left
  obtain ⟨sr, hsr⟩ := hwf.terminates s.right
  rw [isSame_of_resolved hl hr hsl hsr, isSame_of_resolved hr hl hsl hsr, hl, hr, hsl, hsr]
  refine ⟨⟨_, rfl⟩, ?_, ?_⟩
  · simp only [Option.some.injEq, Bool.and_eq_true, Bool.or_eq_true, decide_eq_true_eq]
  · generalize decide (b = s.bitness) = p0
    generalize decide (l' = sl) = p1
    generalize decide (r' = sr) = p2
    generalize decide (r' = sl) = p3
    generalize decide (l' = sr) = p4
    cases p0 <;> cases p1 <;> cases p2 <;> cases p3 <;> cases p4 <;> rfl

theorem isSame_order_insensitive_witness :
    (∃ x, Subtraction.isSame signedFn ⟨.arg 0 (.int 32), .arg 1 (.int 32), 32⟩
      (.arg 1 (.int 32)) (.arg 0 (.int 32)) 32 = some x) ∧
    (Subtraction.isSame signedFn ⟨.arg 0 (.int 32), .arg 1 (.int 32), 32⟩
        (.arg 1 (.int 32)) (.arg 0 (.int 32)) 32 = some true ↔
      32 = 32 ∧
        ((getOriginalValue signedFn (.arg 1 (.int 32)) =
              getOriginalValue signedFn (.arg 0 (.int 32)) ∧
            getOriginalValue signedFn (.arg 0 (.int 32)) =
              getOriginalValue signedFn (.arg 1 (.int 32))) ∨
          (getOriginalValue signedFn (.arg 0 (.int 32)) =
              getOriginalValue signedFn (.arg 0 (.int 32)) ∧
            getOriginalValue signedFn (.arg 1 (.int 32)) =
              getOriginalValue signedFn (.arg 1 (.int 32))))) ∧
    Subtraction.isSame signedFn ⟨.arg 0 (.int 32), .arg 1 (.int 32), 32⟩
        (.arg 1 (.int 32)) (.arg 0 (.int 32)) 32 =
      Subtraction.isSame signedFn ⟨.arg 0 (.int 32), .arg 1 (.int 32), 32⟩
        (.arg 0 (.int 32)) (.arg 1 (.int 32)) 32 :=
  isSame_order_insensitive signedFn (by decide) ⟨.arg 0 (.int 32), .arg 1 (.int 32), 32⟩
    (.arg 1 (.int 32)) (.arg 0 (.int 32)) 32

theorem matchOverflowFlag_unset {fn : Function} {v : Value} {s' : Option Subtraction}
    (h : matchOverflowFlag fn v none = some (false, s')) : s' = none := by
  unfold matchOverflowFlag at h
  cases hg : getOriginalValue fn v with
  | none => rw [hg] at h; cases h
  | some o =>
    rw [hg, Option.some_bind] at h
    cases hp : overflowFlagParts fn o with
    | none =>
      rw [hp] at h
      simp only [Option.some.injEq, Prod.mk.injEq, true_and] at h
      exact h.symm
    | some p =>
      obtain ⟨a, b, n⟩ := p
      rw [hp] at h
      simp [isSameSub] at h

theorem matchSignFlag_unset {fn : Function} {v : Value} {s' : Option Subtraction}
    (h : matchSignFlag fn v none = some (false, s')) : s' = none := by
  unfold matchSignFlag at h
  cases hg : signFlagOriginal fn v with
  | none => rw [hg] at h; cases h
  | some o =>
    rw [hg, Option.some_bind] at h
    unfold matchShiftedSub at h
    split at h
    · split at h
      · simp [isSameSub] at h
      · simp only [Option.some.injEq, Prod.mk.injEq, true_and] at h
        exact h.symm
    · simp only [Option.some.injEq, Prod.mk.injEq, true_and] at h
      exact h.symm

/-- C13: `isSameSub` on an unset candidate binds it to `(a, b, bitness)` and returns
true; on a bound candidate it hands the candidate back as it was and returns what
`isSame(a, b, bitness)` returns; and when `matchOverflowFlag` or `matchSignFlag` is called
with an unset candidate and returns false, the candidate is still unset. -/
theorem candidate_unset_bound (fn : Function) :
    (∀ a b n, isSameSub fn none a b n = some (true, some ⟨a, b, n⟩)) ∧
    (∀ s a b n, isSameSub fn (some s) a b n =
      (s.isSame fn a b n).map fun r => (r, some s)) ∧
    (∀ s a b n r s', isSameSub fn (some s) a b n = some (r, s') →
      s' = some s ∧ s.isSame fn a b n = some r) ∧
    (∀ v s', matchOverflowFlag fn v none = some (false, s') → s' = none) ∧
    (∀ v s', matchSignFlag fn v none = some (false, s') → s' = none) := by
  refine ⟨fun _ _ _ => rfl, fun _ _ _ _ => rfl, ?_, fun _ _ => matchOverflowFlag_unset,
    fun _ _ => matchSignFlag_unset⟩
  intro s a b n r s' h
  simp only [isSameSub] at h
  cases hi : s.isSame fn a b n with
  | none => rw [hi] at h; cases h
  | some x =>
    rw [hi] at h
    simp only [Option.map_some', Option.some.injEq, Prod.mk.injEq] at h
    exact ⟨h.2.symm, by rw [h.1]⟩

/-! ## C12: casts around the two sides -/

theorem getOriginalValue_of_chain {fn : Function} {v w : Value}
    (h : Relation.ReflTransGen (fun x y => asCast fn x = some y) v w) :
    getOriginalValue fn v = getOriginalValue fn w := by
  induction h with
  | refl => rfl
  | tail _ hs ih => rw [ih, getOriginalValue_of_asCast_some hs]

theorem matchOverflowFlag_congr {fn : Function} {v w : Value}
    (h : getOriginalValue fn v = getOriginalValue fn w) (sub : Option Subtraction) :
    matchOverflowFlag fn v sub = matchOverflowFlag fn w sub := by
  unfold matchOverflowFlag
  rw [h]

theorem matchSignFlag_congr {fn : Function} {v w : Value}
    (h : getOriginalValue fn v = getOriginalValue fn w) (sub : Option Subtraction) :
    matchSignFlag fn v sub = matchSignFlag fn w sub := by
  unfold matchSignFlag signFlagOriginal
  rw [h]

theorem matchOverflowSignFlag_congr {fn : Function} {L L' R R' : Value}
    (hL : getOriginalValue fn L' = getOriginalValue fn L)
    (hR : getOriginalValue fn R' = getOriginalValue fn R) :
    matchOverflowSignFlag fn L' R' = matchOverflowSignFlag fn L R := by
  unfold matchOverflowSignFlag
  simp only [matchOverflowFlag_congr hL, matchOverflowFlag_congr hR, matchSignFlag_congr hL,
    matchSignFlag_congr hR]

theorem not_cast_of_asCast_none {fn : Function} {id : Nat} {i : Instruction} {op : CastOp}
    {op0 : Value} {rest : List Value} (h : asCast fn (.inst id) = none)
    (hf : fn.find? id = some i) (hops : i.operands = op0 :: rest) : i.opcode ≠ .cast op := by
  intro hop
  simp [asCast, hf, hop, hops] at h

/-- C12: `getOriginalValue` applied to its own result returns that result, and the result
is never a cast instruction; and when `L'` reaches `L` and `R'` reaches `R` through
chains of cast instructions (each the operand 0 of the one before), the two overflow and
sign matchers and `matchOverflowSignFlag` return on `L'`, `R'` what they return on `L`,
`R`. -/
theorem matching_cast_transparent (fn : Function) (L L' R R' : Value)
    (hL : Relation.ReflTransGen (fun x y => asCast fn x = some y) L' L)
    (hR : Relation.ReflTransGen (fun x y => asCast fn x = some y) R' R) :
    (∀ v, (getOriginalValue fn v).bind (getOriginalValue fn) = getOriginalValue fn v) ∧
    (∀ (v r : Value) (id : Nat) (i : Instruction) (op : CastOp) (op0 : Value)
      (rest : List Value), getOriginalValue fn v = some r → r = .inst id →
      fn.find? id = some i → i.operands = op0 :: rest → i.opcode ≠ .cast op) ∧
    getOriginalValue fn L' = getOriginalValue fn L ∧
    (∀ sub, matchOverflowFlag fn L' sub = matchOverflowFlag fn L sub) ∧
    (∀ sub, matchSignFlag fn R' sub = matchSignFlag fn R sub) ∧
    matchOverflowSignFlag fn L' R' = matchOverflowSignFlag fn L R := by
  have h1 := getOriginalValue_of_chain hL
  have h2 := getOriginalValue_of_chain hR
  refine ⟨?_, ?_, h1, matchOverflowFlag_congr h1, matchSignFlag_congr h2,
    matchOverflowSignFlag_congr h1 h2⟩
  · intro v
    cases hv : getOriginalValue fn v with
    | none => rfl
    | some r =>
      rw [Option.some_bind]
      exact getOriginalValue_of_asCast_none (getOriginalValue_stop hv)
  · intro v r id i op op0 rest hv hr hf hops
    subst hr
    exact not_cast_of_asCast_none (getOriginalValue_stop hv) hf hops

theorem matching_cast_transparent_witness :
    (∀ v, (getOriginalValue signedFn v).bind (getOriginalValue signedFn) =
      getOriginalValue signedFn v) ∧
    (∀ (v r : Value) (id : Nat) (i : Instruction) (op : CastOp) (op0 : Value)
      (rest : List Value), getOriginalValue signedFn v = some r → r = .inst id →
      signedFn.find? id = some i → i.operands = op0 :: rest → i.opcode ≠ .cast op) ∧
    getOriginalValue signedFn (.inst 5) = getOriginalValue signedFn (.inst 4) ∧
    (∀ sub, matchOverflowFlag signedFn (.inst 5) sub = matchOverflowFlag signedFn (.inst 4) sub) ∧
    (∀ sub, matchSignFlag signedFn (.inst 2) sub = matchSignFlag signedFn (.inst 2) sub) ∧
    matchOverflowSignFlag signedFn (.inst 5) (.inst 2) =
      matchOverflowSignFlag signedFn (.inst 4) (.inst 2) :=
  matching_cast_transparent signedFn (.inst 4) (.inst 5) (.inst 2) (.inst 2)
    (Relation.ReflTransGen.single (by decide)) Relation.ReflTransGen.refl

/-! ## C14: the width of the sign flag -/

theorem shiftBitness_small {k : Nat} (h : k < 2 ^ 32 - 1) : shiftBitness k = k + 1 := by
  unfold shiftBitness
  have h1 : k < 2 ^ 64 := by omega
  rw [if_pos h1, Nat.mod_eq_of_lt (by omega), Nat.mod_eq_of_lt (by omega)]

/-- C14 (counterexample): in `wideShiftFn` the value `%6` is
`lshr(sub(a, b), 2^32 + 31)`, and `matchSignFlag` on it succeeds against a candidate of
width 32, although `2^32 + 31` is not `32 - 1`. -/
theorem matchSignFlag_wide_shift :
    matchBinOp wideShiftFn .LShr (.inst 6) = some (.inst 5, .const (.int 64 4294967327)) ∧
    matchBinOp wideShiftFn .Sub (.inst 5) = some (.arg 0 (.int 64), .arg 1 (.int 64)) ∧
    matchSignFlag wideShiftFn (.inst 6) (some ⟨.inst 1, .inst 2, 32⟩) =
      some (true, some ⟨.inst 1, .inst 2, 32⟩) ∧
    4294967327 ≠ 32 - 1 := by
  decide

/-- C14 (amended): when `matchSignFlag` succeeds against a candidate bound to width `n`,
the value it reached is `lshr(sub(a, b), k)` for a constant `k`, of any width, for which
the width the code computes from `k` (`k` saturated at `2^64 - 1`, truncated to 32 bits,
plus 1 modulo `2^32`) is `n`; for `k < 2^32 - 1` that is `k = n - 1`.  The candidate is
handed back as it was. -/
theorem matchSignFlag_width (fn : Function) (value : Value) (cand : Subtraction)
    (s' : Option Subtraction) (h : matchSignFlag fn value (some cand) = some (true, s')) :
    ∃ original operand w k a b, signFlagOriginal fn value = some original ∧
      matchBinOp fn .LShr original = some (operand, .const (.int w k)) ∧
      matchBinOp fn .Sub operand = some (a, b) ∧
      shiftBitness k = cand.bitness ∧
      (k < 2 ^ 32 - 1 → 0 < cand.bitness ∧ k = cand.bitness - 1) ∧
      s' = some cand := by
  unfold matchSignFlag at h
  cases hg : signFlagOriginal fn value with
  | none => rw [hg] at h; cases h
  | some o =>
    rw [hg, Option.some_bind] at h
    unfold matchShiftedSub at h
    split at h
    · next operand w k hl =>
      split at h
      · next a b hs =>
        simp only [isSameSub] at h
        cases hi : cand.isSame fn a b (shiftBitness k) with
        | none => rw [hi] at h; cases h
        | some x =>
          rw [hi] at h
          simp only [Option.map_some', Option.some.injEq, Prod.mk.injEq] at h
          obtain ⟨hx, hs'⟩ := h
          subst hx
          have hb : shiftBitness k = cand.bitness := by
            by_contra hne
            simp [Subtraction.isSame, hne] at hi
          refine ⟨o, operand, w, k, a, b, rfl, hl, hs, hb, ?_, hs'.symm⟩
          intro hk
          rw [shiftBitness_small hk] at hb
          omega
      · simp at h
    · simp at h

theorem matchSignFlag_width_witness :
    ∃ original operand w k a b, signFlagOriginal signedFn (.inst 5) = some original ∧
      matchBinOp signedFn .LShr original = some (operand, .const (.int w k)) ∧
      matchBinOp signedFn .Sub operand = some (a, b) ∧
      shiftBitness k = 32 ∧
      (k < 2 ^ 32 - 1 → 0 < 32 ∧ k = 32 - 1) ∧
      some (Subtraction.mk (.arg 0 (.int 32)) (.arg 1 (.int 32)) 32) =
        some ⟨.arg 0 (.int 32), .arg 1 (.int 32), 32⟩ :=
  matchSignFlag_width signedFn (.inst 5) ⟨.arg 0 (.int 32), .arg 1 (.int 32), 32⟩
    (some ⟨.arg 0 (.int 32), .arg 1 (.int 32), 32⟩) (by decide)

/-! ## C15: the candidate that is returned -/

/-- The overflow side binds the candidate whatever the type of the first argument is. -/
theorem overflowFlagParts_of_shape {fn : Function} {id cid : Nat}
    {extract intrin : Instruction} {a b : Value} {rest rest' : List Value}
    (hfe : fn.find? id = some extract) (heop : extract.opcode = .extractvalue [1])
    (heops : extract.operands = .inst cid :: rest) (hfi : fn.find? cid = some intrin)
    (hiop : intrin.opcode = .call .ssub_with_overflow)
    (hiops : intrin.operands = a :: b :: rest') :
    overflowFlagParts fn (.inst id) = some (a, b, a.integerBitWidth fn) := by
  simp [overflowFlagParts, hfe, heop, heops, hfi, hiop, hiops]

theorem Value.integerBitWidth_of_type {fn : Function} {v : Value} {n : Nat}
    (h : v.type fn = some (.int n)) : v.integerBitWidth fn = n := by
  simp [Value.integerBitWidth, h, Ty.getIntegerBitWidth]

/-- C15: in a function in which the two arguments of every `ssub_with_overflow` call have
one integer type: when `matchOverflowSignFlag(L, R)` returns a `Subtraction`, one of `L`,
`R` reaches, through casts, an `extractvalue` of index 1 of an `ssub_with_overflow` call
whose arguments 0 and 1 are the returned `left` and `right` themselves, `bitness` is what
`getIntegerBitWidth()` returns for the type of argument 0, which is the width of that
integer type, and the `icmp slt` the pass then creates has `left` and `right` as operands,
both of that integer type. -/
theorem matchOverflowSignFlag_candidate (fn : Function) (htyped : SSubTyped fn)
    (L R : Value) (sub : Subtraction) (h : matchOverflowSignFlag fn L R = some (some sub)) :
    (∃ v extract intrin rest rest', (v = L ∨ v = R) ∧
      getOriginalValue fn v = some (.inst extract.id) ∧
      extract ∈ fn.insts ∧ extract.opcode = .extractvalue [1] ∧
      extract.operands = .inst intrin.id :: rest ∧
      intrin ∈ fn.insts ∧ intrin.opcode = .call .ssub_with_overflow ∧
      intrin.operands = sub.left :: sub.right :: rest') ∧
    sub.bitness = sub.left.integerBitWidth fn ∧
    (newICmpSLT fn sub).operands = [sub.left, sub.right] ∧
    sub.left.type fn = some (.int sub.bitness) ∧
    sub.right.type fn = some (.int sub.bitness) := by
  obtain ⟨v, o, hv, hg, hp⟩ := matchOverflowSignFlag_some h
  obtain ⟨id, cid, extract, intrin, rest, rest', ho, hfe, heop, heops, hfi, hiop, hiops, hw⟩ :=
    overflowFlagParts_some hp
  obtain ⟨hE, hEid⟩ := Function.find?_eq_some hfe
  obtain ⟨hI, hIid⟩ := Function.find?_eq_some hfi
  obtain ⟨n, hta, htb⟩ := htyped intrin hI hiop _ _ _ hiops
  have hn : sub.bitness = n := hw.trans (Value.integerBitWidth_of_type hta)
  refine ⟨⟨v, extract, intrin, rest, rest', hv, ?_, hE, heop, ?_, hI, hiop, hiops⟩, hw, rfl,
    ?_, ?_⟩
  · rw [hg, ho, hEid]
  · rw [heops, hIid]
  · rw [hn]
    exact hta
  · rw [hn]
    exact htb

theorem matchOverflowSignFlag_candidate_witness :
    (∃ v extract intrin rest rest', (v = .inst 5 ∨ v = .inst 2) ∧
      getOriginalValue swappedFn v = some (.inst extract.id) ∧
      extract ∈ swappedFn.insts ∧ extract.opcode = .extractvalue [1] ∧
      extract.operands = .inst intrin.id :: rest ∧
      intrin ∈ swappedFn.insts ∧ intrin.opcode = .call .ssub_with_overflow ∧
      intrin.operands = .arg 0 (.int 8) :: .arg 1 (.int 8) :: rest') ∧
    8 = (Value.arg 0 (.int 8)).integerBitWidth swappedFn ∧
    (newICmpSLT swappedFn ⟨.arg 0 (.int 8), .arg 1 (.int 8), 8⟩).operands =
      [.arg 0 (.int 8), .arg 1 (.int 8)] ∧
    (Value.arg 0 (.int 8)).type swappedFn = some (.int 8) ∧
    (Value.arg 1 (.int 8)).type swappedFn = some (.int 8) :=
  matchOverflowSignFlag_candidate swappedFn
    (by
      intro c hc hop a b rest hops
      simp only [swappedFn, Function.insts, List.map_cons, List.map_nil, List.flatten_cons,
        List.flatten_nil, List.append_nil, List.mem_cons, List.mem_singleton,
        List.not_mem_nil, or_false] at hc
      rcases hc with rfl | rfl | rfl | rfl | rfl | rfl | rfl <;> simp at hop
      simp only [List.cons.injEq] at hops
      obtain ⟨rfl, rfl, _⟩ := hops
      exact ⟨8, rfl, rfl⟩)
    (.inst 5) (.inst 2) ⟨.arg 0 (.int 8), .arg 1 (.int 8), 8⟩ (by decide)

/-! ## Evaluation of an instruction of a given shape -/

theorem eval_binary {env : Env} {i : Instruction} {op : BinOp} {x y : Value} {n a b : Nat}
    (hop : i.opcode = .binary op) (hops : i.operands = [x, y])
    (hx : x.eval env = some (.int n a)) (hy : y.eval env = some (.int n b)) :
    i.eval env = (evalBinary op n a b).map (.int n) := by
  unfold Instruction.eval
  rw [hop, hops]
  simp [hx, hy]

theorem eval_icmp {env : Env} {i : Instruction} {pred : Predicate} {x y : Value}
    {n a b : Nat} (hop : i.opcode = .icmp pred) (hops : i.operands = [x, y])
    (hx : x.eval env = some (.int n a)) (hy : y.eval env = some (.int n b)) :
    i.eval env = some (.int 1 (if evalICmp pred n a b then 1 else 0)) := by
  unfold Instruction.eval
  rw [hop, hops]
  simp [hx, hy]

theorem eval_cast {env : Env} {i : Instruction} {op : CastOp} {x : Value} {n m v : Nat}
    (hop : i.opcode = .cast op) (hty : i.type = .int m) (hops : i.operands = [x])
    (hx : x.eval env = some (.int n v)) : i.eval env = evalCast op n m v := by
  unfold Instruction.eval
  rw [hop, hops]
  simp [hx, hty]

theorem eval_usub {env : Env} {i : Instruction} {x y : Value} {rest : List Value}
    {n a b : Nat} (hop : i.opcode = .call .usub_with_overflow)
    (hops : i.operands = x :: y :: rest)
    (hx : x.eval env = some (.int n a)) (hy : y.eval env = some (.int n b)) :
    i.eval env = some (usubWithOverflow n a b) := by
  unfold Instruction.eval
  rw [hop, hops]
  simp [hx, hy]

theorem eval_ssub {env : Env} {i : Instruction} {x y : Value} {rest : List Value}
    {n a b : Nat} (hop : i.opcode = .call .ssub_with_overflow)
    (hops : i.operands = x :: y :: rest)
    (hx : x.eval env = some (.int n a)) (hy : y.eval env = some (.int n b)) :
    i.eval env = some (ssubWithOverflow n a b) := by
  unfold Instruction.eval
  rw [hop, hops]
  simp [hx, hy]

theorem eval_extract_one {env : Env} {i : Instruction} {x : Value} {rest : List Value}
    {n r : Nat} {o : Bool} (hop : i.opcode = .extractvalue [1])
    (hops : i.operands = x :: rest) (hx : x.eval env = some (.pair n r o)) :
    i.eval env = some (.int 1 (if o then 1 else 0)) := by
  unfold Instruction.eval
  rw [hop, hops]
  simp [hx]

/-! ## C16: the value of the unsigned replacement -/

theorem usub_overflow_iff {n a b : Nat} (ha : a < 2 ^ n) :
    decide (¬ (0 ≤ (a : Int) - (b : Int) ∧ (a : Int) - (b : Int) < 2 ^ n)) = decide (a < b) := by
  have h2 : ((2 ^ n : Nat) : Int) = (2 : Int) ^ n := by push_cast; rfl
  have ha' : (a : Int) < 2 ^ n := by rw [← h2]; exact_mod_cast ha
  apply decide_eq_decide.mpr
  constructor
  · intro h
    by_contra hlt
    exact h ⟨by omega, by omega⟩
  · intro h hh
    omega

/-- C16: let `call` be a `usub_with_overflow` on values `arg0`, `arg1` that evaluate to
integers `a`, `b` of one width `n`, with `a < 2^n`, and let `e` be `extractvalue(call, 1)`.
In every valuation that gives `call` the value it computes, `e` evaluates to the overflow
bit, which is 1 exactly when `a < b`, and the `icmp ult arg0, arg1` that the unsigned
branch creates evaluates to the same value. -/
theorem unsigned_replacement_value (fn : Function) (env : Env) (call e : Instruction)
    (arg0 arg1 : Value) (n a b : Nat) (ha : a < 2 ^ n)
    (hm : matchUSubWithOverflow call = some (arg0, arg1))
    (h0 : arg0.eval env = some (.int n a)) (h1 : arg1.eval env = some (.int n b))
    (hc : env.inst call.id = call.eval env)
    (heop : e.opcode = .extractvalue [1]) (heops : e.operands = [.inst call.id]) :
    call.eval env = some (usubWithOverflow n a b) ∧
    e.eval env = some (.int 1 (if a < b then 1 else 0)) ∧
    (newICmpULT fn arg0 arg1).eval env = e.eval env := by
  obtain ⟨hcop, rest, hcops⟩ := matchUSubWithOverflow_opcode hm
  have hcv : call.eval env = some (usubWithOverflow n a b) := eval_usub hcop hcops h0 h1
  have hev : e.eval env = some (.int 1 (if a < b then 1 else 0)) := by
    have hx : (Value.inst call.id).eval env =
        some (.pair n (wrappedSub n a b) (decide (a < b))) := by
      rw [← usub_overflow_iff ha]
      exact hc.trans hcv
    rw [eval_extract_one heop heops hx]
    simp
  refine ⟨hcv, hev, ?_⟩
  rw [hev, @eval_icmp env (newICmpULT fn arg0 arg1) .ICMP_ULT arg0 arg1 n a b rfl rfl h0 h1]
  simp [evalICmp]

/-! ## C17: the value of the signed replacement -/

theorem pow_pred_double {n : Nat} (hn : 1 ≤ n) : 2 ^ n = 2 * 2 ^ (n - 1) := by
  obtain ⟨m, rfl⟩ : ∃ m, n = m + 1 := ⟨n - 1, by omega⟩
  simp [pow_succ, Nat.mul_comm]

theorem wrappedSub_eq {n a b : Nat} (ha : a < 2 ^ n) (hb : b < 2 ^ n) :
    wrappedSub n a b = if b ≤ a then a - b else a + 2 ^ n - b := by
  unfold wrappedSub
  split
  · next h =>
    have : a + 2 ^ n - b = (a - b) + 2 ^ n := by omega
    rw [this, Nat.add_mod_right, Nat.mod_eq_of_lt (by omega)]
  · next h => rw [Nat.mod_eq_of_lt (by omega)]

theorem signBit_eq {h w : Nat} (hh : 0 < h) (hw : w < 2 * h) :
    w / h = if w < h then 0 else 1 := by
  split
  · next hlt => exact Nat.div_eq_of_lt hlt
  · next hge =>
    have : w = (w - h) + h := by omega
    rw [this, Nat.add_div_right _ hh, Nat.div_eq_of_lt (by omega)]

theorem wrappedSub_lt {n : Nat} (a b : Nat) : wrappedSub n a b < 2 ^ n :=
  Nat.mod_lt _ (Nat.pow_pos (by decide))

/-- The signed-overflow bit of `a - b` xor the top bit of the wrapped difference is the
signed comparison `a < b`. -/
theorem overflow_xor_sign {n a b : Nat} (hn : 1 ≤ n) (ha : a < 2 ^ n) (hb : b < 2 ^ n) :
    (if decide (¬ (-(2 ^ (n - 1) : Int) ≤ toSigned n a - toSigned n b ∧
        toSigned n a - toSigned n b ≤ 2 ^ (n - 1) - 1)) then 1 else 0) ^^^
      (wrappedSub n a b / 2 ^ (n - 1)) =
    if toSigned n a < toSigned n b then 1 else 0 := by
  have h2 := pow_pred_double hn
  have hpos : 0 < 2 ^ (n - 1) := Nat.pow_pos (by decide)
  have hw := wrappedSub_eq ha hb
  have hwlt : wrappedSub n a b < 2 * 2 ^ (n - 1) := by
    rw [← h2]; exact wrappedSub_lt a b
  rw [signBit_eq hpos hwlt, hw]
  unfold toSigned
  have c1 : ((2 : Int) ^ (n - 1)) = ((2 ^ (n - 1) : Nat) : Int) := by push_cast; rfl
  have c2 : ((2 : Int) ^ n) = 2 * ((2 ^ (n - 1) : Nat) : Int) := by
    have : ((2 : Int) ^ n) = ((2 ^ n : Nat) : Int) := by push_cast; rfl
    rw [this, h2]; push_cast; rfl
  rw [c1, c2]
  rw [h2] at ha hb ⊢
  generalize 2 ^ (n - 1) = H at *
  simp only [decide_eq_true_eq]
  split_ifs <;> first | rfl | omega

/-- C17: let `s = ssub_with_overflow(A, B)` on values that evaluate to `n`-bit integers
`a`, `b`, `n ≥ 1`, `o = extractvalue(s, 1)`, `d = sub(A, B)`, `sh = lshr(d, n - 1)`,
`t = trunc sh to i1` and `x = xor(o, t)`.  In every valuation that gives these
instructions the values they compute, `x` evaluates to 1 when `a < b` as signed integers
and to 0 otherwise; the `icmp slt A, B` the signed branch creates evaluates to the same
value, and so does the `zext` of it to the type of `x`. -/
theorem signed_replacement_value (fn : Function) (env : Env) (n a b : Nat) (A B : Value)
    (s o d sh t x : Instruction) (hn : 1 ≤ n) (ha : a < 2 ^ n) (hb : b < 2 ^ n)
    (hA : A.eval env = some (.int n a)) (hB : B.eval env = some (.int n b))
    (hs : s.opcode = .call .ssub_with_overflow) (hsops : s.operands = [A, B])
    (hsv : env.inst s.id = s.eval env)
    (ho : o.opcode = .extractvalue [1]) (hoops : o.operands = [.inst s.id])
    (hov : env.inst o.id = o.eval env)
    (hd : d.opcode = .binary .Sub) (hdops : d.operands = [A, B])
    (hdv : env.inst d.id = d.eval env)
    (hsh : sh.opcode = .binary .LShr)
    (hshops : sh.operands = [.inst d.id, .const (.int n (n - 1))])
    (hshv : env.inst sh.id = sh.eval env)
    (ht : t.opcode = .cast .Trunc) (htty : t.type = .int 1) (htops : t.operands = [.inst sh.id])
    (htv : env.inst t.id = t.eval env)
    (hx : x.opcode = .binary .Xor) (hxty : x.type = .int 1)
    (hxops : x.operands = [.inst o.id, .inst t.id])
    (hk : env.inst fn.freshId = (newICmpSLT fn ⟨A, B, n⟩).eval env) :
    x.eval env = some (.int 1 (if toSigned n a < toSigned n b then 1 else 0)) ∧
    (newICmpSLT fn ⟨A, B, n⟩).eval env = x.eval env ∧
    (newZExt fn x.type).eval env = x.eval env := by
  have hpos : 0 < 2 ^ (n - 1) := Nat.pow_pos (by decide)
  have hwlt : wrappedSub n a b < 2 * 2 ^ (n - 1) := by
    rw [← pow_pred_double hn]; exact wrappedSub_lt a b
  -- the values of the instructions of the pattern
  have vs : (Value.inst s.id).eval env = some (ssubWithOverflow n a b) :=
    hsv.trans (eval_ssub hs hsops hA hB)
  have vo := hov.trans (eval_extract_one ho hoops vs)
  have vd : (Value.inst d.id).eval env = some (.int n (wrappedSub n a b)) :=
    hdv.trans (eval_binary hd hdops hA hB)
  have vc : (Value.const (.int n (n - 1))).eval env = some (.int n (n - 1)) := by
    simp only [Value.eval, Constant.eval]
    rw [Nat.mod_eq_of_lt (Nat.lt_of_le_of_lt (Nat.sub_le n 1) (Nat.lt_two_pow n))]
  have vsh : (Value.inst sh.id).eval env =
      some (.int n (wrappedSub n a b / 2 ^ (n - 1))) := by
    refine hshv.trans ((eval_binary hsh hshops vd vc).trans ?_)
    simp only [evalBinary]
    rw [if_pos (by omega)]
    rfl
  have vt : (Value.inst t.id).eval env = some (.int 1 (wrappedSub n a b / 2 ^ (n - 1))) := by
    refine htv.trans ((eval_cast ht htty htops vsh).trans ?_)
    simp only [evalCast]
    rw [if_pos hn, signBit_eq hpos hwlt]
    split <;> rfl
  have vx : x.eval env = some (.int 1 (if toSigned n a < toSigned n b then 1 else 0)) := by
    rw [eval_binary hx hxops vo vt]
    simp only [evalBinary, Option.map_some']
    rw [overflow_xor_sign hn ha hb]
  have vk : (newICmpSLT fn ⟨A, B, n⟩).eval env =
      some (.int 1 (if toSigned n a < toSigned n b then 1 else 0)) := by
    rw [@eval_icmp env (newICmpSLT fn ⟨A, B, n⟩) .ICMP_SLT A B n a b rfl rfl hA hB]
    simp [evalICmp]
  refine ⟨vx, vk.trans vx.symm, ?_⟩
  have vz := @eval_cast env (newZExt fn x.type) .ZExt (.inst fn.freshId) 1 1 _ rfl hxty rfl
    (hk.trans vk)
  rw [vz, vx]
  rfl

theorem unsigned_replacement_value_witness :
    Instruction.eval (unsignedFn.run (exampleArgs 32 3 5))
        ⟨1, .call .usub_with_overflow, .other 0, [.arg 0 (.int 32), .arg 1 (.int 32)]⟩ =
      some (usubWithOverflow 32 3 5) ∧
    Instruction.eval (unsignedFn.run (exampleArgs 32 3 5))
        ⟨2, .extractvalue [1], .int 1, [.inst 1]⟩ = some (.int 1 (if 3 < 5 then 1 else 0)) ∧
    (newICmpULT unsignedFn (.arg 0 (.int 32)) (.arg 1 (.int 32))).eval
        (unsignedFn.run (exampleArgs 32 3 5)) =
      Instruction.eval (unsignedFn.run (exampleArgs 32 3 5))
        ⟨2, .extractvalue [1], .int 1, [.inst 1]⟩ :=
  unsigned_replacement_value unsignedFn (unsignedFn.run (exampleArgs 32 3 5))
    ⟨1, .call .usub_with_overflow, .other 0, [.arg 0 (.int 32), .arg 1 (.int 32)]⟩
    ⟨2, .extractvalue [1], .int 1, [.inst 1]⟩ (.arg 0 (.int 32)) (.arg 1 (.int 32)) 32 3 5
    (by decide) rfl rfl rfl (by decide) rfl rfl

theorem signed_replacement_value_witness :
    Instruction.eval
        ((fuse signedFn ⟨6, .binary .Xor, .int 1, [.inst 2, .inst 5]⟩
          ⟨.arg 0 (.int 32), .arg 1 (.int 32), 32⟩).run (exampleArgs 32 2147483648 1))
        ⟨6, .binary .Xor, .int 1, [.inst 2, .inst 5]⟩ =
      some (.int 1 (if toSigned 32 2147483648 < toSigned 32 1 then 1 else 0)) ∧
    (newICmpSLT signedFn ⟨.arg 0 (.int 32), .arg 1 (.int 32), 32⟩).eval
        ((fuse signedFn ⟨6, .binary .Xor, .int 1, [.inst 2, .inst 5]⟩
          ⟨.arg 0 (.int 32), .arg 1 (.int 32), 32⟩).run (exampleArgs 32 2147483648 1)) =
      Instruction.eval
        ((fuse signedFn ⟨6, .binary .Xor, .int 1, [.inst 2, .inst 5]⟩
          ⟨.arg 0 (.int 32), .arg 1 (.int 32), 32⟩).run (exampleArgs 32 2147483648 1))
        ⟨6, .binary .Xor, .int 1, [.inst 2, .inst 5]⟩ ∧
    (newZExt signedFn (.int 1)).eval
        ((fuse signedFn ⟨6, .binary .Xor, .int 1, [.inst 2, .inst 5]⟩
          ⟨.arg 0 (.int 32), .arg 1 (.int 32), 32⟩).run (exampleArgs 32 2147483648 1)) =
      Instruction.eval
        ((fuse signedFn ⟨6, .binary .Xor, .int 1, [.inst 2, .inst 5]⟩
          ⟨.arg 0 (.int 32), .arg 1 (.int 32), 32⟩).run (exampleArgs 32 2147483648 1))
        ⟨6, .binary .Xor, .int 1, [.inst 2, .inst 5]⟩ :=
  signed_replacement_value signedFn
    ((fuse signedFn ⟨6, .binary .Xor, .int 1, [.inst 2, .inst 5]⟩
      ⟨.arg 0 (.int 32), .arg 1 (.int 32), 32⟩).run (exampleArgs 32 2147483648 1))
    32 2147483648 1 (.arg 0 (.int 32)) (.arg 1 (.int 32))
    ⟨1, .call .ssub_with_overflow, .other 0, [.arg 0 (.int 32), .arg 1 (.int 32)]⟩
    ⟨2, .extractvalue [1], .int 1, [.inst 1]⟩
    ⟨3, .binary .Sub, .int 32, [.arg 0 (.int 32), .arg 1 (.int 32)]⟩
    ⟨4, .binary .LShr, .int 32, [.inst 3, .const (.int 32 31)]⟩
    ⟨5, .cast .Trunc, .int 1, [.inst 4]⟩
    ⟨6, .binary .Xor, .int 1, [.inst 2, .inst 5]⟩
    (by decide) (by decide) (by decide) rfl rfl
    rfl rfl (by decide) rfl rfl (by decide) rfl rfl (by decide) rfl rfl (by decide)
    rfl rfl rfl (by decide) rfl rfl rfl (by decide)

/-! ## C18: the other operand order -/

/-- C18: on `swappedFn`, where the sign flag is taken from `sub(b, a)`, the matcher accepts
and the run replaces the use of the `xor` `%6` by the new `zext` `%9` of the new
`icmp slt a, b` `%8`; with `a = 1` and `b = 0` the `xor` evaluates to 1, the comparison and
its `zext` to 0. -/
theorem swapped_order_changes_value :
    matchOverflowSignFlag swappedFn (.inst 2) (.inst 5) =
      some (some ⟨.arg 0 (.int 8), .arg 1 (.int 8), 8⟩) ∧
    (runOnBasicBlock swappedFn 0).map
        (fun r => (r.2.find? 7).map Instruction.operands) = some (some [.inst 9]) ∧
    (runOnBasicBlock swappedFn 0).map
        (fun r => ((r.2.find? 8).map fun i => (i.opcode, i.operands),
          (r.2.find? 9).map fun i => (i.opcode, i.operands))) =
      some (some (.icmp .ICMP_SLT, [.arg 0 (.int 8), .arg 1 (.int 8)]),
        some (.cast .ZExt, [.inst 8])) ∧
    (swappedFn.run (exampleArgs 8 1 0)).inst 6 = some (.int 1 1) ∧
    (runOnBasicBlock swappedFn 0).map
        (fun r => ((r.2.run (exampleArgs 8 1 0)).inst 6, (r.2.run (exampleArgs 8 1 0)).inst 8,
          (r.2.run (exampleArgs 8 1 0)).inst 9)) =
      some (some (.int 1 1), some (.int 1 0), some (.int 1 0)) := by
  decide

end Fcd
